import Mathlib

/-!
# url-shortener-go: a shallow embedding

The development follows the Go packages of the repository:

* `strings`, `url`  : the standard-library functions that
  `services.URLService.ValidateURL` calls (`strings.HasPrefix`, `url.Parse`,
  `(*url.URL).String`), transcribed from Go's `strings` and `net/url` packages;
* `models`          : `internal/models/url.go`;
* `gorm`            : the `urls` table and the four ORM calls the service makes
  (`Create`, `Where(..).First`, `Save`, `Delete`);
* `services`        : `internal/services/url_service.go`;
* `path`, `http`    : what `c.Redirect` runs to set the `Location` header
  (`http.Redirect`, `hexEscapeNonASCII`, `path.Split`, `path.Clean`),
  transcribed from Go's `net/http` and `path` packages;
* `handlers`        : `internal/handlers/url_handler.go`.

A Go string is a sequence of bytes.  It is represented by the list of its
bytes, each byte carried by the `Char` with the same code (so a well-formed
input is a list of characters with codes below 256, `IsBytes`).
-/

namespace UrlShortener

/-- A Go string: the list of its bytes. -/
abbrev Str := List Char

/-- Every element is a byte. -/
def IsBytes (s : Str) : Prop := ∀ c ∈ s, c.toNat < 256

instance (s : Str) : Decidable (IsBytes s) := by
  unfold IsBytes; infer_instance

/-! ## Package `strings` -/

namespace strings

/-- Go `strings.HasPrefix(s, p)`. -/
def HasPrefix (s p : Str) : Bool := p.isPrefixOf s

/-- Go `strings.HasSuffix(s, p)`. -/
def HasSuffix (s p : Str) : Bool := p.isSuffixOf s

/-- Go `strings.Contains(s, string(c))` for a one-byte substring. -/
def ContainsByte (s : Str) (c : Char) : Bool := s.contains c

/-- Go `strings.Count(s, string(c))` for a one-byte substring. -/
def Count (s : Str) (c : Char) : Nat := s.count c

/-- Go `strings.Cut(s, string(sep))` for a one-byte separator:
`(before, after, found)`; when `sep` does not occur the result is `(s, "", false)`. -/
def Cut : Str → Char → Str × Str × Bool
  | [], _ => ([], [], false)
  | c :: t, sep =>
    if c = sep then ([], t, true)
    else ((c :: (Cut t sep).1), (Cut t sep).2.1, (Cut t sep).2.2)

/-- With `i := strings.LastIndex(s, string(sep))`: `none` when `i < 0`,
otherwise `some (s[:i], s[i+1:])`. -/
def CutLast : Str → Char → Option (Str × Str)
  | [], _ => none
  | c :: t, sep =>
    match CutLast t sep with
    | some (a, b) => some (c :: a, b)
    | none => if c = sep then some ([], t) else none

/-- With `i := strings.Index(s, pat)`: `none` when `i < 0`,
otherwise `some (s[:i], s[i:])`. -/
def SplitAt : Str → Str → Option (Str × Str)
  | [], pat => if pat.isPrefixOf [] then some ([], []) else none
  | c :: t, pat =>
    if pat.isPrefixOf (c :: t) then some ([], c :: t)
    else match SplitAt t pat with
      | some (a, b) => some (c :: a, b)
      | none => none

/-- Lower-casing of one byte as `strings.ToLower` does on ASCII input. -/
def lowerByte (c : Char) : Char :=
  if 'A' ≤ c ∧ c ≤ 'Z' then Char.ofNat (c.toNat + 32) else c

/-- Go `strings.ToLower(s)` on an ASCII string (the only use is on a URL scheme,
which `getScheme` restricts to ASCII letters, digits, `+`, `-` and `.`). -/
def ToLower (s : Str) : Str := s.map lowerByte

end strings

/-! ## Package `net/url` -/

namespace url

/-- The `encoding` modes of `net/url`. -/
inductive encoding where
  | encodePath
  | encodePathSegment
  | encodeHost
  | encodeZone
  | encodeUserPassword
  | encodeQueryComponent
  | encodeFragment
deriving DecidableEq, Repr

open encoding

/-- Go `ishex`. -/
def ishex (c : Char) : Bool :=
  decide (('0' ≤ c ∧ c ≤ '9') ∨ ('a' ≤ c ∧ c ≤ 'f') ∨ ('A' ≤ c ∧ c ≤ 'F'))

/-- Go `unhex`. -/
def unhex (c : Char) : Nat :=
  if '0' ≤ c ∧ c ≤ '9' then c.toNat - '0'.toNat
  else if 'a' ≤ c ∧ c ≤ 'f' then c.toNat - 'a'.toNat + 10
  else if 'A' ≤ c ∧ c ≤ 'F' then c.toNat - 'A'.toNat + 10
  else 0

/-- Go `upperhex[n]` with `upperhex = "0123456789ABCDEF"`; the index is a nibble
of a byte, so it is always below 16. -/
def upperhex (n : Nat) : Char :=
  ['0', '1', '2', '3', '4', '5', '6', '7', '8', '9', 'A', 'B', 'C', 'D', 'E', 'F'].getD n '0'

/-- The §2.3 unreserved alphanumerics test at the head of `shouldEscape`. -/
def isAlnum (c : Char) : Bool :=
  decide (('a' ≤ c ∧ c ≤ 'z') ∨ ('A' ≤ c ∧ c ≤ 'Z') ∨ ('0' ≤ c ∧ c ≤ '9'))

/-- The bytes the host section leaves unescaped:
`! $ & ' ( ) * + , ; = : [ ] < > "`. -/
def hostSubDelims : List Char :=
  ['!', '$', '&', Char.ofNat 39, '(', ')', '*', '+', ',', ';', '=', ':', '[', ']', '<', '>',
   Char.ofNat 34]

/-- Go `shouldEscape(c, mode)`. -/
def shouldEscape (c : Char) (mode : encoding) : Bool :=
  if isAlnum c then false
  else if (mode = encodeHost ∨ mode = encodeZone) ∧ c ∈ hostSubDelims then false
  else if c ∈ ['-', '_', '.', '~'] then false
  else if c ∈ ['$', '&', '+', ',', '/', ':', ';', '=', '?', '@'] ∧ mode = encodePath then
    decide (c = '?')
  else if c ∈ ['$', '&', '+', ',', '/', ':', ';', '=', '?', '@'] ∧ mode = encodePathSegment then
    decide (c = '/' ∨ c = ';' ∨ c = ',' ∨ c = '?')
  else if c ∈ ['$', '&', '+', ',', '/', ':', ';', '=', '?', '@'] ∧ mode = encodeUserPassword then
    decide (c = '@' ∨ c = '/' ∨ c = '?' ∨ c = ':')
  else if c ∈ ['$', '&', '+', ',', '/', ':', ';', '=', '?', '@'] ∧ mode = encodeQueryComponent then
    true
  else if c ∈ ['$', '&', '+', ',', '/', ':', ';', '=', '?', '@'] ∧ mode = encodeFragment then
    false
  else if mode = encodeFragment ∧ c ∈ ['!', '(', ')', '*'] then false
  else true

/-- The first loop of Go `unescape(s, mode)`: `true` when no `EscapeError` or
`InvalidHostError` is raised. -/
def unescapeValid (mode : encoding) : Str → Bool
  | [] => true
  | c :: t =>
    if c = '%' then
      match t with
      | a :: b :: t2 =>
        if !ishex a || !ishex b then false
        else if mode = encodeHost ∧ unhex a < 8 ∧ [c, a, b] ≠ ['%', '2', '5'] then false
        else if mode = encodeZone ∧ [c, a, b] ≠ ['%', '2', '5']
            ∧ Char.ofNat (unhex a * 16 + unhex b) ≠ ' '
            ∧ shouldEscape (Char.ofNat (unhex a * 16 + unhex b)) encodeHost then false
        else unescapeValid mode t2
      | _ => false
    else if c = '+' then unescapeValid mode t
    else if (mode = encodeHost ∨ mode = encodeZone) ∧ c.toNat < 0x80
        ∧ shouldEscape c encodeHost then false
    else unescapeValid mode t

/-- The second loop of Go `unescape(s, mode)`: the decoded bytes. -/
def unescapeBytes (mode : encoding) : Str → Str
  | [] => []
  | c :: t =>
    if c = '%' then
      match t with
      | a :: b :: t2 => Char.ofNat (unhex a * 16 + unhex b) :: unescapeBytes mode t2
      | _ => []
    else if c = '+' then
      (if mode = encodeQueryComponent then ' ' else '+') :: unescapeBytes mode t
    else c :: unescapeBytes mode t

/-- Go `unescape(s, mode)`; `none` stands for a non-nil error.  (Go returns `s`
itself when it holds no `%` and no decodable `+`; the second loop gives the same
string then.) -/
def unescape (s : Str) (mode : encoding) : Option Str :=
  if unescapeValid mode s then some (unescapeBytes mode s) else none

/-- Go `escape(s, mode)`. -/
def escape : Str → encoding → Str
  | [], _ => []
  | c :: t, mode =>
    if c = ' ' ∧ mode = encodeQueryComponent then '+' :: escape t mode
    else if shouldEscape c mode then
      '%' :: upperhex (c.toNat / 16) :: upperhex (c.toNat % 16) :: escape t mode
    else c :: escape t mode

/-- Go `validEncoded(s, mode)`. -/
def validEncoded (s : Str) (mode : encoding) : Bool :=
  s.all fun c =>
    if c ∈ ['!', '$', '&', Char.ofNat 39, '(', ')', '*', '+', ',', ';', '=', ':', '@'] then true
    else if c ∈ ['[', ']'] then true
    else if c = '%' then true
    else !shouldEscape c mode

/-- Go `stringContainsCTLByte(s)`. -/
def stringContainsCTLByte (s : Str) : Bool :=
  s.any fun b => decide (b < ' ' ∨ b.toNat = 0x7f)

/-- Go `validOptionalPort(port)`. -/
def validOptionalPort (port : Str) : Bool :=
  match port with
  | [] => true
  | c :: t => if c ≠ ':' then false else t.all fun b => decide ('0' ≤ b ∧ b ≤ '9')

/-- Go `validUserinfo(s)`.  The Go loop ranges over runes; every rune it accepts
is ASCII, so a string is accepted exactly when each of its bytes is. -/
def validUserinfo (s : Str) : Bool :=
  s.all fun r =>
    isAlnum r ||
    decide (r ∈ ['-', '.', '_', ':', '~', '!', '$', '&', Char.ofNat 39, '(', ')', '*', '+',
      ',', ';', '=', '%', '@'])

/-- Go `getScheme(rawURL)`: `none` is the error "missing protocol scheme",
otherwise `(scheme, path)`.  `first` says that the byte examined is `rawURL[0]`. -/
def getSchemeFrom (first : Bool) (acc : Str) : Str → Str → Option (Str × Str)
  | [], whole => some ([], whole)
  | c :: t, whole =>
    if ('a' ≤ c ∧ c ≤ 'z') ∨ ('A' ≤ c ∧ c ≤ 'Z') then getSchemeFrom false (acc ++ [c]) t whole
    else if ('0' ≤ c ∧ c ≤ '9') ∨ c = '+' ∨ c = '-' ∨ c = '.' then
      if first then some ([], whole) else getSchemeFrom false (acc ++ [c]) t whole
    else if c = ':' then
      if first then none else some (acc, t)
    else some ([], whole)

/-- Go `getScheme(rawURL)`. -/
def getScheme (rawURL : Str) : Option (Str × Str) :=
  getSchemeFrom true [] rawURL rawURL

/-- Go `url.Userinfo`. -/
structure Userinfo where
  username : Str
  password : Str
  passwordSet : Bool
deriving DecidableEq, Repr

/-- Go `url.URL`. -/
structure URL where
  Scheme : Str := []
  Opaque : Str := []
  User : Option Userinfo := none
  Host : Str := []
  Path : Str := []
  RawPath : Str := []
  OmitHost : Bool := false
  ForceQuery : Bool := false
  RawQuery : Str := []
  Fragment : Str := []
  RawFragment : Str := []
deriving DecidableEq, Repr

/-- Go `parseHost(host)`. -/
def parseHost (host : Str) : Option Str :=
  if strings.HasPrefix host ['['] then
    match strings.CutLast host ']' with
    | none => none
    | some (pre, colonPort) =>
      if !validOptionalPort colonPort then none
      else
        match strings.SplitAt pre ['%', '2', '5'] with
        | some (h1, z) =>
          match unescape h1 encodeHost, unescape z encodeZone,
              unescape (']' :: colonPort) encodeHost with
          | some host1, some host2, some host3 => some (host1 ++ host2 ++ host3)
          | _, _, _ => none
        | none => unescape host encodeHost
  else
    match strings.CutLast host ':' with
    | some (_, port) =>
      if !validOptionalPort (':' :: port) then none else unescape host encodeHost
    | none => unescape host encodeHost

/-- Go `parseAuthority(authority)`. -/
def parseAuthority (authority : Str) : Option (Option Userinfo × Str) :=
  match strings.CutLast authority '@' with
  | none =>
    match parseHost authority with
    | none => none
    | some host => some (none, host)
  | some (userinfo, hostpart) =>
    match parseHost hostpart with
    | none => none
    | some host =>
      if !validUserinfo userinfo then none
      else if !strings.ContainsByte userinfo ':' then
        match unescape userinfo encodeUserPassword with
        | none => none
        | some u => some (some ⟨u, [], false⟩, host)
      else
        match unescape (strings.Cut userinfo ':').1 encodeUserPassword,
            unescape (strings.Cut userinfo ':').2.1 encodeUserPassword with
        | some u, some p => some (some ⟨u, p, true⟩, host)
        | _, _ => none

/-- Go `(*URL).setPath(p)`. -/
def setPath (u : URL) (p : Str) : Option URL :=
  match unescape p encodePath with
  | none => none
  | some path =>
    some { u with Path := path, RawPath := if p = escape path encodePath then [] else p }

/-- Go `(*URL).setFragment(f)`. -/
def setFragment (u : URL) (f : Str) : Option URL :=
  match unescape f encodeFragment with
  | none => none
  | some frag =>
    some { u with Fragment := frag,
                  RawFragment := if f = escape frag encodeFragment then [] else f }

/-- The test `strings.HasSuffix(rest, "?") && strings.Count(rest, "?") == 1` of
`parse`, which sets `ForceQuery`. -/
def forceQuery (rest : Str) : Bool :=
  strings.HasSuffix rest ['?'] && strings.Count rest '?' == 1

/-- The query split of `parse`: `(rest, RawQuery)`, either `rest[:len(rest)-1]`
with no query, or the two sides of `strings.Cut(rest, "?")`. -/
def splitQuery (rest : Str) : Str × Str :=
  if forceQuery rest then (rest.dropLast, [])
  else ((strings.Cut rest '?').1, (strings.Cut rest '?').2.1)

/-- Go `parse(rawURL, viaRequest)` at `viaRequest = false`, which is how
`url.Parse` calls it. -/
def parse (rawURL : Str) : Option URL :=
  if stringContainsCTLByte rawURL then none
  else if rawURL = ['*'] then some { Path := ['*'] }
  else
    match getScheme rawURL with
    | none => none
    | some (scheme0, rest0) =>
      let scheme := strings.ToLower scheme0
      let rest := (splitQuery rest0).1
      let rawQuery := (splitQuery rest0).2
      if !strings.HasPrefix rest ['/'] ∧ scheme ≠ [] then
        some { Scheme := scheme, Opaque := rest, ForceQuery := forceQuery rest0,
               RawQuery := rawQuery }
      else if !strings.HasPrefix rest ['/']
          ∧ strings.ContainsByte (strings.Cut rest '/').1 ':' then none
      else if (scheme ≠ [] ∨ !strings.HasPrefix rest ['/', '/', '/'])
          ∧ strings.HasPrefix rest ['/', '/'] then
        match parseAuthority ((rest.drop 2).takeWhile (· ≠ '/')) with
        | none => none
        | some (user, host) =>
          setPath { Scheme := scheme, User := user, Host := host,
                    ForceQuery := forceQuery rest0, RawQuery := rawQuery }
            ((rest.drop 2).dropWhile (· ≠ '/'))
      else
        setPath { Scheme := scheme,
                  OmitHost := decide (scheme ≠ [] ∧ strings.HasPrefix rest ['/']),
                  ForceQuery := forceQuery rest0, RawQuery := rawQuery } rest

/-- Go `url.Parse(rawURL)`; `none` stands for a non-nil error. -/
def Parse (rawURL : Str) : Option URL :=
  match parse (strings.Cut rawURL '#').1 with
  | none => none
  | some u =>
    if (strings.Cut rawURL '#').2.1 = [] then some u
    else setFragment u (strings.Cut rawURL '#').2.1

/-- Go `(*Userinfo).String()` for a non-nil receiver. -/
def Userinfo.String (ui : Userinfo) : Str :=
  escape ui.username encodeUserPassword ++
    (if ui.passwordSet then ':' :: escape ui.password encodeUserPassword else [])

/-- Go `(*URL).EscapedPath()`. -/
def URL.EscapedPath (u : URL) : Str :=
  if u.RawPath ≠ [] ∧ validEncoded u.RawPath encodePath
      ∧ unescape u.RawPath encodePath = some u.Path then u.RawPath
  else if u.Path = ['*'] then ['*']
  else escape u.Path encodePath

/-- Go `(*URL).EscapedFragment()`. -/
def URL.EscapedFragment (u : URL) : Str :=
  if u.RawFragment ≠ [] ∧ validEncoded u.RawFragment encodeFragment
      ∧ unescape u.RawFragment encodeFragment = some u.Fragment then u.RawFragment
  else escape u.Fragment encodeFragment

/-- The user information that `(*URL).String()` writes: `ui.String()` and `@`
when `u.User` is not nil. -/
def userString (user : Option Userinfo) : Str :=
  match user with
  | some ui => ui.String ++ ['@']
  | none => []

/-- The authority that `(*URL).String()` writes: `//`, the user information and
the escaped host. -/
def URL.authorityString (u : URL) : Str :=
  if u.Scheme ≠ [] ∨ u.Host ≠ [] ∨ u.User ≠ none then
    if u.OmitHost ∧ u.Host = [] ∧ u.User = none then []
    else
      (if u.Host ≠ [] ∨ u.Path ≠ [] ∨ u.User ≠ none then ['/', '/'] else []) ++
      userString u.User ++
      (if u.Host ≠ [] then escape u.Host encodeHost else [])
  else []

/-- The path that `(*URL).String()` writes after `buf`, the text written so far. -/
def URL.pathString (u : URL) (buf : Str) : Str :=
  (if u.EscapedPath ≠ [] ∧ u.EscapedPath.head? ≠ some '/' ∧ u.Host ≠ [] then ['/'] else []) ++
  (if buf = [] ∧ ¬ (u.EscapedPath ≠ [] ∧ u.EscapedPath.head? ≠ some '/' ∧ u.Host ≠ [])
      ∧ strings.ContainsByte (strings.Cut u.EscapedPath '/').1 ':' then ['.', '/'] else []) ++
  u.EscapedPath

/-- Go `(*URL).String()`. -/
def URL.String (u : URL) : Str :=
  (if u.Scheme ≠ [] then u.Scheme ++ [':'] else []) ++
  (if u.Opaque ≠ [] then u.Opaque
   else
    u.authorityString ++
      u.pathString ((if u.Scheme ≠ [] then u.Scheme ++ [':'] else []) ++ u.authorityString)) ++
  (if u.ForceQuery ∨ u.RawQuery ≠ [] then '?' :: u.RawQuery else []) ++
  (if u.Fragment ≠ [] then '#' :: u.EscapedFragment else [])

end url

/-! ## Package `services`: URL validation -/

namespace services

/-- The text `https://`. -/
def httpsPrefix : Str := ['h', 't', 't', 'p', 's', ':', '/', '/']

/-- The text `http://`. -/
def httpPrefix : Str := ['h', 't', 't', 'p', ':', '/', '/']

/-- The first statement of `ValidateURL`: "Add https:// if no protocol is specified". -/
def addScheme (rawURL : Str) : Str :=
  if !strings.HasPrefix rawURL httpPrefix && !strings.HasPrefix rawURL httpsPrefix then
    httpsPrefix ++ rawURL
  else rawURL

/-- Go `(*URLService).ValidateURL(rawURL)`: the validated URL, or the message of
the error returned. -/
def ValidateURL (rawURL : Str) : Except String Str :=
  match url.Parse (addScheme rawURL) with
  | none => .error "invalid URL provided"
  | some parsedURL =>
    if parsedURL.Host = [] then .error "invalid URL: missing host"
    else
      .ok (if parsedURL.Scheme = [] then { parsedURL with Scheme := ['h', 't', 't', 'p', 's'] }
           else parsedURL).String

end services

/-! ## Package `models` -/

namespace models

/-- Go `models.URL`.  `Clicks` is a Go `int` (64 bits), kept as an integer in
`[-2^63, 2^63)`; a `time.Time` is an instant, `0` being the zero time. -/
structure URL where
  ID : Nat := 0
  OriginalURL : Str := []
  ShortCode : Str := []
  Clicks : Int := 0
  CreatedAt : Nat := 0
  UpdatedAt : Nat := 0
deriving DecidableEq, Repr

/-- Go `(*URL).GenerateShortCode()`: `u.ShortCode[:8]`.  `none` is the run-time
panic "slice bounds out of range" of a slice expression past the string's end. -/
def URL.GenerateShortCode (u : URL) : Option Str :=
  if u.ShortCode.length < 8 then none else some (u.ShortCode.take 8)

/-- Go `(*URL).BeforeCreate(tx)`: the record after the hook (the error returned
is always nil); `none` when `GenerateShortCode` panics. -/
def URL.BeforeCreate (u : URL) : Option URL :=
  match u.GenerateShortCode with
  | none => none
  | some code => some { u with ShortCode := code }

end models

/-- Go `int` arithmetic on a 64-bit platform: the value of `n` wrapped into
`[-2^63, 2^63)`. -/
def wrapInt (n : Int) : Int := (n + 2 ^ 63) % 2 ^ 64 - 2 ^ 63

/-- The largest Go `int`, `math.MaxInt`. -/
def maxInt : Int := 2 ^ 63 - 1

/-- The smallest Go `int`, `math.MinInt`. -/
def minInt : Int := -(2 ^ 63)

/-! ## The store: the `urls` table behind `*gorm.DB` -/

namespace gorm

/-- The errors a store call can leave in `tx.Error`. -/
inductive Err where
  | ErrRecordNotFound
  | ErrMissingWhereClause
  | uniqueConstraint (column : String)
  | driver (msg : String)
deriving DecidableEq, Repr

/-- The message of a store error, `err.Error()`. -/
def Err.Error : Err → String
  | ErrRecordNotFound => "record not found"
  | ErrMissingWhereClause => "WHERE conditions required"
  | uniqueConstraint column => "UNIQUE constraint failed: " ++ column
  | driver msg => msg

/-- The table `urls` (primary key `id`, unique index on `short_code`) and the
largest row id handed out so far (`AUTOINCREMENT`). -/
structure DB where
  rows : List models.URL := []
  seq : Nat := 0
deriving DecidableEq, Repr

/-- What a store call leaves behind: the table, the struct behind the pointer
that was passed, and `tx.Error`. -/
structure Result where
  db : DB
  value : models.URL
  Error : Option Err
deriving DecidableEq, Repr

/-- The timestamps gorm fills in on an insert: a zero `CreatedAt` or `UpdatedAt`
becomes `now`. -/
def stamp (now : Nat) (v : models.URL) : models.URL :=
  { v with CreatedAt := if v.CreatedAt = 0 then now else v.CreatedAt,
           UpdatedAt := if v.UpdatedAt = 0 then now else v.UpdatedAt }

/-- The row id of an inserted record: the next `AUTOINCREMENT` value when the
primary key is zero, the given key otherwise. -/
def rowID (db : DB) (v : models.URL) : Nat :=
  if v.ID = 0 then db.seq + 1 else v.ID

/-- The `INSERT` that `Create` issues once the hooks have run.  `fault` is an
error the driver reports for the statement (I/O failure, locked database), if
any; `now` is the clock gorm reads for zero timestamps. -/
def insert (db : DB) (fault : Option String) (now : Nat) (v : models.URL) : Result :=
  match fault with
  | some msg => ⟨db, stamp now v, some (.driver msg)⟩
  | none =>
    if v.ID ≠ 0 ∧ db.rows.any (fun r => decide (r.ID = v.ID)) then
      ⟨db, stamp now v, some (.uniqueConstraint "urls.id")⟩
    else if db.rows.any (fun r => decide (r.ShortCode = v.ShortCode)) then
      ⟨db, stamp now v, some (.uniqueConstraint "urls.short_code")⟩
    else
      ⟨{ rows := db.rows ++ [{ stamp now v with ID := rowID db v }],
         seq := max db.seq (rowID db v) },
       { stamp now v with ID := rowID db v }, none⟩

/-- Go `db.Create(value)`: the `BeforeCreate` hook, then the insert.  `none` when
the hook panics. -/
def Create (db : DB) (fault : Option String) (now : Nat) (v : models.URL) : Option Result :=
  match v.BeforeCreate with
  | none => none
  | some v1 => some (insert db fault now v1)

/-- The row with the least `id` among `rs` (`ORDER BY id LIMIT 1`). -/
def firstByID : List models.URL → Option models.URL
  | [] => none
  | r :: rs =>
    match firstByID rs with
    | none => some r
    | some m => if r.ID ≤ m.ID then some r else some m

/-- Go `db.Where("short_code = ?", shortCode).First(&url)`: the row found, or
`tx.Error`. -/
def FirstByShortCode (db : DB) (fault : Option String) (shortCode : Str) :
    Except Err models.URL :=
  match fault with
  | some msg => .error (.driver msg)
  | none =>
    match firstByID (db.rows.filter (fun r => decide (r.ShortCode = shortCode))) with
    | none => .error .ErrRecordNotFound
    | some r => .ok r

/-- Go `db.Save(value)`: `Create` when the primary key is zero, otherwise an
`UPDATE` of every column of the row with that `id` (`UpdatedAt` set to `now`),
and an insert of the record under its `id` when no row was affected. -/
def Save (db : DB) (fault : Option String) (now : Nat) (v : models.URL) : Option Result :=
  if v.ID = 0 then Create db fault now v
  else
    match fault with
    | some msg => some ⟨db, { v with UpdatedAt := now }, some (.driver msg)⟩
    | none =>
      if db.rows.any (fun r => decide (r.ID ≠ v.ID ∧ r.ShortCode = v.ShortCode)) then
        some ⟨db, { v with UpdatedAt := now }, some (.uniqueConstraint "urls.short_code")⟩
      else if db.rows.any (fun r => decide (r.ID = v.ID)) then
        some ⟨{ db with rows := db.rows.map fun r =>
                  if r.ID = v.ID then { v with UpdatedAt := now } else r },
              { v with UpdatedAt := now }, none⟩
      else
        some ⟨{ rows := db.rows ++ [stamp now { v with UpdatedAt := now }],
                seq := max db.seq v.ID },
              stamp now { v with UpdatedAt := now }, none⟩

/-- Go `db.Delete(value)`: `DELETE FROM urls WHERE id = value.ID`; a zero
primary key leaves the statement without conditions, which gorm refuses. -/
def Delete (db : DB) (fault : Option String) (v : models.URL) : Result :=
  if v.ID = 0 then ⟨db, v, some .ErrMissingWhereClause⟩
  else
    match fault with
    | some msg => ⟨db, v, some (.driver msg)⟩
    | none => ⟨{ db with rows := db.rows.filter fun r => decide (r.ID ≠ v.ID) }, v, none⟩

end gorm

/-! ## Package `services`: the operations on the store -/

namespace services

/-- A Go `error` value returned by the service: one made by `errors.New`, or a
store error passed on. -/
inductive Error where
  | New (msg : String)
  | store (e : gorm.Err)
deriving DecidableEq, Repr

/-- The message of the error, Go `err.Error()`. -/
def Error.message : Error → String
  | New msg => msg
  | store e => e.Error

/-- What one service call reads from outside: the text of `uuid.New().String()`,
the clock of `time.Now()`, the clock gorm reads, and the error the driver
reports for the call's store statement, if any. -/
structure Env where
  uuid : Str
  now : Nat
  dbNow : Nat
  fault : Option String
deriving DecidableEq, Repr

/-- What a service call on a `*models.URL` leaves behind: the table, the struct
behind the pointer, and the error returned. -/
structure Result where
  db : gorm.DB
  value : models.URL
  err : Option Error
deriving DecidableEq, Repr

/-- Go `(*URLService).CreateShortURL(originalURL)`: the table afterwards and the
returned `(*models.URL, error)`.  `none` is a run-time panic (the slice
`uuid.New().String()[:8]` out of range, or the hook's). -/
def CreateShortURL (db : gorm.DB) (env : Env) (originalURL : Str) :
    Option (gorm.DB × Except Error models.URL) :=
  match ValidateURL originalURL with
  | .error e => some (db, .error (.New e))
  | .ok validatedURL =>
    if env.uuid.length < 8 then none
    else
      match gorm.Create db env.fault env.dbNow
          { OriginalURL := validatedURL, ShortCode := env.uuid.take 8, CreatedAt := env.now } with
      | none => none
      | some r =>
        match r.Error with
        | some e => some (r.db, .error (.store e))
        | none => some (r.db, .ok r.value)

/-- Go `(*URLService).GetURLByShortCode(shortCode)`. -/
def GetURLByShortCode (db : gorm.DB) (fault : Option String) (shortCode : Str) :
    Except Error models.URL :=
  match gorm.FirstByShortCode db fault shortCode with
  | .error e =>
    if e = gorm.Err.ErrRecordNotFound then .error (.New "URL not found") else .error (.store e)
  | .ok u => .ok u

/-- Go `(*URLService).IncrementClicks(url)`: `url.Clicks++`, then `Save`. -/
def IncrementClicks (db : gorm.DB) (env : Env) (u : models.URL) : Option Result :=
  match gorm.Save db env.fault env.dbNow { u with Clicks := wrapInt (u.Clicks + 1) } with
  | none => none
  | some r => some ⟨r.db, r.value, r.Error.map .store⟩

/-- Go `(*URLService).UpdateURL(url, newURL)`. -/
def UpdateURL (db : gorm.DB) (env : Env) (u : models.URL) (newURL : Str) : Option Result :=
  match ValidateURL newURL with
  | .error e => some ⟨db, u, some (.New e)⟩
  | .ok validatedURL =>
    match gorm.Save db env.fault env.dbNow { u with OriginalURL := validatedURL } with
    | none => none
    | some r => some ⟨r.db, r.value, r.Error.map .store⟩

/-- Go `(*URLService).DeleteURL(url)`. -/
def DeleteURL (db : gorm.DB) (env : Env) (u : models.URL) : Result :=
  ⟨(gorm.Delete db env.fault u).db, (gorm.Delete db env.fault u).value,
   (gorm.Delete db env.fault u).Error.map .store⟩

/-- One call of a mutating service operation, with its arguments and what it
reads from outside. -/
inductive Op where
  | create (env : Env) (originalURL : Str)
  | update (env : Env) (u : models.URL) (newURL : Str)
  | increment (env : Env) (u : models.URL)
  | delete (env : Env) (u : models.URL)
deriving DecidableEq, Repr

/-- The table after one operation; `none` when the call panics. -/
def Op.run (db : gorm.DB) : Op → Option gorm.DB
  | .create env originalURL => (CreateShortURL db env originalURL).map (·.1)
  | .update env u newURL => (UpdateURL db env u newURL).map (·.db)
  | .increment env u => (IncrementClicks db env u).map (·.db)
  | .delete env u => some (DeleteURL db env u).db

/-- The `*models.URL` argument of an operation, if it takes one. -/
def Op.link : Op → Option models.URL
  | .create _ _ => none
  | .update _ u _ => some u
  | .increment _ u => some u
  | .delete _ u => some u

/-- The tables the service can produce from the empty one (the state after
`AutoMigrate` on a new database) by calls in sequence. -/
inductive Reachable : gorm.DB → Prop where
  | empty : Reachable {}
  | step (db db1 : gorm.DB) (op : Op) : Reachable db → op.run db = some db1 → Reachable db1

end services

/-! ## Package `path` -/

namespace path

/-- Go `path.Split(path)`: the text up to and including the last slash, and the
rest. -/
def Split (path : Str) : Str × Str :=
  match strings.CutLast path '/' with
  | none => ([], path)
  | some (dir, file) => (dir ++ ['/'], file)

/-- The backtracking loop of `Clean` at a `..` element, started at `w`: `out.w`
goes down while it is above `dotdot` and the byte at `out.w` is not a slash;
the value of `out.w` when the loop ends. -/
def backtrack (out : Str) (dotdot : Nat) : Nat → Nat
  | 0 => 0
  | w + 1 => if w + 1 > dotdot ∧ out[w + 1]? ≠ some '/' then backtrack out dotdot w else w + 1

/-- The loop `for r < n` of `Clean`: `rest` is `path[r:]`, `out` the bytes
written so far, `dotdot` the index where `..` must stop.  Each round consumes at
least one byte of `rest`, so `fuel` at least the length of `rest` is enough. -/
def cleanLoop (rooted : Bool) : Nat → Str → Str → Nat → Str
  | 0, _, out, _ => out
  | fuel + 1, rest, out, dotdot =>
    match rest with
    | [] => out
    | c :: t =>
      if c = '/' then cleanLoop rooted fuel t out dotdot
      else if c = '.' ∧ (t = [] ∨ t.head? = some '/') then cleanLoop rooted fuel t out dotdot
      else if c = '.' ∧ t.head? = some '.' ∧ (t.tail = [] ∨ t.tail.head? = some '/') then
        if out.length > dotdot then
          cleanLoop rooted fuel t.tail (out.take (backtrack out dotdot (out.length - 1))) dotdot
        else if rooted = false then
          cleanLoop rooted fuel t.tail
            ((if out.length > 0 then out ++ ['/'] else out) ++ ['.', '.'])
            ((if out.length > 0 then out ++ ['/'] else out) ++ ['.', '.']).length
        else cleanLoop rooted fuel t.tail out dotdot
      else
        cleanLoop rooted fuel (t.dropWhile (· ≠ '/'))
          ((if (rooted = true ∧ out.length ≠ 1) ∨ (rooted = false ∧ out.length ≠ 0)
              then out ++ ['/'] else out) ++ c :: t.takeWhile (· ≠ '/'))
          dotdot

/-- Go `path.Clean(path)`. -/
def Clean (path : Str) : Str :=
  if path = [] then ['.']
  else if path.head? = some '/' then
    (if cleanLoop true path.length path.tail ['/'] 1 = [] then ['.']
     else cleanLoop true path.length path.tail ['/'] 1)
  else
    (if cleanLoop false path.length path [] 0 = [] then ['.']
     else cleanLoop false path.length path [] 0)

end path

/-! ## Package `net/http`: the redirect -/

namespace http

/-- Go `hexEscapeNonASCII(s)`: every byte from `utf8.RuneSelf` (0x80) up is
written as `%` and its value in base 16 (`strconv.AppendInt(b, int64(s[i]), 16)`,
lower-case digits); the other bytes are copied. -/
def hexEscapeNonASCII : Str → Str
  | [] => []
  | c :: t =>
    if c.toNat ≥ 0x80 then '%' :: (Nat.toDigits 16 c.toNat ++ hexEscapeNonASCII t)
    else c :: hexEscapeNonASCII t

/-- The body of `if u.Scheme == "" && u.Host == ""` in `Redirect`: a target
that does not start with a slash is put under the directory of the request path
`oldpath`; the part up to the first `?` is cleaned, a trailing slash preserved;
the query is put back. -/
def rootedTarget (oldpath target : Str) : Str :=
  let olddir := (path.Split (if oldpath = [] then ['/'] else oldpath)).1
  let joined := if target = [] ∨ target.head? ≠ some '/' then olddir ++ target else target
  let file := match strings.SplitAt joined ['?'] with
    | some (a, _) => a
    | none => joined
  let query := match strings.SplitAt joined ['?'] with
    | some (_, q) => q
    | none => []
  let cleaned := path.Clean file
  (if strings.HasSuffix file ['/'] = true ∧ strings.HasSuffix cleaned ['/'] = false
    then cleaned ++ ['/'] else cleaned) ++ query

/-- The `Location` header Go `http.Redirect(w, r, url, code)` sets, `oldpath`
being `r.URL.Path` and `target` the argument `url`: a target that parses with
neither scheme nor host is rooted at the request path, and the non-ASCII bytes
of the result are hex-escaped. -/
def Redirect (oldpath target : Str) : Str :=
  hexEscapeNonASCII
    (match url.Parse target with
     | none => target
     | some u => if u.Scheme = [] ∧ u.Host = [] then rootedTarget oldpath target else target)

end http

/-! ## Package `handlers` -/

namespace handlers

/-- The JSON objects the handlers write. -/
inductive Body where
  | error (msg : String)
  | created (short_url original_url short_code : Str)
  | link (u : models.URL)
  | stats (short_code original_url : Str) (clicks : Int) (created_at : Nat)
deriving DecidableEq, Repr

/-- The response a handler writes through `*gin.Context`: `c.JSON(code, obj)`,
or a redirect with status `code` and the `Location` header `location`. -/
inductive Response where
  | JSON (code : Nat) (obj : Body)
  | Redirect (code : Nat) (location : Str)
deriving DecidableEq, Repr

/-- The status code of a response. -/
def Response.code : Response → Nat
  | JSON code _ => code
  | Redirect code _ => code

/-- HTTP status codes of `net/http`. -/
def StatusOK : Nat := 200
/-- Go `http.StatusCreated`. -/
def StatusCreated : Nat := 201
/-- Go `http.StatusFound`. -/
def StatusFound : Nat := 302
/-- Go `http.StatusBadRequest`. -/
def StatusBadRequest : Nat := 400
/-- Go `http.StatusNotFound`. -/
def StatusNotFound : Nat := 404
/-- Go `http.StatusInternalServerError`. -/
def StatusInternalServerError : Nat := 500

/-- Go `(*URLHandler).createShortURL(c)`.  `input` is what `c.ShouldBindJSON`
binds: `none` when it returns an error (no body, malformed JSON, or the
required `url` field missing or empty), otherwise the `url` field.  `host` is
`c.Request.Host`. -/
def createShortURL (db : gorm.DB) (env : services.Env) (host : Str) (input : Option Str) :
    Option (gorm.DB × Response) :=
  match input with
  | none => some (db, .JSON StatusBadRequest (.error "URL is required"))
  | some rawURL =>
    match services.CreateShortURL db env rawURL with
    | none => none
    | some (db1, .error err) => some (db1, .JSON StatusBadRequest (.error err.message))
    | some (db1, .ok u) =>
      some (db1, .JSON StatusCreated
        (.created (host ++ ['/'] ++ u.ShortCode) u.OriginalURL u.ShortCode))

/-- Go `(*URLHandler).updateURL(c)`; `lookupFault` is the driver error of the
lookup's statement, `env.fault` that of the save's. -/
def updateURL (db : gorm.DB) (lookupFault : Option String) (env : services.Env)
    (shortCode : Str) (input : Option Str) : Option (gorm.DB × Response) :=
  match services.GetURLByShortCode db lookupFault shortCode with
  | .error _ => some (db, .JSON StatusNotFound (.error "URL not found"))
  | .ok u =>
    match input with
    | none => some (db, .JSON StatusBadRequest (.error "URL is required"))
    | some rawURL =>
      match services.UpdateURL db env u rawURL with
      | none => none
      | some r =>
        match r.err with
        | some err => some (r.db, .JSON StatusBadRequest (.error err.message))
        | none => some (r.db, .JSON StatusOK (.link r.value))

/-- Go `(*URLHandler).getURL(c)`. -/
def getURL (db : gorm.DB) (lookupFault : Option String) (shortCode : Str) : Response :=
  match services.GetURLByShortCode db lookupFault shortCode with
  | .error _ => .JSON StatusNotFound (.error "URL not found")
  | .ok u => .JSON StatusOK (.link u)

/-- Go `(*URLHandler).getURLStats(c)`. -/
def getURLStats (db : gorm.DB) (lookupFault : Option String) (shortCode : Str) : Response :=
  match services.GetURLByShortCode db lookupFault shortCode with
  | .error _ => .JSON StatusNotFound (.error "URL not found")
  | .ok u => .JSON StatusOK (.stats u.ShortCode u.OriginalURL u.Clicks u.CreatedAt)

/-- Go `(*URLHandler).deleteURL(c)`; `none` as the response is `c.Status(204)`
with no body. -/
def deleteURL (db : gorm.DB) (lookupFault : Option String) (env : services.Env)
    (shortCode : Str) : gorm.DB × Option Response :=
  match services.GetURLByShortCode db lookupFault shortCode with
  | .error _ => (db, some (.JSON StatusNotFound (.error "URL not found")))
  | .ok u =>
    match (services.DeleteURL db env u).err with
    | some _ =>
      ((services.DeleteURL db env u).db,
        some (.JSON StatusInternalServerError (.error "Failed to delete URL")))
    | none => ((services.DeleteURL db env u).db, none)

/-- Go `(*URLHandler).redirectToURL(c)`; `lookupFault` is the driver error of
the lookup's statement, `env.fault` that of the save's.  `c.Redirect` renders
through `http.Redirect` with the request of the route `/:shortCode`, whose path
is `/` followed by the parameter; the `Location` header it sets is the
response's location. -/
def redirectToURL (db : gorm.DB) (lookupFault : Option String) (env : services.Env)
    (shortCode : Str) : Option (gorm.DB × Response) :=
  match services.GetURLByShortCode db lookupFault shortCode with
  | .error _ => some (db, .JSON StatusNotFound (.error "URL not found"))
  | .ok u =>
    match services.IncrementClicks db env u with
    | none => none
    | some r =>
      match r.err with
      | some _ =>
        some (r.db, .JSON StatusInternalServerError (.error "Failed to update click count"))
      | none =>
        some (r.db, .Redirect StatusFound (http.Redirect ('/' :: shortCode) r.value.OriginalURL))

/-- The table after `n` requests `GET /:shortCode` in sequence, none of them
failed by the driver; `none` when one panics. -/
def redirects (env : services.Env) (shortCode : Str) : Nat → gorm.DB → Option gorm.DB
  | 0, db => some db
  | n + 1, db =>
    match redirectToURL db none env shortCode with
    | none => none
    | some (db1, _) => redirects env shortCode n db1

end handlers


/-! ## Schema constraints and sample data -/

/-- The constraints the schema of `urls` enforces on the table: primary keys are
non-zero, not above the `AUTOINCREMENT` counter and pairwise distinct, and short
codes are pairwise distinct. -/
def gorm.DB.Valid (db : gorm.DB) : Prop :=
  (∀ r ∈ db.rows, r.ID ≠ 0 ∧ r.ID ≤ db.seq) ∧
    db.rows.Pairwise fun a b => a.ID ≠ b.ID ∧ a.ShortCode ≠ b.ShortCode

namespace sample

/-- A version-4 UUID in its 36-byte text form. -/
def uuid : Str := "123e4567-e89b-42d3-a456-426614174000".toList

/-- The surroundings of a call whose store statement succeeds. -/
def env : services.Env := { uuid := uuid, now := 1700000000, dbNow := 1700000001, fault := none }

/-- The surroundings of a call whose store statement the driver fails. -/
def envFault : services.Env :=
  { uuid := uuid, now := 1700000000, dbNow := 1700000001, fault := some "database is locked" }

/-- The record `CreateShortURL` stores for `openai.com` in an empty table. -/
def link : models.URL :=
  { ID := 1, OriginalURL := "https://openai.com".toList, ShortCode := "123e4567".toList,
    Clicks := 0, CreatedAt := 1700000000, UpdatedAt := 1700000001 }

/-- The table holding `link` alone. -/
def db : gorm.DB := { rows := [link], seq := 1 }

/-- The table after one redirect through `link`. -/
def dbClicked : gorm.DB := { rows := [{ link with Clicks := 1 }], seq := 1 }

/-- A table whose record has reached the largest click count a Go `int` holds. -/
def dbFull : gorm.DB := { rows := [{ link with Clicks := maxInt }], seq := 1 }

end sample

/-- No occurrence of `pat` starts inside `a` when `a` is followed by `z`: what
`strings.Index(a + z, pat) >= len(a)` says. -/
def noPatBefore (pat : Str) : Str → Str → Bool
  | [], _ => true
  | c :: t, z => !pat.isPrefixOf (c :: (t ++ z)) && noPatBefore pat t z

/-- The text `%25`, which opens the zone of an IPv6 literal. -/
def zoneMark : Str := ['%', '2', '5']

namespace sample

/-- The URL `http://[fe80::1%25é]/x`, whose IPv6 zone holds the two bytes of
`é` in UTF-8 (0xC3 0xA9) unescaped. -/
def zoneURL : Str :=
  "http://[fe80::1%25".toList ++ [Char.ofNat 0xC3, Char.ofNat 0xA9] ++ "]/x".toList

end sample

/-! ## Lemmas on the `strings` functions -/

section StringsLemmas

open strings

theorem cut_of_not_mem (s : Str) (sep : Char) (h : sep ∉ s) : Cut s sep = (s, [], false) := by
  induction s with
  | nil => rfl
  | cons c t ih =>
    have hc : c ≠ sep := fun e => h (by simp [e])
    have ht : sep ∉ t := fun e => h (List.mem_cons_of_mem _ e)
    simp [Cut, hc, ih ht]

theorem cut_append (a b : Str) (sep : Char) (h : sep ∉ a) :
    Cut (a ++ sep :: b) sep = (a, b, true) := by
  induction a with
  | nil => simp [Cut]
  | cons c t ih =>
    have hc : c ≠ sep := fun e => h (by simp [e])
    have ht : sep ∉ t := fun e => h (List.mem_cons_of_mem _ e)
    simp [Cut, hc, ih ht]

theorem cut_fst_not_mem (s : Str) (sep : Char) : sep ∉ (Cut s sep).1 := by
  induction s with
  | nil => simp [Cut]
  | cons c t ih =>
    by_cases hc : c = sep
    · simp [Cut, hc]
    · simp only [Cut, hc, if_false, List.mem_cons, not_or]
      exact ⟨fun e => hc e.symm, ih⟩

theorem cut_fst_mem (s : Str) (sep x : Char) (h : x ∈ (Cut s sep).1) : x ∈ s := by
  induction s with
  | nil => simp [Cut] at h
  | cons c t ih =>
    by_cases hc : c = sep
    · simp [Cut, hc] at h
    · simp only [Cut, hc, if_false, List.mem_cons] at h
      rcases h with h | h
      · simp [h]
      · exact List.mem_cons_of_mem _ (ih h)

theorem cut_snd_mem (s : Str) (sep x : Char) (h : x ∈ (Cut s sep).2.1) : x ∈ s := by
  induction s with
  | nil => simp [Cut] at h
  | cons c t ih =>
    by_cases hc : c = sep
    · simp only [Cut, hc, if_true] at h
      exact List.mem_cons_of_mem _ h
    · simp only [Cut, hc, if_false] at h
      exact List.mem_cons_of_mem _ (ih h)

theorem cutLast_of_not_mem (s : Str) (sep : Char) (h : sep ∉ s) : CutLast s sep = none := by
  induction s with
  | nil => rfl
  | cons c t ih =>
    have hc : c ≠ sep := fun e => h (by simp [e])
    have ht : sep ∉ t := fun e => h (List.mem_cons_of_mem _ e)
    simp [CutLast, hc, ih ht]

theorem cutLast_append (a b : Str) (sep : Char) (h : sep ∉ b) :
    CutLast (a ++ sep :: b) sep = some (a, b) := by
  induction a with
  | nil => simp [CutLast, cutLast_of_not_mem b sep h]
  | cons c t ih => simp [CutLast, ih]

theorem cutLast_none (s : Str) (sep : Char) (h : CutLast s sep = none) : sep ∉ s := by
  induction s with
  | nil => simp
  | cons c t ih =>
    unfold CutLast at h
    cases ht : CutLast t sep with
    | some p => simp [ht] at h
    | none =>
      simp only [ht] at h
      by_cases hc : c = sep
      · simp [hc] at h
      · simp only [List.mem_cons, not_or]
        exact ⟨fun e => hc e.symm, ih ht⟩

theorem cutLast_some (s a b : Str) (sep : Char) (h : CutLast s sep = some (a, b)) :
    s = a ++ sep :: b ∧ sep ∉ b := by
  induction s generalizing a with
  | nil => simp [CutLast] at h
  | cons c t ih =>
    unfold CutLast at h
    cases ht : CutLast t sep with
    | some p =>
      obtain ⟨a1, b1⟩ := p
      simp only [ht, Option.some.injEq, Prod.mk.injEq] at h
      obtain ⟨h1, h2⟩ := ih a1 (by rw [ht, h.2])
      rw [← h.1]
      exact ⟨by rw [h1]; rfl, h2⟩
    | none =>
      simp only [ht] at h
      by_cases hc : c = sep
      · simp only [hc, if_true, Option.some.injEq, Prod.mk.injEq] at h
        rw [← h.1, ← h.2, hc]
        exact ⟨rfl, cutLast_none t sep ht⟩
      · simp [hc] at h

theorem hasPrefix_append (p s : Str) : HasPrefix (p ++ s) p = true := by
  unfold HasPrefix
  rw [List.isPrefixOf_iff_prefix]
  exact List.prefix_append p s

end StringsLemmas

/-! ## Lemmas on escaping and unescaping -/

section EscapeLemmas

open url url.encoding

set_option maxRecDepth 100000 in
theorem hex_roundtrip_nat : ∀ n < 256,
    unhex (upperhex (n / 16)) * 16 + unhex (upperhex (n % 16)) = n := by
  decide

set_option maxRecDepth 100000 in
theorem high_nibble_nat : ∀ n < 256, 128 ≤ n →
    8 ≤ unhex (upperhex (n / 16)) ∧ upperhex (n / 16) ≠ '2' := by
  decide

theorem upperhex_ishex (n : Nat) : ishex (upperhex n) = true := by
  by_cases h : n < 16
  · interval_cases n <;> decide
  · have : upperhex n = '0' := by
      unfold upperhex
      exact List.getD_eq_default _ _ (by simp; omega)
    rw [this]; decide

theorem upperhex_ne (n : Nat) (c : Char) (h : ishex c = false) : upperhex n ≠ c := by
  intro e
  rw [← e, upperhex_ishex] at h
  exact Bool.noConfusion h

theorem shouldEscape_percent (m : encoding) : shouldEscape '%' m = true := by
  cases m <;> decide

theorem char_ofNat_toNat_lt (n : Nat) (h : n < 256) : (Char.ofNat n).toNat = n := by
  have hv : n.isValidChar := Or.inl (by omega)
  unfold Char.ofNat
  rw [dif_pos hv]
  simp [Char.ofNatAux, Char.toNat, UInt32.toNat]

theorem unescapeValid_percent (m : encoding) (a b : Char) (t : Str) :
    unescapeValid m ('%' :: a :: b :: t) =
      (if (!ishex a || !ishex b) = true then false
       else if m = encodeHost ∧ unhex a < 8 ∧ ['%', a, b] ≠ ['%', '2', '5'] then false
       else if m = encodeZone ∧ ['%', a, b] ≠ ['%', '2', '5']
           ∧ Char.ofNat (unhex a * 16 + unhex b) ≠ ' '
           ∧ shouldEscape (Char.ofNat (unhex a * 16 + unhex b)) encodeHost = true then false
       else unescapeValid m t) := by
  conv => lhs; unfold unescapeValid
  simp only [if_true]

theorem unescapeValid_percent_one (m : encoding) (a : Char) :
    unescapeValid m ['%', a] = false := by
  conv => lhs; unfold unescapeValid
  simp only [if_true]

theorem unescapeValid_percent_nil (m : encoding) : unescapeValid m ['%'] = false := by
  conv => lhs; unfold unescapeValid
  simp only [if_true]

theorem unescapeValid_plain (m : encoding) (c : Char) (t : Str) (h : c ≠ '%') :
    unescapeValid m (c :: t) =
      (if c = '+' then unescapeValid m t
       else if (m = encodeHost ∨ m = encodeZone) ∧ c.toNat < 0x80
           ∧ shouldEscape c encodeHost = true then false
       else unescapeValid m t) := by
  conv => lhs; unfold unescapeValid
  simp only [h, if_false]

theorem unescapeBytes_percent (m : encoding) (a b : Char) (t : Str) :
    unescapeBytes m ('%' :: a :: b :: t) =
      Char.ofNat (unhex a * 16 + unhex b) :: unescapeBytes m t := by
  conv => lhs; unfold unescapeBytes
  simp only [if_true]

theorem unescapeBytes_plain (m : encoding) (c : Char) (t : Str) (h : c ≠ '%') :
    unescapeBytes m (c :: t) =
      (if c = '+' then (if m = encodeQueryComponent then ' ' else '+') :: unescapeBytes m t
       else c :: unescapeBytes m t) := by
  conv => lhs; unfold unescapeBytes
  simp only [h, if_false]

theorem escape_append (a b : Str) (m : encoding) : escape (a ++ b) m = escape a m ++ escape b m := by
  induction a with
  | nil => rfl
  | cons c t ih =>
    simp only [List.cons_append, escape]
    split_ifs <;> simp [ih]

/-- Every byte of an escaped string is `%`, a hexadecimal digit, `+`, or a byte
of the source that the mode leaves alone. -/
theorem mem_escape (s : Str) (m : encoding) (c : Char) (h : c ∈ escape s m) :
    c = '%' ∨ ishex c = true ∨ c = '+' ∨ (c ∈ s ∧ shouldEscape c m = false) := by
  induction s with
  | nil => simp [escape] at h
  | cons x t ih =>
    have step : c ∈ escape t m →
        c = '%' ∨ ishex c = true ∨ c = '+' ∨ (c ∈ x :: t ∧ shouldEscape c m = false) := by
      intro h1
      rcases ih h1 with h2 | h2 | h2 | h2
      · exact Or.inl h2
      · exact Or.inr (Or.inl h2)
      · exact Or.inr (Or.inr (Or.inl h2))
      · exact Or.inr (Or.inr (Or.inr ⟨List.mem_cons_of_mem _ h2.1, h2.2⟩))
    unfold escape at h
    by_cases h1 : x = ' ' ∧ m = encodeQueryComponent
    · rw [if_pos h1] at h
      simp only [List.mem_cons] at h
      rcases h with h | h
      · exact Or.inr (Or.inr (Or.inl h))
      · exact step h
    · rw [if_neg h1] at h
      by_cases h2 : shouldEscape x m = true
      · rw [if_pos h2] at h
        simp only [List.mem_cons] at h
        rcases h with h | h | h | h
        · exact Or.inl h
        · exact Or.inr (Or.inl (by rw [h]; exact upperhex_ishex _))
        · exact Or.inr (Or.inl (by rw [h]; exact upperhex_ishex _))
        · exact step h
      · rw [if_neg h2] at h
        simp only [List.mem_cons] at h
        rcases h with h | h
        · refine Or.inr (Or.inr (Or.inr ⟨by simp [h], ?_⟩))
          rw [h]; simpa using h2
        · exact step h

/-- A byte that escaping never writes by itself occurs in an escaped string only
as a byte of the source that the mode leaves alone. -/
theorem mem_escape_plain (s : Str) (m : encoding) (c : Char) (h : c ∈ escape s m)
    (h1 : c ≠ '%') (h2 : ishex c = false) (h3 : c ≠ '+') :
    c ∈ s ∧ shouldEscape c m = false := by
  rcases mem_escape s m c h with h4 | h4 | h4 | h4
  · exact absurd h4 h1
  · rw [h2] at h4; exact Bool.noConfusion h4
  · exact absurd h4 h3
  · exact h4

/-- Escaped text unescapes without error in every mode but the host's and the
zone's. -/
theorem unescapeValid_escape (s : Str) (m : encoding) (h1 : m ≠ encodeHost)
    (h2 : m ≠ encodeZone) : unescapeValid m (escape s m) = true := by
  induction s with
  | nil => rfl
  | cons x t ih =>
    unfold escape
    by_cases hq : x = ' ' ∧ m = encodeQueryComponent
    · rw [if_pos hq, unescapeValid_plain _ _ _ (by decide)]
      simp [ih]
    · rw [if_neg hq]
      by_cases hs : shouldEscape x m = true
      · rw [if_pos hs, unescapeValid_percent]
        simp [upperhex_ishex, h1, h2, ih]
      · rw [if_neg hs]
        have hx : x ≠ '%' := by
          intro e; rw [e, shouldEscape_percent] at hs; exact hs rfl
        rw [unescapeValid_plain _ _ _ hx]
        simp [h1, h2, ih]

end EscapeLemmas

section HostRoundTrip

open url url.encoding

set_option maxRecDepth 100000 in
theorem unhex_lt_nat : ∀ n < 256, unhex (Char.ofNat n) < 16 := by
  decide

theorem unhex_lt (c : Char) (h : c.toNat < 256) : unhex c < 16 := by
  have := unhex_lt_nat c.toNat h
  rwa [Char.ofNat_toNat] at this

/-- Escaping for the host and unescaping as a host gives the string back, when
each of its bytes is `%`, a byte from 0x80 up, or a byte the host leaves alone. -/
theorem unescape_escape_host (s : Str)
    (h : ∀ c ∈ s, c.toNat < 256 ∧
      (c = '%' ∨ 128 ≤ c.toNat ∨ shouldEscape c encodeHost = false)) :
    unescapeValid encodeHost (escape s encodeHost) = true ∧
    unescapeBytes encodeHost (escape s encodeHost) = s := by
  induction s with
  | nil => exact ⟨rfl, rfl⟩
  | cons x t ih =>
    obtain ⟨ih1, ih2⟩ := ih (fun c hc => h c (List.mem_cons_of_mem _ hc))
    obtain ⟨hx256, hx⟩ := h x (by simp)
    unfold escape
    have hq : ¬ (x = ' ' ∧ encodeHost = encodeQueryComponent) := by simp
    rw [if_neg hq]
    by_cases hs : shouldEscape x encodeHost = true
    · rw [if_pos hs, unescapeValid_percent, unescapeBytes_percent, ih1, ih2,
        hex_roundtrip_nat x.toNat hx256, Char.ofNat_toNat]
      refine ⟨?_, rfl⟩
      have hcond : ¬ (unhex (upperhex (x.toNat / 16)) < 8 ∧
          ['%', upperhex (x.toNat / 16), upperhex (x.toNat % 16)] ≠ ['%', '2', '5']) := by
        rcases hx with hx | hx | hx
        · subst hx; decide
        · have := (high_nibble_nat x.toNat hx256 hx).1
          omega
        · rw [hx] at hs; exact Bool.noConfusion hs
      have h1 : ¬ ((!ishex (upperhex (x.toNat / 16)) || !ishex (upperhex (x.toNat % 16)))
          = true) := by
        simp [upperhex_ishex]
      have h2 : ¬ (encodeHost = encodeHost ∧ unhex (upperhex (x.toNat / 16)) < 8 ∧
          ['%', upperhex (x.toNat / 16), upperhex (x.toNat % 16)] ≠ ['%', '2', '5']) :=
        fun h => hcond h.2
      rw [if_neg h1, if_neg h2, if_neg (fun h => encoding.noConfusion h.1)]
    · rw [if_neg hs]
      have hxp : x ≠ '%' := by
        intro e; rw [e, shouldEscape_percent] at hs; exact hs rfl
      rw [unescapeValid_plain _ _ _ hxp, unescapeBytes_plain _ _ _ hxp, ih1, ih2]
      constructor
      · simp [hs]
      · by_cases hplus : x = '+'
        · subst hplus; simp
        · simp [hplus]

/-- Escaping for the host and unescaping as a zone gives the string back, when
each of its bytes is `%`, a space, or a byte the host leaves alone. -/
theorem unescape_escape_zone (s : Str)
    (h : ∀ c ∈ s, c = '%' ∨ c = ' ' ∨ shouldEscape c encodeHost = false) :
    unescapeValid encodeZone (escape s encodeHost) = true ∧
    unescapeBytes encodeZone (escape s encodeHost) = s := by
  induction s with
  | nil => exact ⟨rfl, rfl⟩
  | cons x t ih =>
    obtain ⟨ih1, ih2⟩ := ih (fun c hc => h c (List.mem_cons_of_mem _ hc))
    have hx := h x (by simp)
    unfold escape
    have hq : ¬ (x = ' ' ∧ encodeHost = encodeQueryComponent) := by simp
    rw [if_neg hq]
    by_cases hs : shouldEscape x encodeHost = true
    · rw [if_pos hs, unescapeValid_percent, unescapeBytes_percent, ih1, ih2]
      rcases hx with hx | hx | hx
      · subst hx; exact ⟨by decide, congrArg (· :: t) (by decide)⟩
      · subst hx; exact ⟨by decide, congrArg (· :: t) (by decide)⟩
      · rw [hx] at hs; exact Bool.noConfusion hs
    · rw [if_neg hs]
      have hxp : x ≠ '%' := by
        intro e; rw [e, shouldEscape_percent] at hs; exact hs rfl
      rw [unescapeValid_plain _ _ _ hxp, unescapeBytes_plain _ _ _ hxp, ih1, ih2]
      constructor
      · simp [hs]
      · by_cases hplus : x = '+'
        · subst hplus; simp
        · simp [hplus]

theorem isBytes_cons (c : Char) (t : Str) (h : IsBytes (c :: t)) : c.toNat < 256 ∧ IsBytes t :=
  ⟨h c (by simp), fun x hx => h x (List.mem_cons_of_mem _ hx)⟩

theorem isBytes_append (a b : Str) : IsBytes (a ++ b) ↔ IsBytes a ∧ IsBytes b := by
  unfold IsBytes
  simp only [List.mem_append]
  constructor
  · intro h; exact ⟨fun c hc => h c (Or.inl hc), fun c hc => h c (Or.inr hc)⟩
  · rintro ⟨h1, h2⟩ c (hc | hc)
    · exact h1 c hc
    · exact h2 c hc

/-- The bytes a valid host unescapes to. -/
theorem unescapeBytes_host_chars (n : Nat) (s : Str) (hn : s.length ≤ n)
    (hv : unescapeValid encodeHost s = true) (hb : IsBytes s) :
    ∀ c ∈ unescapeBytes encodeHost s, c.toNat < 256 ∧
      (c = '%' ∨ 128 ≤ c.toNat ∨ shouldEscape c encodeHost = false) := by
  induction n generalizing s with
  | zero =>
    have : s = [] := List.length_eq_zero.mp (by omega)
    subst this
    intro c hc; simp [unescapeBytes] at hc
  | succ n ih =>
    rcases s with _ | ⟨x, t⟩
    · intro c hc; simp [unescapeBytes] at hc
    · obtain ⟨hx256, hbt⟩ := isBytes_cons x t hb
      by_cases hxp : x = '%'
      · subst hxp
        rcases t with _ | ⟨a, _ | ⟨b, t2⟩⟩
        · rw [unescapeValid_percent_nil] at hv; exact Bool.noConfusion hv
        · rw [unescapeValid_percent_one] at hv; exact Bool.noConfusion hv
        · rw [unescapeValid_percent] at hv
          obtain ⟨ha256, hbt1⟩ := isBytes_cons a _ hbt
          obtain ⟨hb256, hbt2⟩ := isBytes_cons b _ hbt1
          have hua := unhex_lt a ha256
          have hub := unhex_lt b hb256
          by_cases h1 : (!ishex a || !ishex b) = true
          · rw [if_pos h1] at hv; exact Bool.noConfusion hv
          · rw [if_neg h1] at hv
            by_cases h2 : encodeHost = encodeHost ∧ unhex a < 8 ∧ ['%', a, b] ≠ ['%', '2', '5']
            · rw [if_pos h2] at hv; exact Bool.noConfusion hv
            · rw [if_neg h2] at hv
              have h3 : ¬ (encodeHost = encodeZone ∧ ['%', a, b] ≠ ['%', '2', '5']
                  ∧ Char.ofNat (unhex a * 16 + unhex b) ≠ ' '
                  ∧ shouldEscape (Char.ofNat (unhex a * 16 + unhex b)) encodeHost = true) := by
                simp
              rw [if_neg h3] at hv
              rw [unescapeBytes_percent]
              intro c hc
              simp only [List.mem_cons] at hc
              rcases hc with hc | hc
              · subst hc
                have hlt : unhex a * 16 + unhex b < 256 := by omega
                rw [char_ofNat_toNat_lt _ hlt]
                refine ⟨hlt, ?_⟩
                by_cases h8 : unhex a < 8
                · left
                  have : ['%', a, b] = ['%', '2', '5'] := by
                    by_contra hne; exact h2 ⟨rfl, h8, hne⟩
                  simp only [List.cons.injEq, and_true, true_and] at this
                  rw [this.1, this.2]; decide
                · right; left; omega
              · exact ih t2 (by simp at hn; omega) hv hbt2 c hc
      · rw [unescapeValid_plain _ _ _ hxp] at hv
        rw [unescapeBytes_plain _ _ _ hxp]
        by_cases hplus : x = '+'
        · subst hplus
          simp only [if_true] at hv
          intro c hc
          simp only [if_true, List.mem_cons] at hc
          rcases hc with hc | hc
          · rw [hc]; simp only [reduceCtorEq, if_false]; decide
          · exact ih t (by simp at hn; omega) hv hbt c hc
        · rw [if_neg hplus] at hv ⊢
          by_cases h4 : (encodeHost = encodeHost ∨ encodeHost = encodeZone) ∧ x.toNat < 0x80
              ∧ shouldEscape x encodeHost = true
          · rw [if_pos h4] at hv; exact Bool.noConfusion hv
          · rw [if_neg h4] at hv
            intro c hc
            simp only [List.mem_cons] at hc
            rcases hc with hc | hc
            · subst hc
              refine ⟨hx256, ?_⟩
              by_cases h128 : 128 ≤ c.toNat
              · exact Or.inr (Or.inl h128)
              · right; right
                cases hse : shouldEscape c encodeHost with
                | false => rfl
                | true => exact absurd ⟨Or.inl rfl, by omega, hse⟩ h4
            · exact ih t (by simp at hn; omega) hv hbt c hc

end HostRoundTrip

section ParseHostLemmas

open url url.encoding strings

theorem splitAt_some (pat s a b : Str) (h : SplitAt s pat = some (a, b)) :
    s = a ++ b ∧ noPatBefore pat a b = true ∧ pat.isPrefixOf b = true := by
  induction s generalizing a with
  | nil =>
    unfold SplitAt at h
    by_cases hp : pat.isPrefixOf [] = true
    · rw [if_pos hp] at h
      simp only [Option.some.injEq, Prod.mk.injEq] at h
      rw [← h.1, ← h.2]
      exact ⟨rfl, rfl, hp⟩
    · rw [if_neg hp] at h; exact Option.noConfusion h
  | cons c t ih =>
    unfold SplitAt at h
    by_cases hp : pat.isPrefixOf (c :: t) = true
    · rw [if_pos hp] at h
      simp only [Option.some.injEq, Prod.mk.injEq] at h
      rw [← h.1, ← h.2]
      exact ⟨rfl, rfl, hp⟩
    · rw [if_neg hp] at h
      cases ht : SplitAt t pat with
      | none => simp [ht] at h
      | some p =>
        obtain ⟨a1, b1⟩ := p
        simp only [ht, Option.some.injEq, Prod.mk.injEq] at h
        obtain ⟨h1, h2, h3⟩ := ih a1 (by rw [ht, h.2])
        rw [← h.1]
        refine ⟨by rw [h1]; rfl, ?_, h3⟩
        unfold noPatBefore
        rw [← h1, h2, Bool.and_true, Bool.not_eq_true']
        exact Bool.eq_false_iff.mpr hp

theorem splitAt_none (pat s : Str) (h : SplitAt s pat = none) : noPatBefore pat s [] = true := by
  induction s with
  | nil => rfl
  | cons c t ih =>
    unfold SplitAt at h
    by_cases hp : pat.isPrefixOf (c :: t) = true
    · rw [if_pos hp] at h; exact Option.noConfusion h
    · rw [if_neg hp] at h
      cases ht : SplitAt t pat with
      | none =>
        unfold noPatBefore
        rw [List.append_nil, ih ht, Bool.and_true, Bool.not_eq_true']
        exact Bool.eq_false_iff.mpr hp
      | some p => simp [ht] at h

theorem splitAt_of_noPatBefore (pat a b : Str) (h1 : noPatBefore pat a b = true)
    (h2 : pat.isPrefixOf b = true) : SplitAt (a ++ b) pat = some (a, b) := by
  induction a with
  | nil =>
    cases b with
    | nil => simp [SplitAt, h2]
    | cons c t => simp [SplitAt, h2]
  | cons c t ih =>
    unfold noPatBefore at h1
    simp only [Bool.and_eq_true, Bool.not_eq_true'] at h1
    rw [List.cons_append]
    unfold SplitAt
    rw [if_neg (by rw [h1.1]; exact Bool.false_ne_true), ih h1.2]

theorem splitAt_none_of_noPatBefore (pat s : Str) (h1 : noPatBefore pat s [] = true)
    (h2 : pat.isPrefixOf [] = false) : SplitAt s pat = none := by
  induction s with
  | nil => simp [SplitAt, h2]
  | cons c t ih =>
    unfold noPatBefore at h1
    simp only [Bool.and_eq_true, Bool.not_eq_true', List.append_nil] at h1
    unfold SplitAt
    rw [if_neg (by rw [h1.1]; exact Bool.false_ne_true), ih h1.2]

/-- Unescaping commutes with a split in front of a byte that is neither `%` nor
a hexadecimal digit. -/
theorem unescape_split (m : encoding) (n : Nat) (a : Str) (hn : a.length ≤ n) (c : Char)
    (b : Str) (hc2 : ishex c = false)
    (hv : unescapeValid m (a ++ c :: b) = true) :
    unescapeValid m a = true ∧ unescapeValid m (c :: b) = true ∧
    unescapeBytes m (a ++ c :: b) = unescapeBytes m a ++ unescapeBytes m (c :: b) := by
  induction n generalizing a with
  | zero =>
    have : a = [] := List.length_eq_zero.mp (by omega)
    subst this
    exact ⟨rfl, hv, rfl⟩
  | succ n ih =>
    rcases a with _ | ⟨x, t⟩
    · exact ⟨rfl, hv, rfl⟩
    · by_cases hxp : x = '%'
      · subst hxp
        rcases t with _ | ⟨p, _ | ⟨q, t2⟩⟩
        · rcases b with _ | ⟨y, b2⟩
          · rw [List.cons_append, List.nil_append, unescapeValid_percent_one] at hv
            exact Bool.noConfusion hv
          · rw [List.cons_append, List.nil_append, unescapeValid_percent] at hv
            simp [hc2] at hv
        · simp only [List.cons_append, List.nil_append] at hv
          rw [unescapeValid_percent] at hv
          simp [hc2] at hv
        · simp only [List.cons_append] at hv ⊢
          rw [unescapeValid_percent] at hv
          rw [unescapeValid_percent, unescapeBytes_percent, unescapeBytes_percent]
          by_cases h1 : (!ishex p || !ishex q) = true
          · rw [if_pos h1] at hv; exact Bool.noConfusion hv
          · rw [if_neg h1] at hv ⊢
            by_cases h2 : m = encodeHost ∧ unhex p < 8 ∧ ['%', p, q] ≠ ['%', '2', '5']
            · rw [if_pos h2] at hv; exact Bool.noConfusion hv
            · rw [if_neg h2] at hv ⊢
              by_cases h3 : m = encodeZone ∧ ['%', p, q] ≠ ['%', '2', '5']
                  ∧ Char.ofNat (unhex p * 16 + unhex q) ≠ ' '
                  ∧ shouldEscape (Char.ofNat (unhex p * 16 + unhex q)) encodeHost = true
              · rw [if_pos h3] at hv; exact Bool.noConfusion hv
              · rw [if_neg h3] at hv ⊢
                obtain ⟨i1, i2, i3⟩ := ih t2 (by simp at hn; omega) hv
                exact ⟨i1, i2, by rw [i3]; rfl⟩
      · simp only [List.cons_append] at hv ⊢
        rw [unescapeValid_plain _ _ _ hxp] at hv
        rw [unescapeValid_plain _ _ _ hxp, unescapeBytes_plain _ _ _ hxp,
          unescapeBytes_plain _ _ _ hxp]
        by_cases hplus : x = '+'
        · rw [if_pos hplus] at hv ⊢
          rw [if_pos hplus, if_pos hplus]
          obtain ⟨i1, i2, i3⟩ := ih t (by simp at hn; omega) hv
          exact ⟨i1, i2, by rw [i3]; rfl⟩
        · rw [if_neg hplus] at hv ⊢
          rw [if_neg hplus, if_neg hplus]
          by_cases h4 : (m = encodeHost ∨ m = encodeZone) ∧ x.toNat < 0x80
              ∧ shouldEscape x encodeHost = true
          · rw [if_pos h4] at hv; exact Bool.noConfusion hv
          · rw [if_neg h4] at hv ⊢
            obtain ⟨i1, i2, i3⟩ := ih t (by simp at hn; omega) hv
            exact ⟨i1, i2, by rw [i3]; rfl⟩

end ParseHostLemmas

section ParseHostRoundTrip

open url url.encoding strings

/-- A byte that unescaping a valid host writes is a byte of the source, `%`, or
a byte from 0x80 up. -/
theorem mem_unescapeBytes_host (n : Nat) (s : Str) (hn : s.length ≤ n)
    (hv : unescapeValid encodeHost s = true) (hb : IsBytes s) (c : Char)
    (hc : c ∈ unescapeBytes encodeHost s) : c ∈ s ∨ 128 ≤ c.toNat := by
  induction n generalizing s with
  | zero =>
    have : s = [] := List.length_eq_zero.mp (by omega)
    subst this
    simp [unescapeBytes] at hc
  | succ n ih =>
    rcases s with _ | ⟨x, t⟩
    · simp [unescapeBytes] at hc
    · obtain ⟨_, hbt⟩ := isBytes_cons x t hb
      by_cases hxp : x = '%'
      · subst hxp
        rcases t with _ | ⟨a, _ | ⟨b, t2⟩⟩
        · rw [unescapeValid_percent_nil] at hv; exact Bool.noConfusion hv
        · rw [unescapeValid_percent_one] at hv; exact Bool.noConfusion hv
        · have hchars := unescapeBytes_host_chars _ _ (le_refl _) hv hb
          rw [unescapeValid_percent] at hv
          rw [unescapeBytes_percent] at hc hchars
          obtain ⟨_, hbt1⟩ := isBytes_cons a _ hbt
          obtain ⟨_, hbt2⟩ := isBytes_cons b _ hbt1
          simp only [List.mem_cons] at hc
          rcases hc with hc | hc
          · have := (hchars c (by simp [hc])).2
            rw [hc] at this ⊢
            have hv2 := hv
            by_cases h1 : (!ishex a || !ishex b) = true
            · rw [if_pos h1] at hv; exact Bool.noConfusion hv
            · rw [if_neg h1] at hv
              by_cases h2 : encodeHost = encodeHost ∧ unhex a < 8 ∧ ['%', a, b] ≠ ['%', '2', '5']
              · rw [if_pos h2] at hv; exact Bool.noConfusion hv
              · by_cases h8 : unhex a < 8
                · left
                  have : ['%', a, b] = ['%', '2', '5'] := by
                    by_contra hne; exact h2 ⟨rfl, h8, hne⟩
                  simp only [List.cons.injEq, and_true, true_and] at this
                  rw [this.1, this.2]
                  exact List.mem_cons.mpr (Or.inl (by decide))
                · right
                  obtain ⟨ha256, _⟩ := isBytes_cons a _ hbt
                  obtain ⟨hb256, _⟩ := isBytes_cons b _ hbt1
                  have hua := unhex_lt a ha256
                  have hub := unhex_lt b hb256
                  rw [char_ofNat_toNat_lt _ (by omega)]
                  omega
          · by_cases h1 : (!ishex a || !ishex b) = true
            · rw [if_pos h1] at hv; exact Bool.noConfusion hv
            · rw [if_neg h1] at hv
              by_cases h2 : encodeHost = encodeHost ∧ unhex a < 8 ∧ ['%', a, b] ≠ ['%', '2', '5']
              · rw [if_pos h2] at hv; exact Bool.noConfusion hv
              · rw [if_neg h2, if_neg (fun h => encoding.noConfusion h.1)] at hv
                rcases ih t2 (by simp at hn; omega) hv hbt2 hc with h | h
                · left; simp [h]
                · right; exact h
      · rw [unescapeValid_plain _ _ _ hxp] at hv
        rw [unescapeBytes_plain _ _ _ hxp] at hc
        have hvt : unescapeValid encodeHost t = true := by
          by_cases hplus : x = '+'
          · rw [if_pos hplus] at hv; exact hv
          · rw [if_neg hplus] at hv
            by_cases h4 : (encodeHost = encodeHost ∨ encodeHost = encodeZone) ∧ x.toNat < 0x80
                ∧ shouldEscape x encodeHost = true
            · rw [if_pos h4] at hv; exact Bool.noConfusion hv
            · rw [if_neg h4] at hv; exact hv
        have hc2 : c = x ∨ c ∈ unescapeBytes encodeHost t := by
          by_cases hplus : x = '+'
          · rw [if_pos hplus] at hc
            simp only [reduceCtorEq, if_false, List.mem_cons] at hc
            rcases hc with hc | hc
            · left; rw [hc, hplus]
            · right; exact hc
          · rw [if_neg hplus] at hc
            simpa using hc
        rcases hc2 with hc2 | hc2
        · left; simp [hc2]
        · rcases ih t (by simp at hn; omega) hvt hbt hc2 with h | h
          · left; simp [h]
          · right; exact h

/-- In front of the zone mark, a valid host unescapes to no `%`. -/
theorem no_percent_before_zone (n : Nat) (s z : Str) (hn : s.length ≤ n)
    (hp : noPatBefore zoneMark s z = true) (hv : unescapeValid encodeHost s = true)
    (hb : IsBytes s) : '%' ∉ unescapeBytes encodeHost s := by
  induction n generalizing s with
  | zero =>
    have : s = [] := List.length_eq_zero.mp (by omega)
    subst this
    simp [unescapeBytes]
  | succ n ih =>
    rcases s with _ | ⟨x, t⟩
    · simp [unescapeBytes]
    · obtain ⟨_, hbt⟩ := isBytes_cons x t hb
      by_cases hxp : x = '%'
      · subst hxp
        rcases t with _ | ⟨a, _ | ⟨b, t2⟩⟩
        · rw [unescapeValid_percent_nil] at hv; exact Bool.noConfusion hv
        · rw [unescapeValid_percent_one] at hv; exact Bool.noConfusion hv
        · rw [unescapeValid_percent] at hv
          rw [unescapeBytes_percent]
          obtain ⟨ha256, hbt1⟩ := isBytes_cons a _ hbt
          obtain ⟨hb256, hbt2⟩ := isBytes_cons b _ hbt1
          have hua := unhex_lt a ha256
          have hub := unhex_lt b hb256
          simp only [noPatBefore, zoneMark, List.cons_append, Bool.and_eq_true,
            Bool.not_eq_true'] at hp
          obtain ⟨hp1, _, _, hp4⟩ := hp
          by_cases h1 : (!ishex a || !ishex b) = true
          · rw [if_pos h1] at hv; exact Bool.noConfusion hv
          · rw [if_neg h1] at hv
            by_cases h2 : encodeHost = encodeHost ∧ unhex a < 8 ∧ ['%', a, b] ≠ ['%', '2', '5']
            · rw [if_pos h2] at hv; exact Bool.noConfusion hv
            · rw [if_neg h2, if_neg (fun h => encoding.noConfusion h.1)] at hv
              have hne : ['%', a, b] ≠ ['%', '2', '5'] := by
                intro e
                simp only [List.cons.injEq, and_true, true_and] at e
                rw [e.1, e.2] at hp1
                simp [List.isPrefixOf] at hp1
              have h8 : ¬ unhex a < 8 := fun h => h2 ⟨rfl, h, hne⟩
              have hih := ih t2 (by simp at hn; omega) hp4 hv hbt2
              simp only [List.mem_cons, not_or]
              refine ⟨?_, hih⟩
              intro e
              have hlt : unhex a * 16 + unhex b < 256 := by omega
              have h37 : (Char.ofNat (unhex a * 16 + unhex b)).toNat = '%'.toNat :=
                congrArg Char.toNat e.symm
              rw [char_ofNat_toNat_lt _ hlt] at h37
              have h0 : '%'.toNat = 37 := by decide
              rw [h0] at h37
              omega
      · rw [unescapeValid_plain _ _ _ hxp] at hv
        rw [unescapeBytes_plain _ _ _ hxp]
        simp only [noPatBefore, Bool.and_eq_true, Bool.not_eq_true'] at hp
        have hvt : unescapeValid encodeHost t = true := by
          by_cases hplus : x = '+'
          · rw [if_pos hplus] at hv; exact hv
          · rw [if_neg hplus] at hv
            by_cases h4 : (encodeHost = encodeHost ∨ encodeHost = encodeZone) ∧ x.toNat < 0x80
                ∧ shouldEscape x encodeHost = true
            · rw [if_pos h4] at hv; exact Bool.noConfusion hv
            · rw [if_neg h4] at hv; exact hv
        have hih := ih t (by simp at hn; omega) hp.2 hvt hbt
        by_cases hplus : x = '+'
        · rw [if_pos hplus]
          simp only [reduceCtorEq, if_false, List.mem_cons, not_or]
          exact ⟨by decide, hih⟩
        · rw [if_neg hplus]
          simp only [List.mem_cons, not_or]
          exact ⟨fun e => hxp e.symm, hih⟩

/-- The escaped form of a host part without `%` holds no zone mark, whatever
follows it. -/
theorem escape_noPatBefore (s z : Str)
    (h : ∀ c ∈ s, c.toNat < 256 ∧ c ≠ '%' ∧
      (128 ≤ c.toNat ∨ shouldEscape c encodeHost = false)) :
    noPatBefore zoneMark (escape s encodeHost) z = true := by
  induction s with
  | nil => rfl
  | cons x t ih =>
    have iht : noPatBefore ['%', '2', '5'] (escape t encodeHost) z = true :=
      ih (fun c hc => h c (List.mem_cons_of_mem _ hc))
    obtain ⟨hx256, hxp, hx⟩ := h x (by simp)
    unfold escape
    rw [if_neg (by simp)]
    by_cases hs : shouldEscape x encodeHost = true
    · rw [if_pos hs]
      have h128 : 128 ≤ x.toNat := by
        rcases hx with hx | hx
        · exact hx
        · rw [hx] at hs; exact Bool.noConfusion hs
      have hX := (high_nibble_nat x.toNat hx256 h128).2
      have hX2 : upperhex (x.toNat / 16) ≠ '%' := upperhex_ne _ _ (by decide)
      have hY2 : upperhex (x.toNat % 16) ≠ '%' := upperhex_ne _ _ (by decide)
      simp only [noPatBefore, zoneMark, List.cons_append, List.isPrefixOf, Bool.and_eq_true,
        Bool.not_eq_true', iht, and_true]
      refine ⟨?_, ?_, ?_⟩
      · have : ('2' == upperhex (x.toNat / 16)) = false := by
          simpa using fun e => hX e.symm
        simp [this]
      · have : ('%' == upperhex (x.toNat / 16)) = false := by
          simpa using fun e => hX2 e.symm
        simp [this]
      · have : ('%' == upperhex (x.toNat % 16)) = false := by
          simpa using fun e => hY2 e.symm
        simp [this]
    · rw [if_neg hs]
      simp only [noPatBefore, zoneMark, List.isPrefixOf, Bool.and_eq_true, Bool.not_eq_true']
      refine ⟨?_, iht⟩
      have : ('%' == x) = false := by simpa using fun e => hxp e.symm
      simp [this]

/-- Text made of bytes that are neither `%` nor `+` and that the host leaves
alone is its own escaped and unescaped form. -/
theorem plain_text (m : encoding) (s : Str)
    (h : ∀ c ∈ s, c ≠ '%' ∧ c ≠ '+' ∧ shouldEscape c encodeHost = false) :
    unescapeValid m s = true ∧ unescapeBytes m s = s ∧ escape s encodeHost = s := by
  induction s with
  | nil => exact ⟨rfl, rfl, rfl⟩
  | cons x t ih =>
    obtain ⟨i1, i2, i3⟩ := ih (fun c hc => h c (List.mem_cons_of_mem _ hc))
    obtain ⟨h1, h2, h3⟩ := h x (by simp)
    rw [unescapeValid_plain _ _ _ h1, unescapeBytes_plain _ _ _ h1, if_neg h2, if_neg h2]
    refine ⟨?_, by rw [i2], ?_⟩
    · rw [if_neg (by simp [h3])]; exact i1
    · unfold escape
      rw [if_neg (by simp), if_neg (by simp [h3]), i3]

theorem digit_plain (c : Char) (h : '0' ≤ c ∧ c ≤ '9') :
    c ≠ '%' ∧ c ≠ '+' ∧ c ≠ ':' ∧ c ≠ ']' ∧ shouldEscape c encodeHost = false := by
  refine ⟨?_, ?_, ?_, ?_, ?_⟩
  · rintro rfl; exact absurd h (by decide)
  · rintro rfl; exact absurd h (by decide)
  · rintro rfl; exact absurd h (by decide)
  · rintro rfl; exact absurd h (by decide)
  · have : isAlnum c = true := by
      unfold isAlnum
      simp only [decide_eq_true_eq]
      exact Or.inr (Or.inr h)
    unfold shouldEscape
    rw [if_pos this]

/-- What `validOptionalPort` accepts: nothing, or a colon and digits. -/
theorem validOptionalPort_chars (port : Str) (h : validOptionalPort port = true) :
    port = [] ∨ ∃ ds, port = ':' :: ds ∧ ∀ c ∈ ds, '0' ≤ c ∧ c ≤ '9' := by
  rcases port with _ | ⟨c, t⟩
  · exact Or.inl rfl
  · right
    by_cases hc : c = ':'
    · simp only [validOptionalPort, hc, ne_eq, not_true_eq_false, if_false] at h
      refine ⟨t, by rw [hc], ?_⟩
      intro d hd
      have := List.all_eq_true.mp h d hd
      simpa using this
    · simp [validOptionalPort, hc] at h

theorem port_plain (port : Str) (h : validOptionalPort port = true) :
    ∀ c ∈ port, c ≠ '%' ∧ c ≠ '+' ∧ shouldEscape c encodeHost = false := by
  rcases validOptionalPort_chars port h with h1 | ⟨ds, h1, h2⟩
  · subst h1; intro c hc; simp at hc
  · subst h1
    intro c hc
    simp only [List.mem_cons] at hc
    rcases hc with hc | hc
    · subst hc; decide
    · obtain ⟨a, b, _, _, e⟩ := digit_plain c (h2 c hc)
      exact ⟨a, b, e⟩

end ParseHostRoundTrip

section ParseHostMain

open url url.encoding strings

set_option maxRecDepth 100000 in
theorem shouldEscape_high (m : encoding) (c : Char) (h1 : c.toNat < 256) (h2 : 128 ≤ c.toNat) :
    shouldEscape c m = true := by
  have key : ∀ n < 256, 128 ≤ n → shouldEscape (Char.ofNat n) m = true := by
    cases m <;> decide
  have := key c.toNat h1 h2
  rwa [Char.ofNat_toNat] at this

theorem hasPrefix_one (s : Str) (c : Char) : HasPrefix s [c] = true ↔ ∃ t, s = c :: t := by
  unfold HasPrefix
  rcases s with _ | ⟨x, t⟩
  · simp [List.isPrefixOf]
  · simp [List.isPrefixOf]
    constructor
    · intro h; exact h.symm
    · intro h; exact h.symm

/-- The bytes a valid zone unescapes to. -/
theorem unescapeBytes_zone_chars (n : Nat) (s : Str) (hn : s.length ≤ n)
    (hv : unescapeValid encodeZone s = true) (hb : IsBytes s) :
    ∀ c ∈ unescapeBytes encodeZone s, c.toNat < 256 ∧
      (c = '%' ∨ c = ' ' ∨ 128 ≤ c.toNat ∨ shouldEscape c encodeHost = false) := by
  induction n generalizing s with
  | zero =>
    have : s = [] := List.length_eq_zero.mp (by omega)
    subst this
    intro c hc; simp [unescapeBytes] at hc
  | succ n ih =>
    rcases s with _ | ⟨x, t⟩
    · intro c hc; simp [unescapeBytes] at hc
    · obtain ⟨hx256, hbt⟩ := isBytes_cons x t hb
      by_cases hxp : x = '%'
      · subst hxp
        rcases t with _ | ⟨a, _ | ⟨b, t2⟩⟩
        · rw [unescapeValid_percent_nil] at hv; exact Bool.noConfusion hv
        · rw [unescapeValid_percent_one] at hv; exact Bool.noConfusion hv
        · rw [unescapeValid_percent] at hv
          obtain ⟨ha256, hbt1⟩ := isBytes_cons a _ hbt
          obtain ⟨hb256, hbt2⟩ := isBytes_cons b _ hbt1
          have hua := unhex_lt a ha256
          have hub := unhex_lt b hb256
          by_cases h1 : (!ishex a || !ishex b) = true
          · rw [if_pos h1] at hv; exact Bool.noConfusion hv
          · rw [if_neg h1, if_neg (fun h => encoding.noConfusion h.1)] at hv
            by_cases h3 : encodeZone = encodeZone ∧ ['%', a, b] ≠ ['%', '2', '5']
                ∧ Char.ofNat (unhex a * 16 + unhex b) ≠ ' '
                ∧ shouldEscape (Char.ofNat (unhex a * 16 + unhex b)) encodeHost = true
            · rw [if_pos h3] at hv; exact Bool.noConfusion hv
            · rw [if_neg h3] at hv
              rw [unescapeBytes_percent]
              intro c hc
              simp only [List.mem_cons] at hc
              rcases hc with hc | hc
              · subst hc
                have hlt : unhex a * 16 + unhex b < 256 := by omega
                rw [char_ofNat_toNat_lt _ hlt]
                refine ⟨hlt, ?_⟩
                by_cases e1 : ['%', a, b] = ['%', '2', '5']
                · left
                  simp only [List.cons.injEq, and_true, true_and] at e1
                  rw [e1.1, e1.2]; decide
                · by_cases e2 : Char.ofNat (unhex a * 16 + unhex b) = ' '
                  · exact Or.inr (Or.inl e2)
                  · right; right; right
                    cases hse : shouldEscape (Char.ofNat (unhex a * 16 + unhex b)) encodeHost with
                    | false => rfl
                    | true => exact absurd ⟨rfl, e1, e2, hse⟩ h3
              · exact ih t2 (by simp at hn; omega) hv hbt2 c hc
      · rw [unescapeValid_plain _ _ _ hxp] at hv
        rw [unescapeBytes_plain _ _ _ hxp]
        by_cases hplus : x = '+'
        · subst hplus
          rw [if_pos rfl] at hv ⊢
          intro c hc
          simp only [reduceCtorEq, if_false, List.mem_cons] at hc
          rcases hc with hc | hc
          · rw [hc]; decide
          · exact ih t (by simp at hn; omega) hv hbt c hc
        · rw [if_neg hplus] at hv ⊢
          by_cases h4 : (encodeZone = encodeHost ∨ encodeZone = encodeZone) ∧ x.toNat < 0x80
              ∧ shouldEscape x encodeHost = true
          · rw [if_pos h4] at hv; exact Bool.noConfusion hv
          · rw [if_neg h4] at hv
            intro c hc
            simp only [List.mem_cons] at hc
            rcases hc with hc | hc
            · subst hc
              refine ⟨hx256, ?_⟩
              by_cases h128 : 128 ≤ c.toNat
              · exact Or.inr (Or.inr (Or.inl h128))
              · right; right; right
                cases hse : shouldEscape c encodeHost with
                | false => rfl
                | true => exact absurd ⟨Or.inr rfl, by omega, hse⟩ h4
            · exact ih t (by simp at hn; omega) hv hbt c hc

/-- An escape triple that a valid host holds decodes to `%` or to a byte from
0x80 up. -/
theorem decoded_host_triple (a b : Char) (t : Str)
    (hv : unescapeValid encodeHost ('%' :: a :: b :: t) = true) (ha : a.toNat < 256)
    (hb : b.toNat < 256) :
    Char.ofNat (unhex a * 16 + unhex b) = '%' ∨
      128 ≤ (Char.ofNat (unhex a * 16 + unhex b)).toNat := by
  rw [unescapeValid_percent] at hv
  have hua := unhex_lt a ha
  have hub := unhex_lt b hb
  by_cases h1 : (!ishex a || !ishex b) = true
  · rw [if_pos h1] at hv; exact Bool.noConfusion hv
  · rw [if_neg h1] at hv
    by_cases h2 : encodeHost = encodeHost ∧ unhex a < 8 ∧ ['%', a, b] ≠ ['%', '2', '5']
    · rw [if_pos h2] at hv; exact Bool.noConfusion hv
    · by_cases h8 : unhex a < 8
      · left
        have : ['%', a, b] = ['%', '2', '5'] := by
          by_contra hne; exact h2 ⟨rfl, h8, hne⟩
        simp only [List.cons.injEq, and_true, true_and] at this
        rw [this.1, this.2]; decide
      · right
        rw [char_ofNat_toNat_lt _ (by omega)]
        omega

/-- The escaped form of what a valid host unescapes to starts with `[` only if
the host does. -/
theorem escape_unescape_no_bracket (s : Str) (hv : unescapeValid encodeHost s = true)
    (hb : IsBytes s) (hs : HasPrefix s ['['] = false) :
    HasPrefix (escape (unescapeBytes encodeHost s) encodeHost) ['['] = false := by
  have hchars := unescapeBytes_host_chars _ s (le_refl _) hv hb
  rw [Bool.eq_false_iff] at hs ⊢
  intro hcon
  apply hs
  rw [hasPrefix_one] at hcon ⊢
  obtain ⟨t, ht⟩ := hcon
  rcases hu : unescapeBytes encodeHost s with _ | ⟨d, u⟩
  · rw [hu] at ht; simp [escape] at ht
  · rw [hu] at ht hchars
    obtain ⟨hd256, hd⟩ := hchars d (by simp)
    unfold escape at ht
    rw [if_neg (by simp)] at ht
    by_cases hse : shouldEscape d encodeHost = true
    · rw [if_pos hse] at ht
      simp only [List.cons.injEq] at ht
      exact absurd ht.1 (by decide)
    · rw [if_neg hse] at ht
      simp only [List.cons.injEq] at ht
      have hd2 : d = '[' := ht.1
      -- the first byte of `s` is then `[` itself
      rcases s with _ | ⟨x, r⟩
      · simp [unescapeBytes] at hu
      · by_cases hxp : x = '%'
        · subst hxp
          rcases r with _ | ⟨a, _ | ⟨b, r2⟩⟩
          · rw [unescapeValid_percent_nil] at hv; exact Bool.noConfusion hv
          · rw [unescapeValid_percent_one] at hv; exact Bool.noConfusion hv
          · obtain ⟨_, hbr⟩ := isBytes_cons _ _ hb
            obtain ⟨ha256, hbr1⟩ := isBytes_cons _ _ hbr
            obtain ⟨hb256, _⟩ := isBytes_cons _ _ hbr1
            have htri := decoded_host_triple a b r2 hv ha256 hb256
            rw [unescapeBytes_percent] at hu
            simp only [List.cons.injEq] at hu
            rw [hu.1, hd2] at htri
            rcases htri with h | h
            · exact absurd h (by decide)
            · exact absurd h (by decide)
        · rw [unescapeBytes_plain _ _ _ hxp] at hu
          by_cases hplus : x = '+'
          · rw [if_pos hplus] at hu
            simp only [reduceCtorEq, if_false, List.cons.injEq] at hu
            rw [← hu.1] at hd2
            exact absurd hd2 (by decide)
          · rw [if_neg hplus] at hu
            simp only [List.cons.injEq] at hu
            exact ⟨r, by rw [hu.1, hd2]⟩

end ParseHostMain

section ParseHostForward

open url url.encoding strings

theorem unescape_some (s r : Str) (m : encoding) (h : unescape s m = some r) :
    unescapeValid m s = true ∧ r = unescapeBytes m s := by
  unfold unescape at h
  by_cases hv : unescapeValid m s = true
  · rw [if_pos hv] at h
    exact ⟨hv, (Option.some.inj h).symm⟩
  · rw [if_neg hv] at h; exact Option.noConfusion h

theorem unescape_of_valid (s : Str) (m : encoding) (h : unescapeValid m s = true) :
    unescape s m = some (unescapeBytes m s) := by
  unfold unescape
  rw [if_pos h]

theorem bracket_port_plain (cp : Str) (hcp : validOptionalPort cp = true) :
    ∀ c ∈ ']' :: cp, c ≠ '%' ∧ c ≠ '+' ∧ shouldEscape c encodeHost = false := by
  intro c hc
  simp only [List.mem_cons] at hc
  rcases hc with hc | hc
  · subst hc; decide
  · exact port_plain cp hcp c hc

theorem parseHost_bracket_zone (E1 E2 cp a1 a2 : Str) (hE1 : ∃ t, E1 = '[' :: t)
    (hcp : validOptionalPort cp = true) (hnotin : ']' ∉ cp)
    (hnp : noPatBefore zoneMark E1 E2 = true) (hz : zoneMark.isPrefixOf E2 = true)
    (hu1 : unescape E1 encodeHost = some a1) (hu2 : unescape E2 encodeZone = some a2) :
    parseHost (E1 ++ E2 ++ ']' :: cp) = some (a1 ++ a2 ++ ']' :: cp) := by
  obtain ⟨t, ht⟩ := hE1
  have hpre : HasPrefix (E1 ++ E2 ++ ']' :: cp) ['['] = true := by
    rw [hasPrefix_one]
    exact ⟨t ++ E2 ++ ']' :: cp, by rw [ht]; rfl⟩
  have hsplit : SplitAt (E1 ++ E2) ['%', '2', '5'] = some (E1, E2) :=
    splitAt_of_noPatBefore zoneMark E1 E2 hnp hz
  have hu3 : unescape (']' :: cp) encodeHost = some (']' :: cp) := by
    obtain ⟨p1, p2, _⟩ := plain_text encodeHost (']' :: cp) (bracket_port_plain cp hcp)
    rw [unescape_of_valid _ _ p1, p2]
  unfold parseHost
  rw [if_pos hpre, cutLast_append _ _ _ hnotin]
  simp only [hcp, Bool.not_true, Bool.false_eq_true, if_false, hsplit, hu1, hu2, hu3]

theorem parseHost_bracket_plain (E cp r : Str) (hE : ∃ t, E = '[' :: t)
    (hcp : validOptionalPort cp = true) (hnotin : ']' ∉ cp)
    (hnp : noPatBefore zoneMark E [] = true)
    (hu : unescape (E ++ ']' :: cp) encodeHost = some r) :
    parseHost (E ++ ']' :: cp) = some r := by
  obtain ⟨t, ht⟩ := hE
  have hpre : HasPrefix (E ++ ']' :: cp) ['['] = true := by
    rw [hasPrefix_one]
    exact ⟨t ++ ']' :: cp, by rw [ht]; rfl⟩
  have hsplit : SplitAt E ['%', '2', '5'] = none :=
    splitAt_none_of_noPatBefore zoneMark E hnp rfl
  unfold parseHost
  rw [if_pos hpre, cutLast_append _ _ _ hnotin]
  simp only [hcp, Bool.not_true, Bool.false_eq_true, if_false, hsplit, hu]

theorem parseHost_colon (E port r : Str) (hE : HasPrefix (E ++ ':' :: port) ['['] = false)
    (hport : validOptionalPort (':' :: port) = true)
    (hu : unescape (E ++ ':' :: port) encodeHost = some r) :
    parseHost (E ++ ':' :: port) = some r := by
  have hnotin : ':' ∉ port := by
    rcases validOptionalPort_chars _ hport with h | ⟨ds, h1, h2⟩
    · exact absurd h (by simp)
    · simp only [List.cons.injEq, true_and] at h1
      subst h1
      intro hc
      exact (digit_plain ':' (h2 ':' hc)).2.2.1 rfl
  unfold parseHost
  rw [if_neg (by rw [hE]; exact Bool.false_ne_true), cutLast_append _ _ _ hnotin]
  simp only [hport, Bool.not_true, Bool.false_eq_true, if_false, hu]

theorem parseHost_nocolon (s r : Str) (hE : HasPrefix s ['['] = false) (hc : ':' ∉ s)
    (hu : unescape s encodeHost = some r) : parseHost s = some r := by
  unfold parseHost
  rw [if_neg (by rw [hE]; exact Bool.false_ne_true), cutLast_of_not_mem _ _ hc]
  exact hu

end ParseHostForward

section ParseHostTheorem

open url url.encoding strings

theorem escape_bracket_cons (u : Str) :
    escape ('[' :: u) encodeHost = '[' :: escape u encodeHost := by
  conv => lhs; unfold escape
  rw [if_neg (by decide), if_neg (by decide)]

theorem unescapeBytes_bracket_cons (m : encoding) (t : Str) :
    unescapeBytes m ('[' :: t) = '[' :: unescapeBytes m t := by
  rw [unescapeBytes_plain _ _ _ (by decide), if_neg (by decide)]

theorem dropWhile_append_of_not_mem (a b : Str) (x : Char) (h : x ∉ a) :
    (a ++ b).dropWhile (· ≠ x) = b.dropWhile (· ≠ x) := by
  induction a with
  | nil => rfl
  | cons c t ih =>
    have hc : c ≠ x := fun e => h (by simp [e])
    have hd : decide (c ≠ x) = true := decide_eq_true hc
    rw [List.cons_append, List.dropWhile_cons]
    simp only [hd, if_true]
    exact ih (fun e => h (List.mem_cons_of_mem _ e))

/-- The host that `parseHost` returns parses, once escaped as `String` escapes
it, to itself again; in a bracketed (IP-literal) host the zone, which is the
part from the first `%` on, is taken to be ASCII. -/
theorem parseHost_escape (h0 host : Str) (hb : IsBytes h0) (hp : parseHost h0 = some host)
    (hascii : HasPrefix host ['['] = true →
      ∀ c ∈ host.dropWhile (· ≠ '%'), c.toNat < 128) :
    parseHost (escape host encodeHost) = some host := by
  unfold parseHost at hp
  by_cases hbr : HasPrefix h0 ['['] = true
  · rw [if_pos hbr] at hp
    obtain ⟨h0', hh0⟩ := (hasPrefix_one _ _).mp hbr
    cases hcl : CutLast h0 ']' with
    | none => simp [hcl] at hp
    | some pc =>
      obtain ⟨pre, cp⟩ := pc
      simp only [hcl] at hp
      obtain ⟨hsplit, hnotin⟩ := cutLast_some _ _ _ _ hcl
      by_cases hport : validOptionalPort cp = true
      · simp only [hport, Bool.not_true, Bool.false_eq_true, if_false] at hp
        have hplain := bracket_port_plain cp hport
        obtain ⟨pp1, pp2, pp3⟩ := plain_text encodeHost (']' :: cp) hplain
        have hbpre : IsBytes pre := by
          rw [hsplit] at hb
          exact ((isBytes_append _ _).mp hb).1
        -- `pre` starts with `[`
        have hpre : ∃ t, pre = '[' :: t := by
          rcases pre with _ | ⟨x, t⟩
          · rw [hh0] at hsplit
            simp only [List.nil_append, List.cons.injEq] at hsplit
            exact absurd hsplit.1 (by decide)
          · rw [hh0] at hsplit
            simp only [List.cons_append, List.cons.injEq] at hsplit
            exact ⟨t, by rw [← hsplit.1]⟩
        cases hz : SplitAt pre ['%', '2', '5'] with
        | some hz1 =>
          obtain ⟨h1, z⟩ := hz1
          simp only [hz] at hp
          obtain ⟨hpz, hnp, hzp⟩ := splitAt_some _ _ _ _ hz
          cases hu1 : unescape h1 encodeHost with
          | none => simp [hu1] at hp
          | some host1 =>
            cases hu2 : unescape z encodeZone with
            | none => simp [hu1, hu2] at hp
            | some host2 =>
              cases hu3 : unescape (']' :: cp) encodeHost with
              | none => simp [hu1, hu2, hu3] at hp
              | some host3 =>
                simp only [hu1, hu2, hu3, Option.some.injEq] at hp
                obtain ⟨hv1, e1⟩ := unescape_some _ _ _ hu1
                obtain ⟨hv2, e2⟩ := unescape_some _ _ _ hu2
                obtain ⟨_, e3⟩ := unescape_some _ _ _ hu3
                rw [pp2] at e3
                have hb1 : IsBytes h1 := by
                  rw [hpz] at hbpre; exact ((isBytes_append _ _).mp hbpre).1
                have hb2 : IsBytes z := by
                  rw [hpz] at hbpre; exact ((isBytes_append _ _).mp hbpre).2
                -- `h1` starts with `[`
                obtain ⟨t, ht⟩ := hpre
                have hh1 : ∃ t1, h1 = '[' :: t1 := by
                  rcases h1 with _ | ⟨x, t1⟩
                  · rw [List.nil_append] at hpz
                    rw [← hpz, ht] at hzp
                    simp [List.isPrefixOf] at hzp
                  · rw [ht] at hpz
                    simp only [List.cons_append, List.cons.injEq] at hpz
                    exact ⟨t1, by rw [← hpz.1]⟩
                obtain ⟨t1, ht1⟩ := hh1
                have hhost1 : host1 = '[' :: unescapeBytes encodeHost t1 := by
                  rw [e1, ht1, unescapeBytes_bracket_cons]
                -- the host is a bracketed literal, hence ASCII
                have hasc : ∀ c ∈ host.dropWhile (· ≠ '%'), c.toNat < 128 := by
                  apply hascii
                  rw [hasPrefix_one]
                  exact ⟨unescapeBytes encodeHost t1 ++ host2 ++ host3, by rw [← hp, hhost1]; rfl⟩
                have hch1 := unescapeBytes_host_chars _ h1 (le_refl _) hv1 hb1
                rw [← e1] at hch1
                have hnop : '%' ∉ host1 := by
                  rw [e1]
                  exact no_percent_before_zone _ h1 z (le_refl _) hnp hv1 hb1
                have hch2 := unescapeBytes_zone_chars _ z (le_refl _) hv2 hb2
                rw [← e2] at hch2
                -- the zone starts with `%`
                have hz25 : ∃ z1, z = '%' :: '2' :: '5' :: z1 := by
                  rcases z with _ | ⟨x1, _ | ⟨x2, _ | ⟨x3, z1⟩⟩⟩ <;>
                    simp [List.isPrefixOf] at hzp
                  exact ⟨z1, by rw [hzp.1, hzp.2.1, hzp.2.2]⟩
                obtain ⟨z1, hz1⟩ := hz25
                have hhost2 : host2 = '%' :: unescapeBytes encodeZone z1 := by
                  rw [e2, hz1, unescapeBytes_percent]
                  exact congrArg (· :: unescapeBytes encodeZone z1) (by decide)
                have hzone : host.dropWhile (· ≠ '%') = host2 ++ host3 := by
                  rw [← hp, List.append_assoc, dropWhile_append_of_not_mem _ _ _ hnop, hhost2]
                  rfl
                have hch2' : ∀ c ∈ host2, c = '%' ∨ c = ' ' ∨ shouldEscape c encodeHost = false := by
                  intro c hc
                  have h128 := hasc c (by rw [hzone]; simp [hc])
                  rcases (hch2 c hc).2 with h | h | h | h
                  · exact Or.inl h
                  · exact Or.inr (Or.inl h)
                  · omega
                  · exact Or.inr (Or.inr h)
                have hE2 : escape host2 encodeHost =
                    '%' :: '2' :: '5' :: escape (unescapeBytes encodeZone z1) encodeHost := by
                  rw [hhost2]
                  conv => lhs; unfold escape
                  rw [if_neg (by decide), if_pos (by decide)]
                  rfl
                obtain ⟨a1, a2⟩ := unescape_escape_host host1 hch1
                obtain ⟨b1, b2⟩ := unescape_escape_zone host2 hch2'
                have hfinal := parseHost_bracket_zone (escape host1 encodeHost)
                  (escape host2 encodeHost) cp host1 host2
                  ⟨_, by rw [hhost1, escape_bracket_cons]⟩ hport hnotin
                  (escape_noPatBefore host1 _ (fun c hc => by
                    obtain ⟨q1, q2⟩ := hch1 c hc
                    refine ⟨q1, fun e => hnop (e ▸ hc), ?_⟩
                    rcases q2 with q | q | q
                    · exact absurd q (fun e => hnop (e ▸ hc))
                    · exact Or.inl q
                    · exact Or.inr q))
                  (by rw [hE2]; simp [zoneMark, List.isPrefixOf])
                  (by rw [unescape_of_valid _ _ a1, a2])
                  (by rw [unescape_of_valid _ _ b1, b2])
                rw [← hp, escape_append, escape_append, e3, pp3]
                exact hfinal
        | none =>
          simp only [hz] at hp
          obtain ⟨hv, e⟩ := unescape_some _ _ _ hp
          have hnp := splitAt_none _ _ hz
          rw [hsplit] at hv e
          obtain ⟨s1, _, s3⟩ := unescape_split encodeHost _ pre (le_refl _) ']' cp (by decide) hv
          rw [pp2] at s3
          obtain ⟨t, ht⟩ := hpre
          have hnop : '%' ∉ unescapeBytes encodeHost pre :=
            no_percent_before_zone _ pre [] (le_refl _) hnp s1 hbpre
          have hch := unescapeBytes_host_chars _ pre (le_refl _) s1 hbpre
          have hbh : IsBytes (pre ++ ']' :: cp) := by rw [← hsplit]; exact hb
          have hchost := unescapeBytes_host_chars _ _ (le_refl _) hv hbh
          rw [← e] at hchost
          obtain ⟨a1, a2⟩ := unescape_escape_host host hchost
          have hesc : escape host encodeHost =
              escape (unescapeBytes encodeHost pre) encodeHost ++ ']' :: cp := by
            rw [e, s3, escape_append, pp3]
          rw [hesc]
          apply parseHost_bracket_plain _ cp host
            ⟨_, by rw [ht, unescapeBytes_bracket_cons, escape_bracket_cons]⟩ hport hnotin
          · exact escape_noPatBefore _ _ (fun c hc => by
              obtain ⟨q1, q2⟩ := hch c hc
              refine ⟨q1, fun e => hnop (e ▸ hc), ?_⟩
              rcases q2 with q | q | q
              · exact absurd q (fun e => hnop (e ▸ hc))
              · exact Or.inl q
              · exact Or.inr q)
          · rw [← hesc, unescape_of_valid _ _ a1, a2]
      · simp [hport] at hp
  · rw [if_neg hbr] at hp
    have hbr' : HasPrefix h0 ['['] = false := by
      cases h : HasPrefix h0 ['[']
      · rfl
      · exact absurd h hbr
    cases hcl : CutLast h0 ':' with
    | some ap =>
      obtain ⟨a, port⟩ := ap
      simp only [hcl] at hp
      obtain ⟨hsplit, _⟩ := cutLast_some _ _ _ _ hcl
      by_cases hport : validOptionalPort (':' :: port) = true
      · simp only [hport, Bool.not_true, Bool.false_eq_true, if_false] at hp
        obtain ⟨hv, e⟩ := unescape_some _ _ _ hp
        have hchost := unescapeBytes_host_chars _ _ (le_refl _) hv hb
        rw [← e] at hchost
        obtain ⟨a1, a2⟩ := unescape_escape_host host hchost
        have hnb := escape_unescape_no_bracket h0 hv hb hbr'
        rw [← e] at hnb
        have hv' := hv
        rw [hsplit] at hv' e
        obtain ⟨_, _, s3⟩ := unescape_split encodeHost _ a (le_refl _) ':' port (by decide) hv'
        obtain ⟨_, pp2, pp3⟩ := plain_text encodeHost (':' :: port) (port_plain _ hport)
        rw [pp2] at s3
        have hesc : escape host encodeHost =
            escape (unescapeBytes encodeHost a) encodeHost ++ ':' :: port := by
          rw [e, s3, escape_append, pp3]
        rw [hesc] at hnb ⊢
        apply parseHost_colon _ port host hnb hport
        rw [← hesc, unescape_of_valid _ _ a1, a2]
      · simp [hport] at hp
    | none =>
      simp only [hcl] at hp
      obtain ⟨hv, e⟩ := unescape_some _ _ _ hp
      have hchost := unescapeBytes_host_chars _ _ (le_refl _) hv hb
      rw [← e] at hchost
      obtain ⟨a1, a2⟩ := unescape_escape_host host hchost
      have hnb := escape_unescape_no_bracket h0 hv hb hbr'
      rw [← e] at hnb
      have hnc := cutLast_none _ _ hcl
      apply parseHost_nocolon _ host hnb
      · intro hc
        obtain ⟨m1, _⟩ := mem_escape_plain host encodeHost ':' hc (by decide) (by decide)
          (by decide)
        rw [e] at m1
        rcases mem_unescapeBytes_host _ h0 (le_refl _) hv hb ':' m1 with h | h
        · exact hnc h
        · exact absurd h (by decide)
      · rw [unescape_of_valid _ _ a1, a2]

end ParseHostTheorem

section ParseShape

open url url.encoding strings

/-- The `rest` of the query split is always what `strings.Cut(rest, "?")` puts
in front of the first `?`. -/
theorem splitQuery_fst (s : Str) : (splitQuery s).1 = (Cut s '?').1 := by
  unfold splitQuery
  by_cases hf : forceQuery s = true
  · rw [if_pos hf]
    unfold forceQuery HasSuffix Count at hf
    simp only [Bool.and_eq_true, List.isSuffixOf_iff_suffix, beq_iff_eq] at hf
    obtain ⟨⟨s1, hs1⟩, hcount⟩ := hf
    rw [← hs1] at hcount ⊢
    have hnot : '?' ∉ s1 := by
      rw [← List.count_eq_zero]
      simp only [List.count_append, List.count_singleton_self] at hcount
      omega
    show (s1 ++ ['?']).dropLast = (Cut (s1 ++ ['?']) '?').1
    rw [List.dropLast_concat, cut_append _ _ _ hnot]
  · rw [if_neg hf]

theorem splitQuery_snd_mem (s : Str) (c : Char) (h : c ∈ (splitQuery s).2) : c ∈ s := by
  unfold splitQuery at h
  by_cases hf : forceQuery s = true
  · rw [if_pos hf] at h; simp at h
  · rw [if_neg hf] at h
    exact cut_snd_mem s '?' c h

theorem ctl_append (a b : Str) :
    stringContainsCTLByte (a ++ b) = (stringContainsCTLByte a || stringContainsCTLByte b) := by
  unfold stringContainsCTLByte
  rw [List.any_append]

theorem ctl_false_iff (s : Str) :
    stringContainsCTLByte s = false ↔ ∀ c ∈ s, ¬ (c < ' ' ∨ c.toNat = 0x7f) := by
  unfold stringContainsCTLByte
  rw [List.any_eq_false]
  constructor
  · intro h c hc; simpa using h c hc
  · intro h c hc; simpa using h c hc

/-- The scheme texts `http` and `https`. -/
theorem parse_http_shape (s w : Str)
    (hs : s = ['h', 't', 't', 'p'] ∨ s = ['h', 't', 't', 'p', 's']) :
    parse (s ++ ':' :: '/' :: '/' :: w) =
      if stringContainsCTLByte w then none
      else
        match parseAuthority (((Cut w '?').1).takeWhile (· ≠ '/')) with
        | none => none
        | some (user, host) =>
          setPath { Scheme := s, User := user, Host := host,
                    ForceQuery := forceQuery ('/' :: '/' :: w),
                    RawQuery := (splitQuery ('/' :: '/' :: w)).2 }
            (((Cut w '?').1).dropWhile (· ≠ '/')) := by
  have hrest : (splitQuery ('/' :: '/' :: w)).1 = '/' :: '/' :: (Cut w '?').1 := by
    rw [splitQuery_fst]
    simp [Cut]
  rcases hs with rfl | rfl
  · have hctl : stringContainsCTLByte (['h', 't', 't', 'p'] ++ ':' :: '/' :: '/' :: w) =
        stringContainsCTLByte w := by
      rw [ctl_append]
      show (stringContainsCTLByte ['h', 't', 't', 'p'] ||
        stringContainsCTLByte (':' :: '/' :: '/' :: w)) = _
      rw [show (':' :: '/' :: '/' :: w) = [':', '/', '/'] ++ w from rfl, ctl_append]
      rw [show stringContainsCTLByte ['h', 't', 't', 'p'] = false from by decide,
        show stringContainsCTLByte [':', '/', '/'] = false from by decide]
      rfl
    have hsch : getScheme (['h', 't', 't', 'p'] ++ ':' :: '/' :: '/' :: w) =
        some (['h', 't', 't', 'p'], '/' :: '/' :: w) := by
      simp +decide [getScheme, getSchemeFrom]
    unfold parse
    rw [hctl, hsch]
    by_cases hc : stringContainsCTLByte w = true
    · rw [if_pos hc, if_pos hc]
    · rw [if_neg hc, if_neg hc, if_neg (by simp)]
      simp only [hrest]
      rw [if_neg (by simp [HasPrefix, List.isPrefixOf]),
        if_neg (by simp [HasPrefix, List.isPrefixOf]),
        if_pos (by simp +decide [HasPrefix, List.isPrefixOf, strings.ToLower])]
      rfl
  · have hctl : stringContainsCTLByte (['h', 't', 't', 'p', 's'] ++ ':' :: '/' :: '/' :: w) =
        stringContainsCTLByte w := by
      rw [ctl_append]
      show (stringContainsCTLByte ['h', 't', 't', 'p', 's'] ||
        stringContainsCTLByte (':' :: '/' :: '/' :: w)) = _
      rw [show (':' :: '/' :: '/' :: w) = [':', '/', '/'] ++ w from rfl, ctl_append]
      rw [show stringContainsCTLByte ['h', 't', 't', 'p', 's'] = false from by decide,
        show stringContainsCTLByte [':', '/', '/'] = false from by decide]
      rfl
    have hsch : getScheme (['h', 't', 't', 'p', 's'] ++ ':' :: '/' :: '/' :: w) =
        some (['h', 't', 't', 'p', 's'], '/' :: '/' :: w) := by
      simp +decide [getScheme, getSchemeFrom]
    unfold parse
    rw [hctl, hsch]
    by_cases hc : stringContainsCTLByte w = true
    · rw [if_pos hc, if_pos hc]
    · rw [if_neg hc, if_neg hc, if_neg (by simp)]
      simp only [hrest]
      rw [if_neg (by simp [HasPrefix, List.isPrefixOf]),
        if_neg (by simp [HasPrefix, List.isPrefixOf]),
        if_pos (by simp +decide [HasPrefix, List.isPrefixOf, strings.ToLower])]
      rfl

end ParseShape

section StringPieces

open url url.encoding strings

set_option maxRecDepth 100000 in
theorem ctl_nat_facts : ∀ n < 128, (n < 32 ∨ n = 127) →
    Char.ofNat n ≠ '%' ∧ ishex (Char.ofNat n) = false ∧ Char.ofNat n ≠ '+' ∧
    shouldEscape (Char.ofNat n) encodeHost = true ∧
    shouldEscape (Char.ofNat n) encodeUserPassword = true ∧
    shouldEscape (Char.ofNat n) encodePath = true ∧
    validEncoded [Char.ofNat n] encodePath = false := by
  decide

/-- A control byte is never written by escaping and is refused by `validEncoded`. -/
theorem ctl_char_facts (c : Char) (h : c < ' ' ∨ c.toNat = 0x7f) :
    c ≠ '%' ∧ ishex c = false ∧ c ≠ '+' ∧ shouldEscape c encodeHost = true ∧
    shouldEscape c encodeUserPassword = true ∧ shouldEscape c encodePath = true ∧
    validEncoded [c] encodePath = false := by
  have hlt : c.toNat < 128 ∧ (c.toNat < 32 ∨ c.toNat = 127) := by
    rcases h with h | h
    · have : c.toNat < 32 := h
      exact ⟨by omega, Or.inl this⟩
    · exact ⟨by omega, Or.inr h⟩
  have := ctl_nat_facts c.toNat hlt.1 hlt.2
  rwa [Char.ofNat_toNat] at this

/-- A byte that the mode escapes, and that is not part of an escape itself, does
not occur in escaped text. -/
theorem not_mem_escape (s : Str) (m : encoding) (c : Char) (h0 : shouldEscape c m = true)
    (h1 : c ≠ '%') (h2 : ishex c = false) (h3 : c ≠ '+') : c ∉ escape s m := by
  intro hc
  have := (mem_escape_plain s m c hc h1 h2 h3).2
  rw [h0] at this
  exact Bool.noConfusion this

theorem validEncoded_cons (c : Char) (t : Str) (m : encoding) :
    validEncoded (c :: t) m = (validEncoded [c] m && validEncoded t m) := by
  unfold validEncoded
  simp [List.all_cons]

/-- A byte that `validEncoded` refuses does not occur in text it accepts. -/
theorem not_mem_validEncoded (s : Str) (m : encoding) (c : Char)
    (hc : validEncoded [c] m = false) (hs : validEncoded s m = true) : c ∉ s := by
  induction s with
  | nil => simp
  | cons x t ih =>
    rw [validEncoded_cons] at hs
    simp only [Bool.and_eq_true] at hs
    simp only [List.mem_cons, not_or]
    refine ⟨?_, ih hs.2⟩
    intro e
    rw [e, hs.1] at hc
    exact Bool.noConfusion hc

theorem takeWhile_append_slash (x e : Str) (hx : '/' ∉ x) (he : e = [] ∨ ∃ t, e = '/' :: t) :
    (x ++ e).takeWhile (· ≠ '/') = x ∧ (x ++ e).dropWhile (· ≠ '/') = e := by
  induction x with
  | nil =>
    rcases he with he | ⟨t, he⟩
    · subst he; exact ⟨rfl, rfl⟩
    · subst he; simp [List.takeWhile, List.dropWhile]
  | cons c t ih =>
    have hc : c ≠ '/' := fun e1 => hx (by simp [e1])
    obtain ⟨i1, i2⟩ := ih (fun e1 => hx (List.mem_cons_of_mem _ e1))
    have hd : decide (c ≠ '/') = true := decide_eq_true hc
    simp only [List.cons_append]
    rw [List.takeWhile_cons, List.dropWhile_cons]
    simp only [hd, if_true]
    rw [i1, i2]
    exact ⟨rfl, rfl⟩

/-- What `parse` passes to `setPath` after an authority: nothing, or text that
starts with `/`. -/
theorem dropWhile_slash (w : Str) :
    w.dropWhile (· ≠ '/') = [] ∨ ∃ t, w.dropWhile (· ≠ '/') = '/' :: t := by
  induction w with
  | nil => left; rfl
  | cons c t ih =>
    by_cases hc : c = '/'
    · right; exact ⟨t, by simp [List.dropWhile, hc]⟩
    · simp only [List.dropWhile, ne_eq, hc, not_false_eq_true, decide_True]
      exact ih

theorem mem_dropWhile (w : Str) (p : Char → Bool) (c : Char) (h : c ∈ w.dropWhile p) : c ∈ w :=
  (List.dropWhile_suffix p).subset h

theorem mem_takeWhile (w : Str) (p : Char → Bool) (c : Char) (h : c ∈ w.takeWhile p) : c ∈ w :=
  (List.takeWhile_prefix p).subset h

theorem setPath_some (u : URL) (p : Str) (h : unescapeValid encodePath p = true) :
    setPath u p = some { u with
      Path := unescapeBytes encodePath p,
      RawPath := if p = escape (unescapeBytes encodePath p) encodePath then [] else p } := by
  unfold setPath
  rw [unescape_of_valid _ _ h]

theorem setPath_inv (u q : URL) (p : Str) (h : setPath u p = some q) :
    unescapeValid encodePath p = true ∧
    q = { u with
      Path := unescapeBytes encodePath p,
      RawPath := if p = escape (unescapeBytes encodePath p) encodePath then [] else p } := by
  unfold setPath at h
  cases hu : unescape p encodePath with
  | none => simp [hu] at h
  | some path =>
    obtain ⟨hv, e⟩ := unescape_some _ _ _ hu
    simp only [hu, Option.some.injEq] at h
    rw [← h, e]
    exact ⟨hv, rfl⟩

theorem setFragment_inv (u q : URL) (f : Str) (h : setFragment u f = some q) :
    unescapeValid encodeFragment f = true ∧
    q = { u with
      Fragment := unescapeBytes encodeFragment f,
      RawFragment :=
        if f = escape (unescapeBytes encodeFragment f) encodeFragment then [] else f } := by
  unfold setFragment at h
  cases hu : unescape f encodeFragment with
  | none => simp [hu] at h
  | some frag =>
    obtain ⟨hv, e⟩ := unescape_some _ _ _ hu
    simp only [hu, Option.some.injEq] at h
    rw [← h, e]
    exact ⟨hv, rfl⟩

theorem setFragment_some (u : URL) (f : Str) (h : unescapeValid encodeFragment f = true) :
    ∃ q, setFragment u f = some q ∧ q.Host = u.Host := by
  unfold setFragment
  rw [unescape_of_valid _ _ h]
  exact ⟨_, rfl, rfl⟩

end StringPieces

section AuthorityLemmas

open url url.encoding strings

set_option maxRecDepth 100000 in
theorem ishex_isAlnum_nat : ∀ n < 128, ishex (Char.ofNat n) = true →
    isAlnum (Char.ofNat n) = true := by
  decide

theorem ishex_isAlnum (c : Char) (h : ishex c = true) : isAlnum c = true := by
  have hlt : c.toNat < 128 := by
    unfold ishex at h
    simp only [decide_eq_true_eq] at h
    have e0 : '9'.toNat = 57 := by decide
    have e1 : 'f'.toNat = 102 := by decide
    have e2 : 'F'.toNat = 70 := by decide
    rcases h with ⟨_, h⟩ | ⟨_, h⟩ | ⟨_, h⟩
    · have : c.toNat ≤ '9'.toNat := h
      omega
    · have : c.toNat ≤ 'f'.toNat := h
      omega
    · have : c.toNat ≤ 'F'.toNat := h
      omega
  have := ishex_isAlnum_nat c.toNat hlt
  rw [Char.ofNat_toNat] at this
  exact this h

/-- The bytes the user-information section leaves unescaped are bytes that
`validUserinfo` accepts. -/
theorem userinfo_plain (c : Char) (h : shouldEscape c encodeUserPassword = false) :
    (isAlnum c ||
      decide (c ∈ ['-', '.', '_', ':', '~', '!', '$', '&', Char.ofNat 39, '(', ')', '*', '+',
        ',', ';', '=', '%', '@'])) = true := by
  unfold shouldEscape at h
  by_cases h1 : isAlnum c = true
  · simp [h1]
  · rw [if_neg h1, if_neg (by simp)] at h
    by_cases h2 : c ∈ ['-', '_', '.', '~']
    · simp only [List.mem_cons, List.mem_singleton, List.not_mem_nil, or_false] at h2
      rcases h2 with rfl | rfl | rfl | rfl <;> decide
    · rw [if_neg h2, if_neg (by simp), if_neg (by simp)] at h
      by_cases h3 : c ∈ ['$', '&', '+', ',', '/', ':', ';', '=', '?', '@']
      · rw [if_pos ⟨h3, rfl⟩] at h
        simp only [List.mem_cons, List.mem_singleton, List.not_mem_nil, or_false] at h3
        rcases h3 with rfl | rfl | rfl | rfl | rfl | rfl | rfl | rfl | rfl | rfl <;>
          first
            | decide
            | exact absurd h (by decide)
      · rw [if_neg (fun hh => h3 hh.1), if_neg (by simp), if_neg (by simp),
          if_neg (by simp)] at h
        exact Bool.noConfusion h

theorem validUserinfo_escape (s : Str) :
    ∀ c ∈ escape s encodeUserPassword,
      (isAlnum c ||
        decide (c ∈ ['-', '.', '_', ':', '~', '!', '$', '&', Char.ofNat 39, '(', ')', '*', '+',
          ',', ';', '=', '%', '@'])) = true := by
  intro c hc
  rcases mem_escape s encodeUserPassword c hc with h | h | h | h
  · subst h; decide
  · simp [ishex_isAlnum c h]
  · subst h; decide
  · exact userinfo_plain c h.2

theorem validUserinfo_string (ui : Userinfo) : validUserinfo ui.String = true := by
  unfold validUserinfo Userinfo.String
  rw [List.all_eq_true]
  intro c hc
  simp only [List.mem_append] at hc
  rcases hc with hc | hc
  · exact validUserinfo_escape _ c hc
  · by_cases hp : ui.passwordSet = true
    · rw [if_pos hp] at hc
      simp only [List.mem_cons] at hc
      rcases hc with hc | hc
      · subst hc; decide
      · exact validUserinfo_escape _ c hc
    · rw [if_neg hp] at hc
      simp at hc

theorem colon_not_mem_escape_user (s : Str) : ':' ∉ escape s encodeUserPassword :=
  not_mem_escape s _ ':' (by decide) (by decide) (by decide) (by decide)

/-- The authority that `String` writes parses back to the same host. -/
theorem parseAuthority_forward (ui : Option Userinfo) (eh host : Str) (hat : '@' ∉ eh)
    (hp : parseHost eh = some host) :
    ∃ user, parseAuthority (userString ui ++ eh) = some (user, host) := by
  cases ui with
  | none =>
    refine ⟨none, ?_⟩
    unfold parseAuthority
    simp only [userString, List.nil_append]
    rw [cutLast_of_not_mem _ _ hat]
    simp only [hp]
  | some u =>
    have happ : userString (some u) ++ eh = u.String ++ '@' :: eh := by simp [userString]
    rw [happ]
    unfold parseAuthority
    rw [cutLast_append _ _ _ hat]
    simp only [hp, validUserinfo_string, Bool.not_true, Bool.false_eq_true, if_false]
    have hvU := unescapeValid_escape u.username encodeUserPassword (by decide) (by decide)
    have hvP := unescapeValid_escape u.password encodeUserPassword (by decide) (by decide)
    by_cases hset : u.passwordSet = true
    · have hstr : u.String = escape u.username encodeUserPassword ++
          ':' :: escape u.password encodeUserPassword := by
        unfold Userinfo.String; rw [if_pos hset]
      have hcont : ContainsByte u.String ':' = true := by
        unfold ContainsByte
        rw [hstr]
        simp
      rw [hcont, hstr, cut_append _ _ _ (colon_not_mem_escape_user _)]
      simp only [Bool.not_true, Bool.false_eq_true, if_false]
      rw [unescape_of_valid _ _ hvU, unescape_of_valid _ _ hvP]
      exact ⟨_, rfl⟩
    · have hstr : u.String = escape u.username encodeUserPassword := by
        unfold Userinfo.String; rw [if_neg hset]; simp
      have hcont : ContainsByte u.String ':' = false := by
        unfold ContainsByte
        rw [hstr]
        simpa using colon_not_mem_escape_user u.username
      rw [hcont, hstr]
      simp only [Bool.not_false, if_true]
      rw [unescape_of_valid _ _ hvU]
      exact ⟨_, rfl⟩

/-- The inverse reading of `parseAuthority`: the host comes from `parseHost` on
a part of the authority. -/
theorem parseAuthority_inv (a : Str) (user : Option Userinfo) (host : Str)
    (h : parseAuthority a = some (user, host)) :
    ∃ h0, parseHost h0 = some host ∧ ∀ c ∈ h0, c ∈ a := by
  unfold parseAuthority at h
  cases hc : CutLast a '@' with
  | none =>
    simp only [hc] at h
    cases hp : parseHost a with
    | none => simp [hp] at h
    | some hst =>
      simp only [hp, Option.some.injEq, Prod.mk.injEq] at h
      exact ⟨a, by rw [hp, h.2], fun c hc => hc⟩
  | some ab =>
    obtain ⟨ui, hpart⟩ := ab
    simp only [hc] at h
    obtain ⟨hs, _⟩ := cutLast_some _ _ _ _ hc
    cases hp : parseHost hpart with
    | none => simp [hp] at h
    | some hst =>
      simp only [hp] at h
      refine ⟨hpart, ?_, fun c hcm => by rw [hs]; simp [hcm]⟩
      by_cases hv : (!validUserinfo ui) = true
      · rw [if_pos hv] at h; exact Option.noConfusion h
      · rw [if_neg hv] at h
        by_cases hcol : (!ContainsByte ui ':') = true
        · rw [if_pos hcol] at h
          cases hu : unescape ui encodeUserPassword with
          | none => simp [hu] at h
          | some x =>
            simp only [hu, Option.some.injEq, Prod.mk.injEq] at h
            rw [hp, h.2]
        · rw [if_neg hcol] at h
          cases hu : unescape (Cut ui ':').1 encodeUserPassword with
          | none => simp [hu] at h
          | some x =>
            cases hu2 : unescape (Cut ui ':').2.1 encodeUserPassword with
            | none => simp [hu, hu2] at h
            | some y =>
              simp only [hu, hu2, Option.some.injEq, Prod.mk.injEq] at h
              rw [hp, h.2]

end AuthorityLemmas

section StringShape

open url url.encoding strings

/-- What `EscapedPath` returns for the path of a URL that was parsed after an
authority: nothing or text that starts with `/`, free of `?`, `#` and control
bytes, and valid for `setPath`. -/
theorem escapedPath_good (u : URL) (pth : Str) (hpth : pth = [] ∨ ∃ t, pth = '/' :: t)
    (hP : u.Path = unescapeBytes encodePath pth) (hR : u.RawPath = [] ∨ u.RawPath = pth) :
    (u.EscapedPath = [] ∨ ∃ t, u.EscapedPath = '/' :: t) ∧ '?' ∉ u.EscapedPath ∧
    '#' ∉ u.EscapedPath ∧ stringContainsCTLByte u.EscapedPath = false ∧
    unescapeValid encodePath u.EscapedPath = true := by
  unfold URL.EscapedPath
  by_cases h1 : u.RawPath ≠ [] ∧ validEncoded u.RawPath encodePath = true
      ∧ unescape u.RawPath encodePath = some u.Path
  · rw [if_pos h1]
    obtain ⟨hne, hval, hun⟩ := h1
    have hraw : u.RawPath = pth := by
      rcases hR with h | h
      · exact absurd h hne
      · exact h
    refine ⟨?_, ?_, ?_, ?_, (unescape_some _ _ _ hun).1⟩
    · rcases hpth with h | h
      · rw [hraw] at hne; exact absurd h hne
      · right; rw [hraw]; exact h
    · exact not_mem_validEncoded _ _ '?' (by decide) hval
    · exact not_mem_validEncoded _ _ '#' (by decide) hval
    · rw [ctl_false_iff]
      intro c hc hctl
      exact not_mem_validEncoded _ _ c (ctl_char_facts c hctl).2.2.2.2.2.2 hval hc
  · rw [if_neg h1]
    have hstar : u.Path ≠ ['*'] := by
      rw [hP]
      rcases hpth with h | ⟨t, h⟩
      · rw [h]; simp [unescapeBytes]
      · rw [h, unescapeBytes_plain _ _ _ (by decide), if_neg (by decide)]
        simp
    rw [if_neg hstar]
    refine ⟨?_, ?_, ?_, ?_, unescapeValid_escape _ _ (by decide) (by decide)⟩
    · rw [hP]
      rcases hpth with h | ⟨t, h⟩
      · left; rw [h]; rfl
      · right
        rw [h, unescapeBytes_plain _ _ _ (by decide), if_neg (by decide)]
        refine ⟨escape (unescapeBytes encodePath t) encodePath, ?_⟩
        conv => lhs; unfold escape
        rw [if_neg (by decide), if_neg (by decide)]
    · exact not_mem_escape _ _ '?' (by decide) (by decide) (by decide) (by decide)
    · exact not_mem_escape _ _ '#' (by decide) (by decide) (by decide) (by decide)
    · rw [ctl_false_iff]
      intro c hc hctl
      obtain ⟨c1, c2, c3, _, _, c6, _⟩ := ctl_char_facts c hctl
      exact not_mem_escape _ _ c c6 c1 c2 c3 hc

theorem escapedFragment_valid (u : URL) :
    unescapeValid encodeFragment u.EscapedFragment = true := by
  unfold URL.EscapedFragment
  by_cases h1 : u.RawFragment ≠ [] ∧ validEncoded u.RawFragment encodeFragment = true
      ∧ unescape u.RawFragment encodeFragment = some u.Fragment
  · rw [if_pos h1]
    exact (unescape_some _ _ _ h1.2.2).1
  · rw [if_neg h1]
    exact unescapeValid_escape _ _ (by decide) (by decide)

/-- The text `String` writes for a URL with a scheme, a host and no opaque part. -/
theorem string_shape (p : URL) (hS : p.Scheme ≠ []) (hO : p.Opaque = []) (hH : p.Host ≠ [])
    (hE : p.EscapedPath = [] ∨ ∃ t, p.EscapedPath = '/' :: t) :
    p.String = p.Scheme ++ ':' :: '/' :: '/' ::
      ((userString p.User ++ escape p.Host encodeHost ++ p.EscapedPath ++
        (if p.ForceQuery ∨ p.RawQuery ≠ [] then '?' :: p.RawQuery else [])) ++
        (if p.Fragment ≠ [] then '#' :: p.EscapedFragment else [])) := by
  have hauth : p.authorityString = '/' :: '/' :: (userString p.User ++ escape p.Host encodeHost) := by
    unfold URL.authorityString
    rw [if_pos (Or.inl hS), if_neg (fun h => hH h.2.1), if_pos (Or.inl hH), if_pos hH]
    rfl
  have hpath : ∀ buf : Str, buf ≠ [] → p.pathString buf = p.EscapedPath := by
    intro buf hbuf
    unfold URL.pathString
    have hno : ¬ (p.EscapedPath ≠ [] ∧ p.EscapedPath.head? ≠ some '/' ∧ p.Host ≠ []) := by
      rintro ⟨h1, h2, _⟩
      rcases hE with h | ⟨t, h⟩
      · exact h1 h
      · rw [h] at h2; exact h2 rfl
    rw [if_neg hno, if_neg (fun h => hbuf h.1)]
    rfl
  unfold URL.String
  rw [if_pos hS, if_neg (fun h => h hO), hauth, hpath _ (by simp)]
  simp only [List.append_assoc, List.cons_append, List.nil_append, List.singleton_append]

end StringShape

section Reparse

open url url.encoding strings

theorem cut_after (pre w : Str) (c : Char) (hc : c ∉ pre) :
    Cut (pre ++ w) c = (pre ++ (Cut w c).1, (Cut w c).2.1, (Cut w c).2.2) := by
  induction pre with
  | nil => rfl
  | cons x t ih =>
    have hx : x ≠ c := fun e1 => hc (by simp [e1])
    have ht : c ∉ t := fun e1 => hc (List.mem_cons_of_mem _ e1)
    have e : Cut (x :: (t ++ w)) c =
        (x :: (Cut (t ++ w) c).1, (Cut (t ++ w) c).2.1, (Cut (t ++ w) c).2.2) := by
      conv => lhs; unfold Cut
      rw [if_neg hx]
    rw [List.cons_append, e, ih ht]
    rfl

theorem cut_http (s w : Str) (c : Char) (hc : c ∉ s ++ [':', '/', '/']) :
    Cut (s ++ ':' :: '/' :: '/' :: w) c =
      (s ++ ':' :: '/' :: '/' :: (Cut w c).1, (Cut w c).2.1, (Cut w c).2.2) := by
  have e : s ++ ':' :: '/' :: '/' :: w = (s ++ [':', '/', '/']) ++ w := by simp
  rw [e, cut_after _ _ _ hc]
  simp

/-- `url.Parse` on text that starts with `http://` or `https://`. -/
theorem Parse_http_shape (s w : Str)
    (hs : s = ['h', 't', 't', 'p'] ∨ s = ['h', 't', 't', 'p', 's']) :
    Parse (s ++ ':' :: '/' :: '/' :: w) =
      match parse (s ++ ':' :: '/' :: '/' :: (Cut w '#').1) with
      | none => none
      | some u => if (Cut w '#').2.1 = [] then some u else setFragment u (Cut w '#').2.1 := by
  have hc : '#' ∉ s ++ [':', '/', '/'] := by
    rcases hs with rfl | rfl <;> decide
  simp only [Parse, cut_http s w '#' hc]

theorem userString_mem (user : Option Userinfo) (c : Char) (h : c ∈ userString user) :
    c = '@' ∨ c = ':' ∨ ∃ s, c ∈ escape s encodeUserPassword := by
  cases user with
  | none => simp [userString] at h
  | some u =>
    simp only [userString, Userinfo.String, List.mem_append, List.mem_singleton] at h
    rcases h with (h | h) | h
    · exact Or.inr (Or.inr ⟨_, h⟩)
    · by_cases hp : u.passwordSet = true
      · rw [if_pos hp] at h
        simp only [List.mem_cons] at h
        rcases h with h | h
        · exact Or.inr (Or.inl h)
        · exact Or.inr (Or.inr ⟨_, h⟩)
      · rw [if_neg hp] at h; simp at h
    · exact Or.inl h

/-- A byte that the user-information section escapes, other than `@` and `:`,
does not occur in the user information `String` writes. -/
theorem not_mem_userString (user : Option Userinfo) (c : Char)
    (h0 : shouldEscape c encodeUserPassword = true) (h1 : c ≠ '%') (h2 : ishex c = false)
    (h3 : c ≠ '+') (h4 : c ≠ '@') (h5 : c ≠ ':') : c ∉ userString user := by
  intro hc
  rcases userString_mem user c hc with h | h | ⟨s, h⟩
  · exact h4 h
  · exact h5 h
  · exact not_mem_escape s _ c h0 h1 h2 h3 h

/-- The text `String` writes for a parsed `http` or `https` URL parses again, to
the same host. -/
theorem reparse (s : Str) (hs : s = ['h', 't', 't', 'p'] ∨ s = ['h', 't', 't', 'p', 's'])
    (user : Option Userinfo) (host E Q F : Str)
    (hh : parseHost (escape host encodeHost) = some host)
    (hE1 : E = [] ∨ ∃ t, E = '/' :: t) (hE2 : '?' ∉ E) (hE3 : '#' ∉ E)
    (hE4 : stringContainsCTLByte E = false) (hE5 : unescapeValid encodePath E = true)
    (hQ1 : Q = [] ∨ ∃ q, Q = '?' :: q) (hQ2 : '#' ∉ Q) (hQ3 : stringContainsCTLByte Q = false)
    (hF : F = [] ∨ ∃ f, F = '#' :: f ∧ unescapeValid encodeFragment f = true) :
    ∃ q, Parse (s ++ ':' :: '/' :: '/' ::
        ((userString user ++ escape host encodeHost ++ E ++ Q) ++ F)) = some q ∧
      q.Host = host := by
  -- bytes that cannot occur in the authority
  have hhash_u : '#' ∉ userString user :=
    not_mem_userString user '#' (by decide) (by decide) (by decide) (by decide) (by decide)
      (by decide)
  have hq_u : '?' ∉ userString user :=
    not_mem_userString user '?' (by decide) (by decide) (by decide) (by decide) (by decide)
      (by decide)
  have hsl_u : '/' ∉ userString user :=
    not_mem_userString user '/' (by decide) (by decide) (by decide) (by decide) (by decide)
      (by decide)
  have hhash_h : '#' ∉ escape host encodeHost :=
    not_mem_escape _ _ '#' (by decide) (by decide) (by decide) (by decide)
  have hq_h : '?' ∉ escape host encodeHost :=
    not_mem_escape _ _ '?' (by decide) (by decide) (by decide) (by decide)
  have hsl_h : '/' ∉ escape host encodeHost :=
    not_mem_escape _ _ '/' (by decide) (by decide) (by decide) (by decide)
  have hat_h : '@' ∉ escape host encodeHost :=
    not_mem_escape _ _ '@' (by decide) (by decide) (by decide) (by decide)
  have hctl_u : stringContainsCTLByte (userString user) = false := by
    rw [ctl_false_iff]
    intro c hc hctl
    obtain ⟨c1, c2, c3, _, c5, _, _⟩ := ctl_char_facts c hctl
    refine not_mem_userString user c c5 c1 c2 c3 ?_ ?_ hc
    · rintro rfl; revert hctl; decide
    · rintro rfl; revert hctl; decide
  have hctl_h : stringContainsCTLByte (escape host encodeHost) = false := by
    rw [ctl_false_iff]
    intro c hc hctl
    obtain ⟨c1, c2, c3, c4, _, _, _⟩ := ctl_char_facts c hctl
    exact not_mem_escape _ _ c c4 c1 c2 c3 hc
  -- the fragment is cut off
  have hbody : '#' ∉ userString user ++ escape host encodeHost ++ E ++ Q := by
    simp only [List.mem_append, not_or]
    exact ⟨⟨⟨hhash_u, hhash_h⟩, hE3⟩, hQ2⟩
  have hcut : (Cut ((userString user ++ escape host encodeHost ++ E ++ Q) ++ F) '#').1 =
        userString user ++ escape host encodeHost ++ E ++ Q ∧
      ((Cut ((userString user ++ escape host encodeHost ++ E ++ Q) ++ F) '#').2.1 = [] ∨
        unescapeValid encodeFragment
          (Cut ((userString user ++ escape host encodeHost ++ E ++ Q) ++ F) '#').2.1 = true) := by
    rcases hF with h | ⟨f, h, hv⟩
    · rw [h, List.append_nil, cut_of_not_mem _ _ hbody]
      exact ⟨rfl, Or.inl rfl⟩
    · rw [h, cut_append _ _ _ hbody]
      exact ⟨rfl, Or.inr hv⟩
  -- the query is cut off
  have hA : '?' ∉ userString user ++ escape host encodeHost ++ E := by
    simp only [List.mem_append, not_or]
    exact ⟨⟨hq_u, hq_h⟩, hE2⟩
  have hcutq : (Cut (userString user ++ escape host encodeHost ++ E ++ Q) '?').1 =
      userString user ++ escape host encodeHost ++ E := by
    rcases hQ1 with h | ⟨q, h⟩
    · rw [h, List.append_nil, cut_of_not_mem _ _ hA]
    · rw [h, cut_append _ _ _ hA]
  -- the authority and the path
  have hsl : '/' ∉ userString user ++ escape host encodeHost := by
    simp only [List.mem_append, not_or]
    exact ⟨hsl_u, hsl_h⟩
  obtain ⟨tw, dw⟩ := takeWhile_append_slash _ E hsl hE1
  obtain ⟨user1, hauth⟩ := parseAuthority_forward user _ host hat_h hh
  have hctl : stringContainsCTLByte (userString user ++ escape host encodeHost ++ E ++ Q)
      = false := by
    rw [ctl_append, ctl_append, ctl_append, hctl_u, hctl_h, hE4, hQ3]
    rfl
  rw [Parse_http_shape s _ hs, hcut.1, parse_http_shape s _ hs, hctl, hcutq, tw, dw, hauth]
  simp only [Bool.false_eq_true, if_false]
  rw [setPath_some _ _ hE5]
  simp only
  rcases hcut.2 with h | h
  · rw [if_pos h]
    exact ⟨_, rfl, rfl⟩
  · by_cases h0 : (Cut ((userString user ++ escape host encodeHost ++ E ++ Q) ++ F) '#').2.1 = []
    · rw [if_pos h0]
      exact ⟨_, rfl, rfl⟩
    · rw [if_neg h0]
      obtain ⟨q, hq1, hq2⟩ := setFragment_some
        { Scheme := s, User := user1, Host := host,
          ForceQuery := forceQuery ('/' :: '/' ::
            (userString user ++ escape host encodeHost ++ E ++ Q)),
          RawQuery := (splitQuery ('/' :: '/' ::
            (userString user ++ escape host encodeHost ++ E ++ Q))).2,
          Path := unescapeBytes encodePath E,
          RawPath := if E = escape (unescapeBytes encodePath E) encodePath then [] else E }
        _ h
      exact ⟨q, hq1, hq2⟩

end Reparse

section ParseInversion

open url url.encoding strings

/-- What a successful `parse` of text that starts with `http://` or `https://`
tells about the URL it returns. -/
theorem parse_http_inv (s w : Str) (hs : s = ['h', 't', 't', 'p'] ∨ s = ['h', 't', 't', 'p', 's'])
    (p : URL) (hp : parse (s ++ ':' :: '/' :: '/' :: w) = some p) :
    p.Scheme = s ∧ p.Opaque = [] ∧ p.Fragment = [] ∧
    (∃ h0, parseHost h0 = some p.Host ∧ ∀ c ∈ h0, c ∈ w) ∧
    (∃ pth, (pth = [] ∨ ∃ t, pth = '/' :: t) ∧ p.Path = unescapeBytes encodePath pth ∧
      (p.RawPath = [] ∨ p.RawPath = pth)) ∧
    (∀ c ∈ p.RawQuery, c = '/' ∨ c ∈ w) ∧ stringContainsCTLByte w = false := by
  rw [parse_http_shape s w hs] at hp
  by_cases hc : stringContainsCTLByte w = true
  · rw [if_pos hc] at hp; exact Option.noConfusion hp
  · rw [if_neg hc] at hp
    have hc' : stringContainsCTLByte w = false := by
      cases h : stringContainsCTLByte w
      · rfl
      · exact absurd h hc
    cases ha : parseAuthority (((Cut w '?').1).takeWhile (· ≠ '/')) with
    | none => rw [ha] at hp; exact Option.noConfusion hp
    | some uh =>
      obtain ⟨user, host⟩ := uh
      rw [ha] at hp
      dsimp only at hp
      obtain ⟨_, e⟩ := setPath_inv _ _ _ hp
      obtain ⟨h0, hh0, hmem⟩ := parseAuthority_inv _ _ _ ha
      subst e
      refine ⟨rfl, rfl, rfl, ⟨h0, hh0, ?_⟩, ⟨_, dropWhile_slash _, rfl, ?_⟩, ?_, hc'⟩
      · intro c hcm
        exact cut_fst_mem w '?' c (mem_takeWhile _ _ c (hmem c hcm))
      · by_cases he : ((Cut w '?').1).dropWhile (· ≠ '/') =
            escape (unescapeBytes encodePath (((Cut w '?').1).dropWhile (· ≠ '/'))) encodePath
        · left; simp only; rw [if_pos he]
        · right; simp only; rw [if_neg he]
      · intro c hcm
        have := splitQuery_snd_mem _ c hcm
        simp only [List.mem_cons] at this
        rcases this with h | h | h
        · exact Or.inl h
        · exact Or.inl h
        · exact Or.inr h

/-- The same for `url.Parse`, which cuts the fragment off first. -/
theorem Parse_http_inv (s w : Str) (hs : s = ['h', 't', 't', 'p'] ∨ s = ['h', 't', 't', 'p', 's'])
    (p : URL) (hp : Parse (s ++ ':' :: '/' :: '/' :: w) = some p) :
    p.Scheme = s ∧ p.Opaque = [] ∧
    (∃ h0, parseHost h0 = some p.Host ∧ ∀ c ∈ h0, c ∈ w) ∧
    (∃ pth, (pth = [] ∨ ∃ t, pth = '/' :: t) ∧ p.Path = unescapeBytes encodePath pth ∧
      (p.RawPath = [] ∨ p.RawPath = pth)) ∧
    '#' ∉ p.RawQuery ∧ stringContainsCTLByte p.RawQuery = false := by
  rw [Parse_http_shape s w hs] at hp
  cases hp0 : parse (s ++ ':' :: '/' :: '/' :: (Cut w '#').1) with
  | none => rw [hp0] at hp; exact Option.noConfusion hp
  | some p0 =>
    rw [hp0] at hp
    dsimp only at hp
    obtain ⟨i1, i2, _, ⟨h0, i4, i4'⟩, i5, i6, i7⟩ := parse_http_inv s _ hs p0 hp0
    have hq1 : '#' ∉ p0.RawQuery := by
      intro hc
      rcases i6 '#' hc with h | h
      · exact absurd h (by decide)
      · exact cut_fst_not_mem w '#' h
    have hq2 : stringContainsCTLByte p0.RawQuery = false := by
      rw [ctl_false_iff] at i7 ⊢
      intro c hc
      rcases i6 c hc with h | h
      · rw [h]; decide
      · exact i7 c h
    have hmem : ∀ c ∈ h0, c ∈ w := fun c hc => cut_fst_mem w '#' c (i4' c hc)
    by_cases hf : (Cut w '#').2.1 = []
    · rw [if_pos hf] at hp
      simp only [Option.some.injEq] at hp
      subst hp
      exact ⟨i1, i2, ⟨h0, i4, hmem⟩, i5, hq1, hq2⟩
    · rw [if_neg hf] at hp
      obtain ⟨_, e⟩ := setFragment_inv _ _ _ hp
      subst e
      exact ⟨i1, i2, ⟨h0, i4, hmem⟩, i5, hq1, hq2⟩

/-- Text that starts with `http://` or `https://`, split at the scheme. -/
theorem hasPrefix_http (u : Str)
    (h : HasPrefix u services.httpPrefix = true ∨ HasPrefix u services.httpsPrefix = true) :
    ∃ s w, (s = ['h', 't', 't', 'p'] ∨ s = ['h', 't', 't', 'p', 's']) ∧
      u = s ++ ':' :: '/' :: '/' :: w := by
  rcases h with h | h
  · unfold HasPrefix at h
    rw [List.isPrefixOf_iff_prefix] at h
    obtain ⟨w, hw⟩ := h
    exact ⟨_, w, Or.inl rfl, hw.symm⟩
  · unfold HasPrefix at h
    rw [List.isPrefixOf_iff_prefix] at h
    obtain ⟨w, hw⟩ := h
    exact ⟨_, w, Or.inr rfl, hw.symm⟩

theorem hasPrefix_of_shape (s w : Str)
    (hs : s = ['h', 't', 't', 'p'] ∨ s = ['h', 't', 't', 'p', 's']) :
    (s = ['h', 't', 't', 'p'] ∧
      HasPrefix (s ++ ':' :: '/' :: '/' :: w) services.httpPrefix = true) ∨
    (s = ['h', 't', 't', 'p', 's'] ∧
      HasPrefix (s ++ ':' :: '/' :: '/' :: w) services.httpsPrefix = true) := by
  rcases hs with rfl | rfl
  · left; exact ⟨rfl, hasPrefix_append services.httpPrefix w⟩
  · right; exact ⟨rfl, hasPrefix_append services.httpsPrefix w⟩

theorem addScheme_keeps (u : Str)
    (h : HasPrefix u services.httpPrefix = true ∨ HasPrefix u services.httpsPrefix = true) :
    services.addScheme u = u := by
  unfold services.addScheme
  rcases h with h | h
  · rw [h]; rfl
  · rw [h]; simp

theorem addScheme_adds (u : Str) (h1 : HasPrefix u services.httpPrefix = false)
    (h2 : HasPrefix u services.httpsPrefix = false) :
    services.addScheme u = services.httpsPrefix ++ u := by
  unfold services.addScheme
  rw [h1, h2]
  rfl

/-- What `ValidateURL` returns for text that starts with `http://` or
`https://` and parses with a host: the text `String` writes, which starts
with the same scheme and `://`. -/
theorem validateURL_of_parse (u : Str) (s w : Str)
    (hs : s = ['h', 't', 't', 'p'] ∨ s = ['h', 't', 't', 'p', 's'])
    (hu : u = s ++ ':' :: '/' :: '/' :: w) (p : URL) (hp : Parse u = some p)
    (hh : p.Host ≠ []) :
    services.ValidateURL u = .ok p.String ∧
    p.String = s ++ ':' :: '/' :: '/' ::
      ((userString p.User ++ escape p.Host encodeHost ++ p.EscapedPath ++
        (if p.ForceQuery ∨ p.RawQuery ≠ [] then '?' :: p.RawQuery else [])) ++
        (if p.Fragment ≠ [] then '#' :: p.EscapedFragment else [])) := by
  have hpre : HasPrefix u services.httpPrefix = true ∨ HasPrefix u services.httpsPrefix = true := by
    rw [hu]
    rcases hasPrefix_of_shape s w hs with h | h
    · exact Or.inl h.2
    · exact Or.inr h.2
  have hp' := hp
  rw [hu] at hp'
  obtain ⟨i1, i2, _, ⟨pth, j1, j2, j3⟩, _, _⟩ := Parse_http_inv s w hs p hp'
  have hS : p.Scheme ≠ [] := by
    rw [i1]; rcases hs with rfl | rfl <;> simp
  constructor
  · unfold services.ValidateURL
    rw [addScheme_keeps u hpre, hp]
    simp only [hh, if_false, hS]
  · have := string_shape p hS i2 hh (escapedPath_good p pth j1 j2 j3).1
    rw [i1] at this
    exact this

end ParseInversion

/-! ## Claims about `ValidateURL` -/

section ValidateClaims

open url url.encoding strings services

/-- C1, as the code has it: for every text `u` that begins with `http://` or
`https://` and parses with a non-empty host (the zone of a bracketed IP-literal
host, which is the part from its first `%` on, being ASCII), `ValidateURL(u)`
succeeds and returns a string that begins with `http://` or `https://`, that
parses, and whose parsed host is non-empty and equal to `u`'s host. -/
theorem validateURL_keeps_host (u : Str) (hb : IsBytes u)
    (hpre : HasPrefix u httpPrefix = true ∨ HasPrefix u httpsPrefix = true)
    (p : URL) (hp : Parse u = some p) (hh : p.Host ≠ [])
    (hlit : HasPrefix p.Host ['['] = true →
      ∀ c ∈ p.Host.dropWhile (· ≠ '%'), c.toNat < 128) :
    ∃ r, ValidateURL u = .ok r ∧
      (HasPrefix r httpPrefix = true ∨ HasPrefix r httpsPrefix = true) ∧
      ∃ q, Parse r = some q ∧ q.Host ≠ [] ∧ q.Host = p.Host := by
  obtain ⟨s, w, hs, hu⟩ := hasPrefix_http u hpre
  obtain ⟨hval, hstr⟩ := validateURL_of_parse u s w hs hu p hp hh
  have hp' := hp
  rw [hu] at hp'
  obtain ⟨_, _, ⟨h0, hh0, hmem⟩, ⟨pth, j1, j2, j3⟩, hq1, hq2⟩ := Parse_http_inv s w hs p hp'
  have hb0 : IsBytes h0 := by
    intro c hc
    apply hb c
    rw [hu]
    exact List.mem_append_right _
      (List.mem_cons_of_mem _ (List.mem_cons_of_mem _ (List.mem_cons_of_mem _ (hmem c hc))))
  have hround := parseHost_escape h0 p.Host hb0 hh0 hlit
  obtain ⟨e1, e2, e3, e4, e5⟩ := escapedPath_good p pth j1 j2 j3
  have hQ1 : (if p.ForceQuery ∨ p.RawQuery ≠ [] then '?' :: p.RawQuery else []) = [] ∨
      ∃ q, (if p.ForceQuery ∨ p.RawQuery ≠ [] then '?' :: p.RawQuery else []) = '?' :: q := by
    by_cases h : p.ForceQuery ∨ p.RawQuery ≠ []
    · right; rw [if_pos h]; exact ⟨_, rfl⟩
    · left; rw [if_neg h]
  have hQ2 : '#' ∉ (if p.ForceQuery ∨ p.RawQuery ≠ [] then '?' :: p.RawQuery else []) := by
    by_cases h : p.ForceQuery ∨ p.RawQuery ≠ []
    · rw [if_pos h]
      simp only [List.mem_cons, not_or]
      exact ⟨by decide, hq1⟩
    · rw [if_neg h]; simp
  have hQ3 : stringContainsCTLByte
      (if p.ForceQuery ∨ p.RawQuery ≠ [] then '?' :: p.RawQuery else []) = false := by
    by_cases h : p.ForceQuery ∨ p.RawQuery ≠ []
    · rw [if_pos h, show ('?' :: p.RawQuery) = ['?'] ++ p.RawQuery from rfl, ctl_append, hq2]
      rfl
    · rw [if_neg h]; rfl
  have hF : (if p.Fragment ≠ [] then '#' :: p.EscapedFragment else []) = [] ∨
      ∃ f, (if p.Fragment ≠ [] then '#' :: p.EscapedFragment else []) = '#' :: f ∧
        unescapeValid encodeFragment f = true := by
    by_cases h : p.Fragment ≠ []
    · right; rw [if_pos h]; exact ⟨_, rfl, escapedFragment_valid p⟩
    · left; rw [if_neg h]
  obtain ⟨q, hq, hqh⟩ := reparse s hs p.User p.Host p.EscapedPath _ _ hround e1 e2 e3 e4 e5
    hQ1 hQ2 hQ3 hF
  refine ⟨p.String, hval, ?_, q, ?_, ?_, hqh⟩
  · rw [hstr]
    rcases hasPrefix_of_shape s _ hs with h | h
    · exact Or.inl h.2
    · exact Or.inr h.2
  · rw [hstr]; exact hq
  · rw [hqh]; exact hh

/-- C1, at a concrete input: `http://user:pw@example.com:8080/a b?x=1#frag`
parses with host `example.com:8080`; the validated text is
`http://user:pw@example.com:8080/a%20b?x=1#frag`, with the same host. -/
theorem validateURL_keeps_host_witness :
    IsBytes "http://user:pw@example.com:8080/a b?x=1#frag".toList ∧
    (∃ p, Parse "http://user:pw@example.com:8080/a b?x=1#frag".toList = some p ∧
      p.Host = "example.com:8080".toList) ∧
    ValidateURL "http://user:pw@example.com:8080/a b?x=1#frag".toList =
      .ok "http://user:pw@example.com:8080/a%20b?x=1#frag".toList ∧
    ∃ r, ValidateURL "http://user:pw@example.com:8080/a b?x=1#frag".toList = .ok r ∧
      (HasPrefix r httpPrefix = true ∨ HasPrefix r httpsPrefix = true) ∧
      ∃ q, Parse r = some q ∧ q.Host ≠ [] ∧ q.Host = "example.com:8080".toList :=
  ⟨by decide, ⟨_, rfl, rfl⟩, rfl,
    validateURL_keeps_host "http://user:pw@example.com:8080/a b?x=1#frag".toList (by decide)
      (Or.inl rfl)
      { Scheme := "http".toList, User := some ⟨"user".toList, "pw".toList, true⟩,
        Host := "example.com:8080".toList, Path := "/a b".toList, RawPath := "/a b".toList,
        RawQuery := "x=1".toList, Fragment := "frag".toList }
      rfl (by decide) (fun h => absurd h (by decide))⟩

/-- C1 as stated fails.  (1) `ftp://example.com` parses with scheme `ftp` and
host `example.com`, but lacks the `http://`/`https://` prefix, so `https://` is
put in front of it: the result `https://ftp://example.com` has the host `ftp:`.
(2) `http://[fe80::1%25é]/x`, with the bytes of `é` unescaped in the zone,
parses with host `[fe80::1%é]`; the result `http://[fe80::1%25%C3%A9]/x` does
not parse at all, the zone refusing the escape `%C3`. -/
theorem validateURL_host_counterexample :
    ((Parse "ftp://example.com".toList).map fun p => (p.Scheme, p.Host)) =
      some ("ftp".toList, "example.com".toList) ∧
    ValidateURL "ftp://example.com".toList = .ok "https://ftp://example.com".toList ∧
    ((Parse "https://ftp://example.com".toList).map fun p => p.Host) = some "ftp:".toList ∧
    ((Parse sample.zoneURL).map fun p => (p.Scheme, p.Host)) =
      some ("http".toList,
        "[fe80::1%".toList ++ [Char.ofNat 0xC3, Char.ofNat 0xA9] ++ "]".toList) ∧
    ValidateURL sample.zoneURL = .ok "http://[fe80::1%25%C3%A9]/x".toList ∧
    Parse "http://[fe80::1%25%C3%A9]/x".toList = none := by
  refine ⟨rfl, rfl, rfl, rfl, rfl, rfl⟩

/-- C2: for every input that begins with neither `http://` nor `https://`,
`ValidateURL` puts `https://` in front before it parses: its result (value or
error) is that of `ValidateURL("https://" ++ raw)`, and every successful result
begins with `https://`; `example.com/path` gives `https://example.com/path` and
`openai.com` gives `https://openai.com`. -/
theorem validateURL_prepends_https (raw : Str) (h1 : HasPrefix raw httpPrefix = false)
    (h2 : HasPrefix raw httpsPrefix = false) :
    addScheme raw = httpsPrefix ++ raw ∧
    ValidateURL raw = ValidateURL (httpsPrefix ++ raw) ∧
    (∀ r, ValidateURL raw = .ok r → HasPrefix r httpsPrefix = true) ∧
    ValidateURL "example.com/path".toList = .ok "https://example.com/path".toList ∧
    ValidateURL "openai.com".toList = .ok "https://openai.com".toList := by
  have ha := addScheme_adds raw h1 h2
  have ha2 : addScheme (httpsPrefix ++ raw) = httpsPrefix ++ raw :=
    addScheme_keeps _ (Or.inr (hasPrefix_append _ _))
  have heq : ValidateURL raw = ValidateURL (httpsPrefix ++ raw) := by
    unfold ValidateURL
    rw [ha, ha2]
  refine ⟨ha, heq, ?_, rfl, rfl⟩
  intro r hr
  rw [heq] at hr
  cases hp : Parse (httpsPrefix ++ raw) with
  | none =>
    unfold ValidateURL at hr
    rw [ha2, hp] at hr
    exact Except.noConfusion hr
  | some p =>
    by_cases hh : p.Host = []
    · unfold ValidateURL at hr
      rw [ha2, hp] at hr
      simp only [hh, if_true] at hr
      exact Except.noConfusion hr
    · obtain ⟨hval, hstr⟩ := validateURL_of_parse (httpsPrefix ++ raw)
        ['h', 't', 't', 'p', 's'] raw (Or.inr rfl) rfl p hp hh
      rw [hval] at hr
      have hr' : p.String = r := Except.ok.inj hr
      rw [← hr', hstr]
      exact hasPrefix_append httpsPrefix _

/-- C2, at a concrete input: `openai.com`. -/
theorem validateURL_prepends_https_witness :
    HasPrefix "openai.com".toList httpPrefix = false ∧
    HasPrefix "openai.com".toList httpsPrefix = false ∧
    addScheme "openai.com".toList = "https://openai.com".toList ∧
    ValidateURL "openai.com".toList = ValidateURL "https://openai.com".toList ∧
    (∀ r, ValidateURL "openai.com".toList = .ok r → HasPrefix r httpsPrefix = true) :=
  ⟨rfl, rfl, (validateURL_prepends_https "openai.com".toList rfl rfl).1,
    (validateURL_prepends_https "openai.com".toList rfl rfl).2.1,
    (validateURL_prepends_https "openai.com".toList rfl rfl).2.2.1⟩

/-- C3: `ValidateURL` fails exactly when the input, with `https://` put in front
where the prefix is missing, fails to parse or parses to an empty host; the
error is then one of the two invalid-URL errors and no URL is returned.  In
particular the empty string, `https://`, `http://` and `/path` are rejected. -/
theorem validateURL_fails_iff (raw : Str) :
    ((∃ e, ValidateURL raw = .error e) ↔
      (Parse (addScheme raw) = none ∨ ∃ p, Parse (addScheme raw) = some p ∧ p.Host = [])) ∧
    (∀ e, ValidateURL raw = .error e →
      e = "invalid URL provided" ∨ e = "invalid URL: missing host") ∧
    (Parse (addScheme raw) = none → ValidateURL raw = .error "invalid URL provided") ∧
    (∀ p, Parse (addScheme raw) = some p → p.Host = [] →
      ValidateURL raw = .error "invalid URL: missing host") ∧
    ValidateURL "".toList = .error "invalid URL: missing host" ∧
    ValidateURL "https://".toList = .error "invalid URL: missing host" ∧
    ValidateURL "http://".toList = .error "invalid URL: missing host" ∧
    ValidateURL "/path".toList = .error "invalid URL: missing host" := by
  have hnone : Parse (addScheme raw) = none → ValidateURL raw = .error "invalid URL provided" := by
    intro h
    unfold ValidateURL
    rw [h]
  have hempty : ∀ p, Parse (addScheme raw) = some p → p.Host = [] →
      ValidateURL raw = .error "invalid URL: missing host" := by
    intro p h hh
    unfold ValidateURL
    rw [h]
    simp only [hh, if_true]
  have hok : ∀ p, Parse (addScheme raw) = some p → p.Host ≠ [] →
      ∃ r, ValidateURL raw = .ok r := by
    intro p h hh
    unfold ValidateURL
    rw [h]
    simp only [hh, if_false]
    exact ⟨_, rfl⟩
  refine ⟨⟨?_, ?_⟩, ?_, hnone, hempty, rfl, rfl, rfl, rfl⟩
  · rintro ⟨e, he⟩
    cases hp : Parse (addScheme raw) with
    | none => exact Or.inl rfl
    | some p =>
      right
      refine ⟨p, rfl, ?_⟩
      by_contra hh
      obtain ⟨r, hr⟩ := hok p hp hh
      rw [hr] at he
      exact Except.noConfusion he
  · rintro (h | ⟨p, h, hh⟩)
    · exact ⟨_, hnone h⟩
    · exact ⟨_, hempty p h hh⟩
  · intro e he
    cases hp : Parse (addScheme raw) with
    | none =>
      rw [hnone hp] at he
      exact Or.inl (Except.error.inj he).symm
    | some p =>
      by_cases hh : p.Host = []
      · rw [hempty p hp hh] at he
        exact Or.inr (Except.error.inj he).symm
      · obtain ⟨r, hr⟩ := hok p hp hh
        rw [hr] at he
        exact Except.noConfusion he

end ValidateClaims

/-! ## Theorems: the store and the service operations -/

section StoreLemmas

open services

theorem take8_length (s : Str) (h : 8 ≤ s.length) : (s.take 8).length = 8 := by
  simp [List.length_take, h]

theorem beforeCreate_of_length (v : models.URL) (h : v.ShortCode.length = 8) :
    v.BeforeCreate = some v := by
  have ht : v.ShortCode.take 8 = v.ShortCode := List.take_of_length_le (by omega)
  simp [models.URL.BeforeCreate, models.URL.GenerateShortCode, h, ht]

theorem insert_ok (db : gorm.DB) (fault : Option String) (now : Nat) (v : models.URL)
    (h : (gorm.insert db fault now v).Error = none) :
    (gorm.insert db fault now v).value = { gorm.stamp now v with ID := gorm.rowID db v } ∧
    (∀ r ∈ db.rows, r.ShortCode ≠ v.ShortCode) ∧
    (v.ID ≠ 0 → ∀ r ∈ db.rows, r.ID ≠ v.ID) ∧
    (gorm.insert db fault now v).db =
      { rows := db.rows ++ [(gorm.insert db fault now v).value],
        seq := max db.seq (gorm.rowID db v) } := by
  cases fault with
  | some msg => simp [gorm.insert] at h
  | none =>
    unfold gorm.insert at h ⊢
    dsimp only at h ⊢
    by_cases h1 : v.ID ≠ 0 ∧ db.rows.any (fun r => decide (r.ID = v.ID)) = true
    · rw [if_pos h1] at h; simp at h
    · rw [if_neg h1] at h ⊢
      by_cases h2 : db.rows.any (fun r => decide (r.ShortCode = v.ShortCode)) = true
      · rw [if_pos h2] at h; simp at h
      · rw [if_neg h2]
        simp only [List.any_eq_true, decide_eq_true_eq, not_exists, not_and] at h2
        refine ⟨rfl, fun r hr => h2 r hr, ?_, rfl⟩
        intro hid r hr hrid
        apply h1
        refine ⟨hid, ?_⟩
        simp only [List.any_eq_true, decide_eq_true_eq]
        exact ⟨r, hr, hrid⟩

theorem insert_err (db : gorm.DB) (fault : Option String) (now : Nat) (v : models.URL)
    (e : gorm.Err) (h : (gorm.insert db fault now v).Error = some e) :
    (gorm.insert db fault now v).db = db := by
  cases fault with
  | some msg => rfl
  | none =>
    unfold gorm.insert at h ⊢
    dsimp only at h ⊢
    by_cases h1 : v.ID ≠ 0 ∧ db.rows.any (fun r => decide (r.ID = v.ID)) = true
    · rw [if_pos h1]
    · rw [if_neg h1] at h ⊢
      by_cases h2 : db.rows.any (fun r => decide (r.ShortCode = v.ShortCode)) = true
      · rw [if_pos h2]
      · rw [if_neg h2] at h; simp at h

theorem createShortURL_ok (db db1 : gorm.DB) (env : Env) (u : Str) (link : models.URL)
    (h : CreateShortURL db env u = some (db1, .ok link)) :
    ∃ v, ValidateURL u = .ok v ∧ 8 ≤ env.uuid.length ∧
      link = { ID := db.seq + 1, OriginalURL := v, ShortCode := env.uuid.take 8, Clicks := 0,
               CreatedAt := if env.now = 0 then env.dbNow else env.now,
               UpdatedAt := env.dbNow } ∧
      (∀ r ∈ db.rows, r.ShortCode ≠ link.ShortCode) ∧
      db1 = { rows := db.rows ++ [link], seq := max db.seq (db.seq + 1) } := by
  unfold CreateShortURL at h
  cases hv : ValidateURL u with
  | error e => simp [hv] at h
  | ok v =>
    simp only [hv] at h
    by_cases hlen : env.uuid.length < 8
    · simp [hlen] at h
    · have hlen8 : 8 ≤ env.uuid.length := by omega
      rw [if_neg hlen] at h
      have hbc := beforeCreate_of_length
        { OriginalURL := v, ShortCode := env.uuid.take 8, CreatedAt := env.now }
        (take8_length _ hlen8)
      simp only [gorm.Create, hbc] at h
      cases he : (gorm.insert db env.fault env.dbNow
          { OriginalURL := v, ShortCode := env.uuid.take 8, CreatedAt := env.now }).Error with
      | some e => simp [he] at h
      | none =>
        simp only [he, Option.some.injEq, Prod.mk.injEq, Except.ok.injEq] at h
        obtain ⟨hdb, hl⟩ := h
        obtain ⟨h1, h2, _, h4⟩ := insert_ok _ _ _ _ he
        rw [hl] at h1 h4
        rw [hdb] at h4
        refine ⟨v, rfl, hlen8, ?_, ?_, ?_⟩
        · rw [h1]; simp [gorm.stamp, gorm.rowID]
        · intro r hr; rw [h1]; exact h2 r hr
        · rw [h4]; simp [gorm.rowID]

theorem firstByID_singleton (r : models.URL) : gorm.firstByID [r] = some r := by
  simp [gorm.firstByID]

theorem firstByID_mem (rs : List models.URL) (m : models.URL)
    (h : gorm.firstByID rs = some m) : m ∈ rs := by
  induction rs generalizing m with
  | nil => simp [gorm.firstByID] at h
  | cons r rs ih =>
    unfold gorm.firstByID at h
    cases hf : gorm.firstByID rs with
    | none => simp [hf] at h; simp [h]
    | some m1 =>
      simp only [hf] at h
      by_cases hle : r.ID ≤ m1.ID
      · simp [hle] at h; simp [h]
      · simp [hle] at h; subst h; exact List.mem_cons_of_mem _ (ih _ hf)

theorem firstByID_none (rs : List models.URL) (h : gorm.firstByID rs = none) : rs = [] := by
  cases rs with
  | nil => rfl
  | cons r rs =>
    unfold gorm.firstByID at h
    cases hf : gorm.firstByID rs with
    | none => simp [hf] at h
    | some m1 =>
      simp only [hf] at h
      by_cases hle : r.ID ≤ m1.ID <;> simp [hle] at h

end StoreLemmas

/-! ## Claims about creation, lookup and update -/

section StoreClaims

open services

/-- C4: for every input URL and every UUID text long enough to be sliced (a
generated UUID has 36 bytes), `CreateShortURL` does not panic, and every Link it
returns, the `BeforeCreate` hook having run on the insert, has a short code of
exactly 8 bytes and a click count of 0. -/
theorem createShortURL_code_length_and_clicks (db : gorm.DB) (env : Env) (originalURL : Str)
    (huuid : 8 ≤ env.uuid.length) :
    CreateShortURL db env originalURL ≠ none ∧
    ∀ db1 link, CreateShortURL db env originalURL = some (db1, .ok link) →
      link.ShortCode.length = 8 ∧ link.Clicks = 0 := by
  constructor
  · unfold CreateShortURL
    cases hv : ValidateURL originalURL with
    | error e => simp
    | ok v =>
      have hlen : ¬ env.uuid.length < 8 := by omega
      have hbc := beforeCreate_of_length
        { OriginalURL := v, ShortCode := env.uuid.take 8, CreatedAt := env.now }
        (take8_length _ huuid)
      simp only [if_neg hlen, gorm.Create, hbc]
      cases (gorm.insert db env.fault env.dbNow
          { OriginalURL := v, ShortCode := env.uuid.take 8, CreatedAt := env.now }).Error <;> simp
  · intro db1 link h
    obtain ⟨v, _, hlen, hl, _, _⟩ := createShortURL_ok db db1 env originalURL link h
    rw [hl]
    exact ⟨take8_length _ hlen, rfl⟩

/-- C4, at a concrete input: creating `openai.com` in the empty table with a
36-byte UUID returns the stored record, whose short code has 8 bytes and whose
click count is 0. -/
theorem createShortURL_code_length_and_clicks_witness :
    8 ≤ sample.env.uuid.length ∧
    CreateShortURL {} sample.env "openai.com".toList = some (sample.db, .ok sample.link) ∧
    sample.link.ShortCode.length = 8 ∧ sample.link.Clicks = 0 :=
  ⟨by decide, rfl,
    (createShortURL_code_length_and_clicks {} sample.env "openai.com".toList (by decide)).2
      sample.db sample.link rfl⟩

/-- C5: when `CreateShortURL(u)` succeeds and returns a Link with short code `c`,
a following `GetURLByShortCode(c)` on the resulting table (its statement not
failing in the driver) succeeds and returns that Link: its `original_url` is
the value of `ValidateURL(u)` and its short code is `c`. -/
theorem create_then_getByShortCode (db db1 : gorm.DB) (env : Env) (u : Str) (link : models.URL)
    (h : CreateShortURL db env u = some (db1, .ok link)) :
    ∃ found, GetURLByShortCode db1 none link.ShortCode = .ok found ∧
      ValidateURL u = .ok found.OriginalURL ∧ found.ShortCode = link.ShortCode ∧
      found = link := by
  obtain ⟨v, hv, _, hl, hfresh, hdb⟩ := createShortURL_ok db db1 env u link h
  refine ⟨link, ?_, ?_, rfl, rfl⟩
  · have hfilter : (db1.rows.filter fun r => decide (r.ShortCode = link.ShortCode)) = [link] := by
      rw [hdb]
      simp only [List.filter_append]
      have h0 : (db.rows.filter fun r => decide (r.ShortCode = link.ShortCode)) = [] := by
        rw [List.filter_eq_nil_iff]
        intro r hr
        simpa using hfresh r hr
      rw [h0]
      simp
    simp [GetURLByShortCode, gorm.FirstByShortCode, hfilter, firstByID_singleton]
  · rw [hv, hl]

/-- C5, at a concrete input: `openai.com` created in the empty table is found
again under its short code, with `https://openai.com` as its original URL. -/
theorem create_then_getByShortCode_witness :
    CreateShortURL {} sample.env "openai.com".toList = some (sample.db, .ok sample.link) ∧
    ∃ found, GetURLByShortCode sample.db none sample.link.ShortCode = .ok found ∧
      ValidateURL "openai.com".toList = .ok found.OriginalURL ∧
      found.ShortCode = sample.link.ShortCode ∧ found = sample.link :=
  ⟨rfl, create_then_getByShortCode {} sample.db sample.env "openai.com".toList sample.link rfl⟩

/-- C10: on a record whose `ShortCode` is empty, or shorter than 8 bytes, the
slice `u.ShortCode[:8]` of `GenerateShortCode` is out of range: the call panics
instead of returning a code, and so does `BeforeCreate`; a record with a long
enough `ShortCode` gets its first 8 bytes. -/
theorem generateShortCode_panics_on_short_code :
    models.URL.GenerateShortCode {} = none ∧
    models.URL.BeforeCreate {} = none ∧
    models.URL.GenerateShortCode { ShortCode := "abc".toList } = none ∧
    models.URL.BeforeCreate { ShortCode := "abc".toList } = none ∧
    models.URL.GenerateShortCode { ShortCode := sample.uuid } = some "123e4567".toList := by
  decide

/-- C8: a failure of the store in `create` or `update` is answered with 400, not
500.  `POST /api/urls` for `a.com` when the generated short code is already
taken (the unique index rejects the insert), and `PUT /api/urls/123e4567` when
the driver fails the save, both respond 400 with the store's message, while
`DELETE` answers the same driver failure with 500. -/
theorem store_failure_in_create_and_update_gives_400 :
    handlers.createShortURL sample.db sample.env "localhost:8080".toList (some "a.com".toList) =
      some (sample.db, .JSON 400 (.error "UNIQUE constraint failed: urls.short_code")) ∧
    handlers.updateURL sample.db none sample.envFault "123e4567".toList (some "a.com".toList) =
      some (sample.db, .JSON 400 (.error "database is locked")) ∧
    handlers.deleteURL sample.db none sample.envFault "123e4567".toList =
      (sample.db, some (.JSON 500 (.error "Failed to delete URL"))) := by
  refine ⟨rfl, rfl, rfl⟩

end StoreClaims

/-! ## The schema constraints hold in every reachable table -/

section ValidLemmas

open services

theorem valid_empty : gorm.DB.Valid {} := by
  constructor
  · intro r hr; simp at hr
  · exact List.Pairwise.nil

theorem valid_insert (db : gorm.DB) (fault : Option String) (now : Nat) (v : models.URL)
    (hv : db.Valid) : (gorm.insert db fault now v).db.Valid := by
  cases he : (gorm.insert db fault now v).Error with
  | some e => rw [insert_err db fault now v e he]; exact hv
  | none =>
    obtain ⟨h1, h2, h3, h4⟩ := insert_ok db fault now v he
    rw [h4, h1]
    obtain ⟨hids, hpw⟩ := hv
    have hne : gorm.rowID db v ≠ 0 := by
      unfold gorm.rowID; split_ifs with h0
      · omega
      · exact h0
    have hfresh : ∀ r ∈ db.rows, r.ID ≠ gorm.rowID db v := by
      intro r hr
      unfold gorm.rowID; split_ifs with h0
      · have := (hids r hr).2; omega
      · exact h3 h0 r hr
    constructor
    · intro r hr
      simp only [List.mem_append, List.mem_singleton] at hr
      rcases hr with hr | hr
      · exact ⟨(hids r hr).1, le_trans (hids r hr).2 (le_max_left _ _)⟩
      · subst hr; exact ⟨hne, le_max_right _ _⟩
    · rw [List.pairwise_append]
      refine ⟨hpw, List.pairwise_singleton _ _, ?_⟩
      intro a ha b hb
      simp only [List.mem_singleton] at hb
      subst hb
      exact ⟨hfresh a ha, by simpa [gorm.stamp] using h2 a ha⟩

theorem valid_create (db : gorm.DB) (fault : Option String) (now : Nat) (v : models.URL)
    (r : gorm.Result) (hv : db.Valid) (h : gorm.Create db fault now v = some r) : r.db.Valid := by
  unfold gorm.Create at h
  cases hb : v.BeforeCreate with
  | none => simp [hb] at h
  | some v1 =>
    simp only [hb, Option.some.injEq] at h
    rw [← h]
    exact valid_insert db fault now v1 hv

theorem valid_save (db : gorm.DB) (fault : Option String) (now : Nat) (v : models.URL)
    (r : gorm.Result) (hv : db.Valid) (h : gorm.Save db fault now v = some r) : r.db.Valid := by
  unfold gorm.Save at h
  by_cases hid : v.ID = 0
  · rw [if_pos hid] at h
    exact valid_create db fault now v r hv h
  · rw [if_neg hid] at h
    cases fault with
    | some msg =>
      simp only [Option.some.injEq] at h
      rw [← h]; exact hv
    | none =>
      dsimp only at h
      by_cases h1 : db.rows.any (fun r => decide (r.ID ≠ v.ID ∧ r.ShortCode = v.ShortCode)) = true
      · rw [if_pos h1] at h
        simp only [Option.some.injEq] at h
        rw [← h]; exact hv
      · rw [if_neg h1] at h
        simp only [List.any_eq_true, decide_eq_true_eq, not_exists, not_and] at h1
        obtain ⟨hids, hpw⟩ := hv
        by_cases h2 : db.rows.any (fun r => decide (r.ID = v.ID)) = true
        · rw [if_pos h2] at h
          simp only [Option.some.injEq] at h
          rw [← h]
          simp only [List.any_eq_true, decide_eq_true_eq] at h2
          obtain ⟨r0, hr0, hr0id⟩ := h2
          constructor
          · intro x hx
            simp only [List.mem_map] at hx
            obtain ⟨y, hy, hyx⟩ := hx
            by_cases hyid : y.ID = v.ID
            · simp only [hyid, if_true] at hyx
              rw [← hyx]
              exact ⟨hid, by rw [← hr0id]; exact (hids r0 hr0).2⟩
            · simp only [hyid, if_false] at hyx
              rw [← hyx]; exact hids y hy
          · rw [List.pairwise_map]
            refine (List.Pairwise.and_mem.1 hpw).imp ?_
            intro a b hab
            obtain ⟨ha, hb, hne, hcode⟩ := hab
            by_cases haid : a.ID = v.ID
            · have hbid : b.ID ≠ v.ID := fun hb2 => hne (haid.trans hb2.symm)
              simp only [haid, hbid, if_true, if_false]
              exact ⟨fun h3 => hbid h3.symm, fun h3 => h1 b hb hbid h3.symm⟩
            · by_cases hbid : b.ID = v.ID
              · simp only [haid, hbid, if_true, if_false]
                exact ⟨haid, fun h3 => h1 a ha haid h3⟩
              · simp only [haid, hbid, if_false]
                exact ⟨hne, hcode⟩
        · rw [if_neg h2] at h
          simp only [Option.some.injEq] at h
          rw [← h]
          simp only [List.any_eq_true, decide_eq_true_eq, not_exists, not_and] at h2
          constructor
          · intro x hx
            simp only [List.mem_append, List.mem_singleton] at hx
            rcases hx with hx | hx
            · exact ⟨(hids x hx).1, le_trans (hids x hx).2 (le_max_left _ _)⟩
            · subst hx; exact ⟨hid, le_max_right _ _⟩
          · rw [List.pairwise_append]
            refine ⟨hpw, List.pairwise_singleton _ _, ?_⟩
            intro a ha b hb
            simp only [List.mem_singleton] at hb
            subst hb
            exact ⟨h2 a ha, fun h3 => h1 a ha (h2 a ha) h3⟩

theorem valid_delete (db : gorm.DB) (fault : Option String) (v : models.URL)
    (hv : db.Valid) : (gorm.Delete db fault v).db.Valid := by
  unfold gorm.Delete
  by_cases hid : v.ID = 0
  · rw [if_pos hid]; exact hv
  · rw [if_neg hid]
    cases fault with
    | some msg => exact hv
    | none =>
      obtain ⟨hids, hpw⟩ := hv
      constructor
      · intro r hr
        exact hids r (List.mem_of_mem_filter hr)
      · exact hpw.sublist (List.filter_sublist _)

theorem valid_run (db db1 : gorm.DB) (op : Op) (hv : db.Valid) (h : op.run db = some db1) :
    db1.Valid := by
  cases op with
  | create env originalURL =>
    simp only [Op.run, Option.map_eq_some'] at h
    obtain ⟨⟨d, res⟩, hc, hd⟩ := h
    simp only at hd
    subst hd
    unfold CreateShortURL at hc
    cases hval : ValidateURL originalURL with
    | error e => simp only [hval, Option.some.injEq, Prod.mk.injEq] at hc; rw [← hc.1]; exact hv
    | ok v =>
      simp only [hval] at hc
      by_cases hlen : env.uuid.length < 8
      · simp [hlen] at hc
      · rw [if_neg hlen] at hc
        cases hcr : gorm.Create db env.fault env.dbNow
            { OriginalURL := v, ShortCode := env.uuid.take 8, CreatedAt := env.now } with
        | none => simp [hcr] at hc
        | some r =>
          have hrv := valid_create _ _ _ _ r hv hcr
          simp only [hcr] at hc
          cases hre : r.Error with
          | none => simp only [hre, Option.some.injEq, Prod.mk.injEq] at hc; rw [← hc.1]; exact hrv
          | some e =>
            simp only [hre, Option.some.injEq, Prod.mk.injEq] at hc; rw [← hc.1]; exact hrv
  | update env u newURL =>
    simp only [Op.run, Option.map_eq_some'] at h
    obtain ⟨res, hc, hd⟩ := h
    subst hd
    unfold UpdateURL at hc
    cases hval : ValidateURL newURL with
    | error e => simp only [hval, Option.some.injEq] at hc; rw [← hc]; exact hv
    | ok v =>
      simp only [hval] at hc
      cases hs : gorm.Save db env.fault env.dbNow { u with OriginalURL := v } with
      | none => simp [hs] at hc
      | some r =>
        simp only [hs, Option.some.injEq] at hc
        rw [← hc]
        exact valid_save _ _ _ _ r hv hs
  | increment env u =>
    simp only [Op.run, Option.map_eq_some'] at h
    obtain ⟨res, hc, hd⟩ := h
    subst hd
    unfold IncrementClicks at hc
    cases hs : gorm.Save db env.fault env.dbNow { u with Clicks := wrapInt (u.Clicks + 1) } with
    | none => simp [hs] at hc
    | some r =>
      simp only [hs, Option.some.injEq] at hc
      rw [← hc]
      exact valid_save _ _ _ _ r hv hs
  | delete env u =>
    simp only [Op.run, Option.some.injEq] at h
    rw [← h]
    exact valid_delete db env.fault u hv

theorem reachable_valid (db : gorm.DB) (h : Reachable db) : db.Valid := by
  induction h with
  | empty => exact valid_empty
  | step db db1 op _ hrun ih => exact valid_run db db1 op ih hrun

/-- A `Save` of a record stored in a valid table, with the driver not failing:
the row with its id is replaced and nothing else changes. -/
theorem save_stored (db : gorm.DB) (now : Nat) (u v : models.URL) (hv : db.Valid)
    (hu : u ∈ db.rows) (hid : v.ID = u.ID) (hcode : v.ShortCode = u.ShortCode) :
    gorm.Save db none now v =
      some ⟨{ db with rows := db.rows.map fun r =>
                if r.ID = v.ID then { v with UpdatedAt := now } else r },
            { v with UpdatedAt := now }, none⟩ := by
  obtain ⟨hids, hpw⟩ := hv
  have hne : v.ID ≠ 0 := by rw [hid]; exact (hids u hu).1
  unfold gorm.Save
  rw [if_neg hne]
  dsimp only
  have h1 : ¬ (db.rows.any (fun r => decide (r.ID ≠ v.ID ∧ r.ShortCode = v.ShortCode)) = true) := by
    simp only [List.any_eq_true, decide_eq_true_eq, not_exists, not_and]
    intro r hr hrid hrcode
    rw [hid] at hrid
    rw [hcode] at hrcode
    have hru : r ≠ u := fun h => hrid (by rw [h])
    have := List.Pairwise.forall (R := fun a b : models.URL => a.ID ≠ b.ID ∧ a.ShortCode ≠ b.ShortCode)
      (fun a b hab => ⟨fun h => hab.1 h.symm, fun h => hab.2 h.symm⟩) hpw hr hu hru
    exact this.2 hrcode
  have h2 : db.rows.any (fun r => decide (r.ID = v.ID)) = true := by
    simp only [List.any_eq_true, decide_eq_true_eq]
    exact ⟨u, hu, hid.symm⟩
  rw [if_neg h1, if_pos h2]

end ValidLemmas

/-! ## The redirect target -/

section RedirectLemmas

open strings url services

/-- Fuel at least the length of the text left is enough for the loop of
`Clean`: more fuel gives the same result. -/
theorem cleanLoop_fuel (rooted : Bool) (f1 : Nat) :
    ∀ (f2 : Nat) (rest out : Str) (dotdot : Nat), rest.length ≤ f1 → rest.length ≤ f2 →
      path.cleanLoop rooted f1 rest out dotdot = path.cleanLoop rooted f2 rest out dotdot := by
  induction f1 with
  | zero =>
    intro f2 rest out dotdot h1 _
    have hr : rest = [] := List.length_eq_zero.mp (Nat.le_zero.mp h1)
    subst hr
    cases f2 <;> simp [path.cleanLoop]
  | succ f ih =>
    intro f2 rest out dotdot h1 h2
    cases f2 with
    | zero =>
      have hr : rest = [] := List.length_eq_zero.mp (Nat.le_zero.mp h2)
      subst hr
      simp [path.cleanLoop]
    | succ g =>
      cases rest with
      | nil => simp [path.cleanLoop]
      | cons c t =>
        have ht : t.length ≤ f := by simpa using h1
        have hg : t.length ≤ g := by simpa using h2
        have htt : t.tail.length ≤ f := by
          rw [List.length_tail]; omega
        have hgt : t.tail.length ≤ g := by
          rw [List.length_tail]; omega
        have hd : (t.dropWhile (· ≠ '/')).length ≤ t.length :=
          (List.dropWhile_sublist _).length_le
        simp only [path.cleanLoop]
        split_ifs
        all_goals first
          | exact ih g _ _ _ ht hg
          | exact ih g _ _ _ htt hgt
          | exact ih g _ _ _ (le_trans hd ht) (le_trans hd hg)

/-- Every URL `ValidateURL` returns begins with `http://` or `https://`. -/
theorem validateURL_ok_prefix (raw v : Str) (h : ValidateURL raw = .ok v) :
    HasPrefix v httpPrefix = true ∨ HasPrefix v httpsPrefix = true := by
  have hpre : HasPrefix (addScheme raw) httpPrefix = true ∨
      HasPrefix (addScheme raw) httpsPrefix = true := by
    cases h1 : HasPrefix raw httpPrefix with
    | true => rw [addScheme_keeps raw (Or.inl h1)]; exact Or.inl h1
    | false =>
      cases h2 : HasPrefix raw httpsPrefix with
      | true => rw [addScheme_keeps raw (Or.inr h2)]; exact Or.inr h2
      | false => rw [addScheme_adds raw h1 h2]; exact Or.inr (hasPrefix_append _ _)
  have heq : ValidateURL raw = ValidateURL (addScheme raw) := by
    unfold ValidateURL
    rw [addScheme_keeps (addScheme raw) hpre]
  rw [heq] at h
  obtain ⟨s, w, hs, e⟩ := hasPrefix_http (addScheme raw) hpre
  cases hp : Parse (addScheme raw) with
  | none =>
    unfold ValidateURL at h
    rw [addScheme_keeps (addScheme raw) hpre, hp] at h
    exact Except.noConfusion h
  | some p =>
    by_cases hh : p.Host = []
    · unfold ValidateURL at h
      rw [addScheme_keeps (addScheme raw) hpre, hp] at h
      simp only [hh, if_true] at h
      exact Except.noConfusion h
    · obtain ⟨hval, hstr⟩ := validateURL_of_parse (addScheme raw) s w hs e p hp hh
      rw [hval] at h
      have hv : p.String = v := Except.ok.inj h
      rw [← hv, hstr]
      rcases hasPrefix_of_shape s _ hs with h3 | h3
      · exact Or.inl h3.2
      · exact Or.inr h3.2

end RedirectLemmas

/-! ## Claims about the click counter and the redirect -/

section ClickClaims

open services

theorem valid_id_inj (db : gorm.DB) (hv : db.Valid) (a b : models.URL) (ha : a ∈ db.rows)
    (hb : b ∈ db.rows) (hid : a.ID = b.ID) : a = b := by
  by_contra hne
  have := List.Pairwise.forall (R := fun a b : models.URL => a.ID ≠ b.ID ∧ a.ShortCode ≠ b.ShortCode)
    (fun a b hab => ⟨fun h => hab.1 h.symm, fun h => hab.2 h.symm⟩) hv.2 ha hb hne
  exact this.1 hid

theorem valid_code_inj (db : gorm.DB) (hv : db.Valid) (a b : models.URL) (ha : a ∈ db.rows)
    (hb : b ∈ db.rows) (hcode : a.ShortCode = b.ShortCode) : a = b := by
  by_contra hne
  have := List.Pairwise.forall (R := fun a b : models.URL => a.ID ≠ b.ID ∧ a.ShortCode ≠ b.ShortCode)
    (fun a b hab => ⟨fun h => hab.1 h.symm, fun h => hab.2 h.symm⟩) hv.2 ha hb hne
  exact this.2 hcode

theorem wrapInt_succ (c : Int) (h1 : minInt ≤ c) (h2 : c < maxInt) : wrapInt (c + 1) = c + 1 := by
  unfold wrapInt
  unfold minInt at h1
  unfold maxInt at h2
  rw [Int.emod_eq_of_lt (by omega) (by omega)]
  omega

/-- The lookup of a stored record's short code in a valid table finds that record. -/
theorem lookup_stored (db : gorm.DB) (hv : db.Valid) (u : models.URL) (hu : u ∈ db.rows) :
    GetURLByShortCode db none u.ShortCode = .ok u := by
  unfold GetURLByShortCode gorm.FirstByShortCode
  dsimp only
  cases hf : gorm.firstByID (db.rows.filter fun r => decide (r.ShortCode = u.ShortCode)) with
  | none =>
    have := firstByID_none _ hf
    have hmem : u ∈ db.rows.filter fun r => decide (r.ShortCode = u.ShortCode) := by
      simp [List.mem_filter, hu]
    rw [this] at hmem
    simp at hmem
  | some m =>
    have hm := firstByID_mem _ _ hf
    simp only [List.mem_filter, decide_eq_true_eq] at hm
    rw [valid_code_inj db hv m u hm.1 hu hm.2]

/-- A redirect through a stored record whose count is below the largest `int`,
the driver not failing: the row is replaced by the record with its count raised
by 1, and the response is the redirect `http.Redirect` makes of its URL. -/
theorem redirect_found (db : gorm.DB) (env : Env) (u : models.URL) (hv : db.Valid)
    (hu : u ∈ db.rows) (hf : env.fault = none) (h1 : minInt ≤ u.Clicks)
    (h2 : u.Clicks < maxInt) :
    handlers.redirectToURL db none env u.ShortCode =
      some ({ db with rows := db.rows.map fun r =>
                if r.ID = u.ID then { u with Clicks := u.Clicks + 1, UpdatedAt := env.dbNow }
                else r },
            .Redirect 302 (http.Redirect ('/' :: u.ShortCode) u.OriginalURL)) := by
  have hlook := lookup_stored db hv u hu
  unfold handlers.redirectToURL IncrementClicks
  rw [hlook]
  dsimp only
  rw [hf, save_stored db env.dbNow u { u with Clicks := wrapInt (u.Clicks + 1) } hv hu rfl rfl,
    wrapInt_succ _ h1 h2]
  rfl

end ClickClaims

section MonotoneClicks

open services

/-- A `Save` of a record with a non-zero id that the driver fails leaves the
table as it was. -/
theorem save_fault (db : gorm.DB) (msg : String) (now : Nat) (v : models.URL) (hid : v.ID ≠ 0) :
    gorm.Save db (some msg) now v = some ⟨db, { v with UpdatedAt := now }, some (.driver msg)⟩ := by
  unfold gorm.Save
  rw [if_neg hid]

/-- The table after a `Save` of a stored record under its own id and short code:
unchanged, or the row with that id replaced. -/
theorem save_stored_rows (db : gorm.DB) (fault : Option String) (now : Nat) (u v : models.URL)
    (r : gorm.Result) (hv : db.Valid) (hu : u ∈ db.rows) (hid : v.ID = u.ID)
    (hcode : v.ShortCode = u.ShortCode) (h : gorm.Save db fault now v = some r) :
    r.db = db ∨
    r.db.rows = db.rows.map fun x => if x.ID = v.ID then { v with UpdatedAt := now } else x := by
  cases fault with
  | some msg =>
    have hne : v.ID ≠ 0 := by rw [hid]; exact (hv.1 u hu).1
    rw [save_fault db msg now v hne] at h
    simp only [Option.some.injEq] at h
    left; rw [← h]
  | none =>
    rw [save_stored db now u v hv hu hid hcode] at h
    simp only [Option.some.injEq] at h
    right; rw [← h]

/-- What `CreateShortURL` does to the table: nothing, or one new row with a
fresh id and a click count of 0 at the end. -/
theorem createShortURL_rows (db db1 : gorm.DB) (env : Env) (originalURL : Str)
    (res : Except Error models.URL)
    (h : CreateShortURL db env originalURL = some (db1, res)) :
    db1 = db ∨ ∃ link, db1.rows = db.rows ++ [link] ∧ link.Clicks = 0 ∧ link.ID = db.seq + 1 := by
  cases res with
  | ok link =>
    obtain ⟨v, _, _, hl, _, hdb⟩ := createShortURL_ok db db1 env originalURL link h
    right
    refine ⟨link, by rw [hdb], by rw [hl], by rw [hl]⟩
  | error e =>
    left
    unfold CreateShortURL at h
    cases hval : ValidateURL originalURL with
    | error e1 => simp only [hval, Option.some.injEq, Prod.mk.injEq] at h; exact h.1.symm
    | ok v =>
      simp only [hval] at h
      by_cases hlen : env.uuid.length < 8
      · simp [hlen] at h
      · rw [if_neg hlen] at h
        cases hb : models.URL.BeforeCreate
            { OriginalURL := v, ShortCode := env.uuid.take 8, CreatedAt := env.now } with
        | none => simp [gorm.Create, hb] at h
        | some v1 =>
          simp only [gorm.Create, hb] at h
          cases he : (gorm.insert db env.fault env.dbNow v1).Error with
          | none => simp [he] at h
          | some e2 =>
            simp only [he, Option.some.injEq, Prod.mk.injEq] at h
            rw [← h.1]
            exact insert_err _ _ _ _ e2 he

/-- C9, as the code has it: in every table the service can reach, for every
operation whose Link argument (if it has one) is a record of the table as
stored, and, for `IncrementClicks`, whose click count is a Go `int` below the
largest one: every record present before and after has a click count at least
as large as before, and every record that is new has a click count of 0. -/
theorem clicks_never_decrease (db db1 : gorm.DB) (op : Op) (hreach : Reachable db)
    (hlink : ∀ u, op.link = some u → u ∈ db.rows)
    (hinc : ∀ env u, op = .increment env u → minInt ≤ u.Clicks ∧ u.Clicks < maxInt)
    (hrun : op.run db = some db1) :
    (∀ r ∈ db.rows, ∀ r1 ∈ db1.rows, r1.ID = r.ID → r.Clicks ≤ r1.Clicks) ∧
    (∀ r1 ∈ db1.rows, (∀ r ∈ db.rows, r.ID ≠ r1.ID) → r1.Clicks = 0) := by
  have hv := reachable_valid db hreach
  -- the two shapes of the resulting table
  have key : db1 = db ∨
      (∃ link, db1.rows = db.rows ++ [link] ∧ link.Clicks = 0 ∧ link.ID = db.seq + 1) ∨
      (∃ u v : models.URL, u ∈ db.rows ∧ v.ID = u.ID ∧ u.Clicks ≤ v.Clicks ∧
        db1.rows = db.rows.map fun x => if x.ID = v.ID then v else x) ∨
      (∃ p : models.URL → Bool, db1.rows = db.rows.filter p) := by
    cases op with
    | create env originalURL =>
      simp only [Op.run, Option.map_eq_some'] at hrun
      obtain ⟨⟨d, res⟩, hc, hd⟩ := hrun
      simp only at hd
      subst hd
      rcases createShortURL_rows db d env originalURL res hc with h | h
      · exact Or.inl h
      · exact Or.inr (Or.inl h)
    | update env u newURL =>
      have hu := hlink u rfl
      simp only [Op.run, Option.map_eq_some'] at hrun
      obtain ⟨res, hc, hd⟩ := hrun
      subst hd
      unfold UpdateURL at hc
      cases hval : ValidateURL newURL with
      | error e => simp only [hval, Option.some.injEq] at hc; left; rw [← hc]
      | ok v =>
        simp only [hval] at hc
        cases hs : gorm.Save db env.fault env.dbNow { u with OriginalURL := v } with
        | none => simp [hs] at hc
        | some r =>
          simp only [hs, Option.some.injEq] at hc
          rw [← hc]
          rcases save_stored_rows db env.fault env.dbNow u { u with OriginalURL := v } r hv hu
            rfl rfl hs with h | h
          · exact Or.inl h
          · exact Or.inr (Or.inr (Or.inl
              ⟨u, { u with OriginalURL := v, UpdatedAt := env.dbNow }, hu, rfl, le_refl _, h⟩))
    | increment env u =>
      have hu := hlink u rfl
      obtain ⟨h1, h2⟩ := hinc env u rfl
      simp only [Op.run, Option.map_eq_some'] at hrun
      obtain ⟨res, hc, hd⟩ := hrun
      subst hd
      unfold IncrementClicks at hc
      cases hs : gorm.Save db env.fault env.dbNow { u with Clicks := wrapInt (u.Clicks + 1) } with
      | none => simp [hs] at hc
      | some r =>
        simp only [hs, Option.some.injEq] at hc
        rw [← hc]
        rcases save_stored_rows db env.fault env.dbNow u
          { u with Clicks := wrapInt (u.Clicks + 1) } r hv hu rfl rfl hs with h | h
        · exact Or.inl h
        · refine Or.inr (Or.inr (Or.inl
            ⟨u, { u with Clicks := wrapInt (u.Clicks + 1), UpdatedAt := env.dbNow }, hu, rfl, ?_, h⟩))
          show u.Clicks ≤ wrapInt (u.Clicks + 1)
          rw [wrapInt_succ _ h1 h2]
          omega
    | delete env u =>
      simp only [Op.run, Option.some.injEq] at hrun
      rw [← hrun]
      unfold DeleteURL gorm.Delete
      by_cases hid : u.ID = 0
      · left; simp [hid]
      · cases hf : env.fault with
        | some msg => left; simp [hid]
        | none =>
          right; right; right
          exact ⟨fun r => decide (r.ID ≠ u.ID), by simp [hid]⟩
  rcases key with h | ⟨link, hrows, hc0, hlid⟩ | ⟨u, v, hu, hvid, hle, hrows⟩ | ⟨p, hrows⟩
  · subst h
    constructor
    · intro r hr r1 hr1 hid
      rw [valid_id_inj db1 hv r1 r hr1 hr hid]
    · intro r1 hr1 hnew
      exact absurd rfl (hnew r1 hr1)
  · constructor
    · intro r hr r1 hr1 hid
      rw [hrows] at hr1
      simp only [List.mem_append, List.mem_singleton] at hr1
      rcases hr1 with hr1 | hr1
      · rw [valid_id_inj db hv r1 r hr1 hr hid]
      · subst hr1
        have := (hv.1 r hr).2
        omega
    · intro r1 hr1 hnew
      rw [hrows] at hr1
      simp only [List.mem_append, List.mem_singleton] at hr1
      rcases hr1 with hr1 | hr1
      · exact absurd rfl (hnew r1 hr1)
      · subst hr1; exact hc0
  · constructor
    · intro r hr r1 hr1 hid
      rw [hrows] at hr1
      simp only [List.mem_map] at hr1
      obtain ⟨y, hy, hyr⟩ := hr1
      by_cases hyid : y.ID = v.ID
      · simp only [hyid, if_true] at hyr
        subst hyr
        have : r = u := valid_id_inj db hv r u hr hu (by rw [← hid, hvid])
        rw [this]; exact hle
      · simp only [hyid, if_false] at hyr
        subst hyr
        rw [valid_id_inj db hv y r hy hr hid]
    · intro r1 hr1 hnew
      rw [hrows] at hr1
      simp only [List.mem_map] at hr1
      obtain ⟨y, hy, hyr⟩ := hr1
      by_cases hyid : y.ID = v.ID
      · simp only [hyid, if_true] at hyr
        subst hyr
        exact absurd hvid.symm (hnew u hu)
      · simp only [hyid, if_false] at hyr
        subst hyr
        exact absurd rfl (hnew y hy)
  · constructor
    · intro r hr r1 hr1 hid
      rw [hrows] at hr1
      rw [valid_id_inj db hv r1 r (List.mem_of_mem_filter hr1) hr hid]
    · intro r1 hr1 hnew
      rw [hrows] at hr1
      exact absurd rfl (hnew r1 (List.mem_of_mem_filter hr1))

/-- The sample table is reached by creating `openai.com` in the empty table. -/
theorem sample_db_reachable : Reachable sample.db :=
  Reachable.step {} sample.db (.create sample.env "openai.com".toList) Reachable.empty rfl

/-- C9, at a concrete input: one `IncrementClicks` on the stored record of the
sample table; its count goes from 0 to 1. -/
theorem clicks_never_decrease_witness :
    Reachable sample.db ∧
    (Op.increment sample.env sample.link).run sample.db = some sample.dbClicked ∧
    (∀ r ∈ sample.db.rows, ∀ r1 ∈ sample.dbClicked.rows, r1.ID = r.ID → r.Clicks ≤ r1.Clicks) ∧
    (∀ r1 ∈ sample.dbClicked.rows, (∀ r ∈ sample.db.rows, r.ID ≠ r1.ID) → r1.Clicks = 0) :=
  ⟨sample_db_reachable, rfl,
    clicks_never_decrease sample.db sample.dbClicked (.increment sample.env sample.link)
      sample_db_reachable
      (fun u hu => by
        simp only [Op.link, Option.some.injEq] at hu
        subst hu
        simp [sample.db])
      (fun env u h => by
        simp only [Op.increment.injEq] at h
        rw [← h.2]
        decide)
      rfl⟩

/-- C9 as stated fails.  (1) With a stale Link argument: the sample table after
one redirect is reachable and stores a count of 1; `UpdateURL` called with the
copy of the Link that `CreateShortURL` returned (count 0) saves every column, so
the stored count drops to 0.  (2) At the largest `int`: the table whose record
stores 9223372036854775807 is reachable, and `IncrementClicks` on that record
leaves -9223372036854775808. -/
theorem clicks_decrease_counterexample :
    (Reachable sample.dbClicked ∧
      (Op.update sample.env sample.link "openai.com".toList).run sample.dbClicked
        = some sample.db ∧
      sample.dbClicked.rows = [{ sample.link with Clicks := 1 }] ∧
      sample.db.rows = [{ sample.link with Clicks := 0 }]) ∧
    (Reachable sample.dbFull ∧
      (Op.increment sample.env { sample.link with Clicks := 9223372036854775807 }).run
          sample.dbFull
        = some { rows := [{ sample.link with Clicks := -9223372036854775808 }], seq := 1 } ∧
      sample.dbFull.rows = [{ sample.link with Clicks := 9223372036854775807 }]) := by
  refine ⟨⟨?_, rfl, rfl, rfl⟩, ⟨?_, rfl, rfl⟩⟩
  · exact Reachable.step sample.db sample.dbClicked (.increment sample.env sample.link)
      sample_db_reachable rfl
  · exact Reachable.step sample.db sample.dbFull
      (.increment sample.env { sample.link with Clicks := 9223372036854775806 })
      sample_db_reachable rfl

end MonotoneClicks

/-! ## Claims about `UpdateURL` -/

section UpdateClaims

open services

/-- The sample table meets its schema. -/
theorem sample_db_valid : sample.db.Valid :=
  reachable_valid sample.db sample_db_reachable

/-- C6, as the code has it: in a table that meets its schema, for every Link
that is a row of the table as stored and every `newURL`: when
`ValidateURL(newURL)` succeeds with `v`, `UpdateURL` returns; the Link's
`original_url` is `v` and its short code, id, clicks and `created_at` are
unchanged; when the driver does not fail the save, `UpdateURL` returns no error
and the table afterwards is the table before with the Link's row replaced by
the returned record, every other row and the `AUTOINCREMENT` counter as before,
so that the lookup of the short code finds the returned record; when the driver
fails the save, that error is returned and the table is unchanged.  When
`ValidateURL(newURL)` fails with `e`, `UpdateURL` returns that error and leaves
the Link and the table unchanged. -/
theorem updateURL_frame (db : gorm.DB) (env : Env) (link : models.URL) (newURL : Str)
    (hv : db.Valid) (hlink : link ∈ db.rows) :
    (∀ v, ValidateURL newURL = .ok v →
      ∃ r, UpdateURL db env link newURL = some r ∧
        r.value.OriginalURL = v ∧ r.value.ShortCode = link.ShortCode ∧
        r.value.ID = link.ID ∧ r.value.Clicks = link.Clicks ∧
        r.value.CreatedAt = link.CreatedAt ∧
        (env.fault = none →
          r.err = none ∧
          r.db.rows = db.rows.map (fun x => if x = link then r.value else x) ∧
          r.db.seq = db.seq ∧
          r.value ∈ r.db.rows ∧
          GetURLByShortCode r.db none link.ShortCode = .ok r.value) ∧
        (∀ msg, env.fault = some msg → r.err = some (.store (.driver msg)) ∧ r.db = db)) ∧
    (∀ e, ValidateURL newURL = .error e →
      UpdateURL db env link newURL = some ⟨db, link, some (.New e)⟩) := by
  have hne : link.ID ≠ 0 := (hv.1 link hlink).1
  constructor
  · intro v hval
    cases hf : env.fault with
    | some msg =>
      refine ⟨⟨db, { link with OriginalURL := v, UpdatedAt := env.dbNow },
        some (.store (.driver msg))⟩, ?_, rfl, rfl, rfl, rfl, rfl, ?_, ?_⟩
      · unfold UpdateURL
        simp only [hval]
        rw [hf, save_fault db msg env.dbNow { link with OriginalURL := v } hne]
        rfl
      · intro h
        exact Option.noConfusion h
      · intro m hm
        rw [Option.some.inj hm]
        exact ⟨rfl, rfl⟩
    | none =>
      have hsave := save_stored db env.dbNow link { link with OriginalURL := v } hv hlink rfl rfl
      have hv1 := valid_save db none env.dbNow _ _ hv hsave
      have hrows : (db.rows.map fun r =>
            if r.ID = link.ID then
              ({ link with OriginalURL := v, UpdatedAt := env.dbNow } : models.URL) else r) =
          db.rows.map (fun x =>
            if x = link then
              ({ link with OriginalURL := v, UpdatedAt := env.dbNow } : models.URL) else x) := by
        apply List.map_congr_left
        intro x hx
        by_cases hxl : x = link
        · rw [if_pos hxl, if_pos (by rw [hxl])]
        · rw [if_neg hxl, if_neg (fun hid => hxl (valid_id_inj db hv x link hx hlink hid))]
      have hmem : ({ link with OriginalURL := v, UpdatedAt := env.dbNow } : models.URL) ∈
          (db.rows.map fun r =>
            if r.ID = link.ID then
              ({ link with OriginalURL := v, UpdatedAt := env.dbNow } : models.URL) else r) := by
        simp only [List.mem_map]
        exact ⟨link, hlink, by simp⟩
      refine ⟨⟨{ db with rows := db.rows.map fun r =>
            if r.ID = link.ID then { link with OriginalURL := v, UpdatedAt := env.dbNow } else r },
        { link with OriginalURL := v, UpdatedAt := env.dbNow }, none⟩,
        ?_, rfl, rfl, rfl, rfl, rfl, ?_, ?_⟩
      · unfold UpdateURL
        simp only [hval]
        rw [hf, hsave]
        rfl
      · intro _
        exact ⟨rfl, hrows, rfl, hmem, lookup_stored _ hv1 _ hmem⟩
      · intro m hm
        exact Option.noConfusion hm
  · intro e he
    unfold UpdateURL
    simp only [he]

/-- C6, at a concrete input: updating the stored record of the sample table to
`example.com/path`, the driver not failing, returns no error, sets the
record's original URL to `https://example.com/path`, keeps its short code, id,
clicks and creation time, and leaves the table holding exactly that record,
which the lookup of the short code finds. -/
theorem updateURL_frame_witness :
    sample.db.Valid ∧ sample.link ∈ sample.db.rows ∧
    ValidateURL "example.com/path".toList = .ok "https://example.com/path".toList ∧
    sample.env.fault = none ∧
    UpdateURL sample.db sample.env sample.link "example.com/path".toList =
      some ⟨{ rows := [{ sample.link with OriginalURL := "https://example.com/path".toList }],
              seq := 1 },
            { sample.link with OriginalURL := "https://example.com/path".toList }, none⟩ ∧
    ∃ r, UpdateURL sample.db sample.env sample.link "example.com/path".toList = some r ∧
      r.value.OriginalURL = "https://example.com/path".toList ∧
      r.value.ShortCode = sample.link.ShortCode ∧ r.value.ID = sample.link.ID ∧
      r.value.Clicks = sample.link.Clicks ∧ r.value.CreatedAt = sample.link.CreatedAt ∧
      r.err = none ∧
      r.db.rows = sample.db.rows.map (fun x => if x = sample.link then r.value else x) ∧
      r.db.seq = sample.db.seq ∧ r.value ∈ r.db.rows ∧
      GetURLByShortCode r.db none sample.link.ShortCode = .ok r.value := by
  obtain ⟨r, h1, h2, h3, h4, h5, h6, h7, _⟩ :=
    (updateURL_frame sample.db sample.env sample.link "example.com/path".toList sample_db_valid
      (by simp [sample.db])).1 _ rfl
  obtain ⟨k1, k2, k3, k4, k5⟩ := h7 rfl
  exact ⟨sample_db_valid, by simp [sample.db], rfl, rfl, rfl,
    r, h1, h2, h3, h4, h5, h6, k1, k2, k3, k4, k5⟩

/-- C6 as stated, for every Link, fails.  A copy of the stored record read
before a redirect raised the stored count to 1: `UpdateURL` with it writes its
count back, and the stored clicks go from 1 to 0.  A copy carrying another short
code and count under the stored id: the stored short code and clicks are
overwritten with them.  A record with a zero id: `Save` inserts it through
`Create`, whose hook cuts the short code to 8 bytes, so the Link's id, short
code and `created_at` all change; and with a short code under 8 bytes the
call panics. -/
theorem updateURL_frame_counterexample :
    sample.dbClicked.rows = [{ sample.link with Clicks := 1 }] ∧
    UpdateURL sample.dbClicked sample.env sample.link "example.com".toList =
      some ⟨{ rows := [{ sample.link with OriginalURL := "https://example.com".toList,
                                           Clicks := 0 }], seq := 1 },
            { sample.link with OriginalURL := "https://example.com".toList }, none⟩ ∧
    sample.db.rows = [sample.link] ∧
    sample.link.ShortCode = "123e4567".toList ∧ sample.link.Clicks = 0 ∧
    UpdateURL sample.db sample.env
        { sample.link with ShortCode := "zzzzzzzz".toList, Clicks := -5 } "example.com".toList =
      some ⟨{ rows := [{ sample.link with OriginalURL := "https://example.com".toList,
                                           ShortCode := "zzzzzzzz".toList, Clicks := -5 }],
              seq := 1 },
            { sample.link with OriginalURL := "https://example.com".toList,
                               ShortCode := "zzzzzzzz".toList, Clicks := -5 }, none⟩ ∧
    UpdateURL {} sample.env
        { OriginalURL := "https://openai.com".toList, ShortCode := "123e4567-e89b".toList }
        "example.com".toList =
      some ⟨{ rows := [{ ID := 1, OriginalURL := "https://example.com".toList,
                         ShortCode := "123e4567".toList, Clicks := 0,
                         CreatedAt := 1700000001, UpdatedAt := 1700000001 }], seq := 1 },
            { ID := 1, OriginalURL := "https://example.com".toList,
              ShortCode := "123e4567".toList, Clicks := 0,
              CreatedAt := 1700000001, UpdatedAt := 1700000001 }, none⟩ ∧
    UpdateURL {} sample.env { ShortCode := "abc".toList } "example.com".toList = none := by
  refine ⟨rfl, rfl, rfl, rfl, rfl, rfl, rfl, rfl⟩

end UpdateClaims

/-! ## Further properties of the service -/

section FurtherProperties

open services

/-- After `DeleteURL` on a stored record (the driver not failing), the lookup of
its short code answers "URL not found". -/
theorem delete_then_lookup (db : gorm.DB) (env : Env) (u : models.URL) (hv : db.Valid)
    (hu : u ∈ db.rows) (hf : env.fault = none) :
    (DeleteURL db env u).err = none ∧
    GetURLByShortCode (DeleteURL db env u).db none u.ShortCode =
      .error (.New "URL not found") := by
  have hne : u.ID ≠ 0 := (hv.1 u hu).1
  have hdel : gorm.Delete db env.fault u =
      ⟨{ db with rows := db.rows.filter fun r => decide (r.ID ≠ u.ID) }, u, none⟩ := by
    unfold gorm.Delete
    rw [if_neg hne, hf]
  unfold DeleteURL
  rw [hdel]
  refine ⟨rfl, ?_⟩
  have h0 : ((db.rows.filter fun r => decide (r.ID ≠ u.ID)).filter
      fun r => decide (r.ShortCode = u.ShortCode)) = [] := by
    rw [List.filter_eq_nil_iff]
    intro r hr
    simp only [List.mem_filter, decide_eq_true_eq] at hr
    simp only [decide_eq_true_eq]
    intro hcode
    exact hr.2 (by rw [valid_code_inj db hv r u hr.1 hu hcode])
  simp only [GetURLByShortCode, gorm.FirstByShortCode, h0, gorm.firstByID]
  rfl

/-- `delete_then_lookup` at the sample table. -/
theorem delete_then_lookup_witness :
    sample.db.Valid ∧ sample.link ∈ sample.db.rows ∧
    (DeleteURL sample.db sample.env sample.link).err = none ∧
    GetURLByShortCode (DeleteURL sample.db sample.env sample.link).db none
      sample.link.ShortCode = .error (.New "URL not found") :=
  ⟨sample_db_valid, by simp [sample.db],
    delete_then_lookup sample.db sample.env sample.link sample_db_valid (by simp [sample.db]) rfl⟩

/-- After `n` redirects in sequence through a stored record, its stored count
has grown by `n`, as long as the count stays below 2^63. -/
theorem redirects_add (n : Nat) (db : gorm.DB) (env : Env) (u : models.URL) (hv : db.Valid)
    (hu : u ∈ db.rows) (hf : env.fault = none) (h0 : 0 ≤ u.Clicks)
    (hn : u.Clicks + n < 2 ^ 63) :
    ∃ dbn un, handlers.redirects env u.ShortCode n db = some dbn ∧
      GetURLByShortCode dbn none u.ShortCode = .ok un ∧ un.Clicks = u.Clicks + n := by
  induction n generalizing db u with
  | zero =>
    exact ⟨db, u, rfl, lookup_stored db hv u hu, by simp⟩
  | succ n ih =>
    have h1 : minInt ≤ u.Clicks := by unfold minInt; omega
    have h2 : u.Clicks < maxInt := by unfold maxInt; push_cast at hn; omega
    have hstep := redirect_found db env u hv hu hf h1 h2
    have hsave := save_stored db env.dbNow u { u with Clicks := u.Clicks + 1 } hv hu rfl rfl
    have hv1 := valid_save db none env.dbNow _ _ hv hsave
    have hu1 : ({ u with Clicks := u.Clicks + 1, UpdatedAt := env.dbNow } : models.URL) ∈
        (db.rows.map fun r =>
          if r.ID = u.ID then { u with Clicks := u.Clicks + 1, UpdatedAt := env.dbNow }
          else r) := by
      simp only [List.mem_map]
      exact ⟨u, hu, by simp⟩
    obtain ⟨dbn, un, r1, r2, r3⟩ := ih _
      { u with Clicks := u.Clicks + 1, UpdatedAt := env.dbNow } hv1 hu1
      (by show (0 : Int) ≤ u.Clicks + 1; omega)
      (by show u.Clicks + 1 + (n : Int) < 2 ^ 63; push_cast at hn; omega)
    refine ⟨dbn, un, ?_, r2, ?_⟩
    · show (match handlers.redirectToURL db none env u.ShortCode with
        | none => none
        | some (db1, _) => handlers.redirects env u.ShortCode n db1) = some dbn
      rw [hstep]
      exact r1
    · rw [r3]
      show u.Clicks + 1 + (n : Int) = u.Clicks + ((n + 1 : Nat) : Int)
      push_cast
      omega

/-- `IncrementClicks`, through the redirect, applied `n` times in sequence to
the code of a record created with a count of 0 leaves a stored count of `n`
(for `n` below 2^63). -/
theorem redirects_count (n : Nat) (db : gorm.DB) (env : Env) (u : models.URL) (hv : db.Valid)
    (hu : u ∈ db.rows) (hf : env.fault = none) (h0 : u.Clicks = 0) (hn : (n : Int) < 2 ^ 63) :
    ∃ dbn un, handlers.redirects env u.ShortCode n db = some dbn ∧
      GetURLByShortCode dbn none u.ShortCode = .ok un ∧ un.Clicks = n := by
  obtain ⟨dbn, un, r1, r2, r3⟩ := redirects_add n db env u hv hu hf (by rw [h0])
    (by rw [h0]; simpa using hn)
  exact ⟨dbn, un, r1, r2, by rw [r3, h0]; simp⟩

/-- `redirects_count` at the sample table, for three redirects. -/
theorem redirects_count_witness :
    sample.db.Valid ∧ sample.link ∈ sample.db.rows ∧ sample.link.Clicks = 0 ∧
    ∃ dbn un, handlers.redirects sample.env sample.link.ShortCode 3 sample.db = some dbn ∧
      GetURLByShortCode dbn none sample.link.ShortCode = .ok un ∧ un.Clicks = 3 :=
  ⟨sample_db_valid, by simp [sample.db], rfl,
    redirects_count 3 sample.db sample.env sample.link sample_db_valid (by simp [sample.db])
      rfl rfl (by decide)⟩

/-- The end-to-end run of the specification: `POST /api/urls {"url":"openai.com"}`
answers 201 with an 8-byte `short_code` and `original_url`
`https://openai.com`; `GET /<short_code>` then redirects with 302 to
`https://openai.com`; the statistics afterwards show one click; an unknown code
answers 404 `{"error":"URL not found"}`; and a body without `url` answers 400
`{"error":"URL is required"}`. -/
theorem end_to_end :
    handlers.createShortURL {} sample.env "localhost:8080".toList (some "openai.com".toList) =
      some (sample.db, .JSON 201
        (.created "localhost:8080/123e4567".toList "https://openai.com".toList
          "123e4567".toList)) ∧
    "123e4567".toList.length = 8 ∧
    handlers.redirectToURL sample.db none sample.env "123e4567".toList =
      some (sample.dbClicked, .Redirect 302 "https://openai.com".toList) ∧
    handlers.getURLStats sample.dbClicked none "123e4567".toList =
      .JSON 200 (.stats "123e4567".toList "https://openai.com".toList 1 1700000000) ∧
    handlers.getURL sample.dbClicked none "doesnotexist".toList =
      .JSON 404 (.error "URL not found") ∧
    handlers.createShortURL {} sample.env "localhost:8080".toList none =
      some ({}, .JSON 400 (.error "URL is required")) := by
  refine ⟨rfl, rfl, rfl, rfl, rfl, rfl⟩

/-- In every table the service can reach, primary keys are non-zero and two
rows with the same primary key, or with the same short code, are the same row. -/
theorem reachable_schema (db : gorm.DB) (h : Reachable db) :
    (∀ r ∈ db.rows, r.ID ≠ 0) ∧
    (∀ a ∈ db.rows, ∀ b ∈ db.rows, a.ID = b.ID → a = b) ∧
    (∀ a ∈ db.rows, ∀ b ∈ db.rows, a.ShortCode = b.ShortCode → a = b) := by
  have hv := reachable_valid db h
  exact ⟨fun r hr => (hv.1 r hr).1, fun a ha b hb e => valid_id_inj db hv a b ha hb e,
    fun a ha b hb e => valid_code_inj db hv a b ha hb e⟩

/-- `reachable_schema` at the sample table. -/
theorem reachable_schema_witness :
    Reachable sample.db ∧
    (∀ r ∈ sample.db.rows, r.ID ≠ 0) ∧
    (∀ a ∈ sample.db.rows, ∀ b ∈ sample.db.rows, a.ID = b.ID → a = b) ∧
    (∀ a ∈ sample.db.rows, ∀ b ∈ sample.db.rows, a.ShortCode = b.ShortCode → a = b) :=
  ⟨sample_db_reachable, reachable_schema sample.db sample_db_reachable⟩

end FurtherProperties

end UrlShortener
